import Mathlib

set_option linter.unusedVariables false

/-
Verification development for the downcast repository.

Shallow embedding conventions:
- A calendar instant (the `T` class of downcast/timestamp.py, a wrapper
  around Python datetime) is modelled as an integer count of microseconds
  from an arbitrary epoch; timezone-aware comparison and subtraction of
  datetimes compare instants, which the integer model captures.  Where the
  timezone label itself matters (bcpdstfix), the instant is paired with the
  UTC offset in minutes.
- A sequence number is an integer count of milliseconds (DWC counter).
- `delta_ms` of downcast/timestamp.py computes
  ((delta.days * 86400 + delta.seconds) * 1000 + delta.microseconds // 1000)
  which, by the normalisation of Python timedelta (0 <= seconds < 86400,
  0 <= microseconds < 1000000), equals the floor of the difference in
  microseconds divided by 1000.
-/

namespace TSM

/-- delta_ms (downcast/timestamp.py): difference of two instants in whole
milliseconds, rounded toward minus infinity (Python floor division). -/
def delta_ms (a b : Int) : Int := Int.fdiv (a - b) 1000

end TSM

/-
Model of ArchiveLogFile.__init__ (output/files.py) and of the way the
numerics finalizer (downcast/output/numerics.py) reads log lines back
through ArchiveLogReader (downcast/output/log.py).  File contents are lists
of bytes; lines are lists of bytes.
-/

namespace LogFileM

/-- The corruption marker appended by ArchiveLogFile.__init__:
the Python bytes literal b'\030\r####\030\n', i.e. bytes
0x18 0x0D 0x23 0x23 0x23 0x23 0x18 0x0A. -/
def marker : List Nat := [24, 13, 35, 35, 35, 35, 24, 10]

/-- Contents of an archive log file right after ArchiveLogFile.__init__.
If the file is empty, the seek(-1, SEEK_END) fails with EINVAL and the
constructor returns; otherwise the last byte is read and the marker is
appended whenever that byte is not a newline. -/
def openLogContents (c : List Nat) : List Nat :=
  if c = [] then c
  else if c.getLast? = some 10 then c
  else c ++ marker

/-- ASCII whitespace bytes accepted around a Python integer literal
by int(bytes). -/
def isSpaceByte (b : Nat) : Bool :=
  b = 32 || b = 9 || b = 10 || b = 13 || b = 11 || b = 12

def isDigitByte (b : Nat) : Bool := 48 ≤ b && b ≤ 57

/-- Whether Python int() accepts this byte string (whitespace-stripped
optional sign followed by at least one digit; digit-group underscores,
which never occur in downcast log files, are not modelled). -/
def intParses (l : List Nat) : Bool :=
  match ((l.dropWhile isSpaceByte).reverse.dropWhile isSpaceByte).reverse with
  | [] => false
  | b :: rest =>
      if b = 43 || b = 45 then !rest.isEmpty && rest.all isDigitByte
      else (b :: rest).all isDigitByte

/-- ArchiveLogReader.unsorted_items yields a line as a data record exactly
when parsing it as a sequence number ('S' + integer) or timestamp
(integer) raises ValueError.  (Lines produced by file iteration are never
empty, so line[0] is always defined.) -/
def isDataLine (l : List Nat) : Bool :=
  match l with
  | 83 :: rest => !intParses rest
  | _ => !intParses l

def readerDataLines (lines : List (List Nat)) : List (List Nat) :=
  lines.filter isDataLine

/-- Data lines retained by NumericValueFinalizer: lines containing the
byte 0x18 (b'\030') are skipped, both in the unsorted column scan and in
finalize_record. -/
def numericsKeptLines (lines : List (List Nat)) : List (List Nat) :=
  (readerDataLines lines).filter (fun l => !l.contains 24)

/-- Claim C9, counterexample: opening a log file whose contents are the
single byte 'A' (no trailing newline) appends the corruption marker, and
the appended marker is 8 bytes long, not 7 as the claim states. -/
theorem c9_marker_counterexample :
    openLogContents [65] = [65] ++ marker ∧
    (openLogContents [65]).length = 9 ∧
    ¬ (openLogContents [65]).length = [65].length + 7 := by
  decide

/-- Claim C9 (amended: the corruption marker \x18\r####\x18\n is 8 bytes,
not 7): when an archive log file is opened and its existing contents are
non-empty and do not end with a newline byte, the 8-byte marker is
appended, and the numerics finalizer skips every log line containing the
byte 0x18. -/
theorem c9_marker_amended (c : List Nat) (h1 : c ≠ [])
    (h2 : c.getLast? ≠ some 10) :
    openLogContents c = c ++ marker ∧ marker.length = 8 ∧
    (∀ lines l, l ∈ numericsKeptLines lines → l.contains 24 = false) := by
  refine ⟨?_, rfl, ?_⟩
  · simp [openLogContents, h1, h2]
  · intro lines l hl
    have := List.of_mem_filter hl
    simpa using this

/-- Witness for c9_marker_amended at the concrete contents [65]. -/
theorem c9_marker_amended_witness :
    ([65] : List Nat) ≠ [] ∧ ([65] : List Nat).getLast? ≠ some 10 ∧
    (openLogContents [65] = [65] ++ marker ∧ marker.length = 8 ∧
     (∀ lines l, l ∈ numericsKeptLines lines → l.contains 24 = false)) :=
  ⟨by decide, by decide, c9_marker_amended [65] (by decide) (by decide)⟩

end LogFileM

/-
Model of fixup_bcp_file.fix_timestamp (downcast/bcpdstfix.py).

A timezone-aware timestamp is an instant (microseconds) paired with its
UTC offset in minutes; datetime comparison and subtraction act on the
instant, datetime.timezone equality compares offsets, and astimezone
relabels the offset without changing the instant.

For the zone EST5EDT,M3.2.0,M11.1.0 and the local date 2017-11-05 (the
first Sunday of November 2017, a fall-back transition date),
get_transition_time consults the C library timezone machinery
(time.tzset / time.mktime / time.localtime), which lies outside the
repository.  Per its docstring and the spec, it returns the transition
point in local summer time, 2017-11-05 02:00:00 -04:00, and in local
winter time, 2017-11-05 01:00:00 -05:00 — the same instant,
2017-11-05 06:00:00 UTC.  The model takes the returned pair as input;
instants below are measured in microseconds from 2017-11-05 00:00:00 UTC.
-/

namespace BcpFixM

structure Ts where
  utc : Int
  offsMin : Int
deriving DecidableEq

/-- n minutes in microseconds. -/
def minUs (n : Int) : Int := n * 60000000

/-- The winter-time transition point returned by get_transition_time for
EST5EDT,M3.2.0,M11.1.0 on 2017-11-05: 01:00:00 -05:00 = 06:00:00 UTC. -/
def winterTT : Ts := ⟨minUs 360, -300⟩

/-- The summer-time UTC offset of that zone, in minutes (-04:00). -/
def summerOffsMin : Int := -240

/-- fix_timestamp of fixup_bcp_file: ambiguous_start = winter_tt,
ambiguous_end = winter_tt + 65 minutes, corrected_tz = summer offset plus
60 minutes; timestamps outside the ambiguous window, or not labelled with
the winter offset, or at most 30 minutes after the patient mapping time,
are returned unchanged; otherwise one hour is subtracted and the result
relabelled with corrected_tz.  `none` models the exception raised on an
unknown mapping id. -/
def fixTimestamp (wtt : Ts) (summerOffs : Int) (mapping : Nat → Option Ts)
    (mappingId : Nat) (t : Ts) : Option Ts :=
  if ¬ (wtt.utc ≤ t.utc ∧ t.utc < wtt.utc + minUs 65) then some t
  else
    match mapping mappingId with
    | none => none
    | some mts =>
        if t.offsMin ≠ wtt.offsMin then some t
        else if t.utc - mts.utc ≤ minUs 30 then some t
        else some ⟨t.utc - minUs 60, summerOffs + 60⟩

/-- The message timestamp of the scenario:
2017-11-05 01:30:00.000 -05:00 = 06:30:00 UTC. -/
def msgTs : Ts := ⟨minUs 390, -300⟩

/-- The patient mapping time of the scenario:
2017-11-05 01:00:00.000 -05:00 = 06:00:00 UTC. -/
def mapTs : Ts := ⟨minUs 360, -300⟩

/-- What the claim expects the timestamp to be rewritten to:
2017-11-05 02:30:00.000 -03:00 = 05:30:00 UTC at offset -03:00. -/
def claimedResult : Ts := ⟨minUs 330, -180⟩

/-- A mapping time strictly more than 30 minutes before the message:
2017-11-05 00:59:00.000 -05:00 = 05:59:00 UTC. -/
def mapTsEarlier : Ts := ⟨minUs 359, -300⟩

/-- Claim C8, counterexample: with a gap of exactly 30 minutes between the
message and the patient mapping time, fix_timestamp takes the
`timestamp - mts <= dt_30_minutes` branch and returns the timestamp
unchanged; it is not rewritten to 2017-11-05 02:30:00.000 -03:00. -/
theorem c8_fix_timestamp_counterexample :
    fixTimestamp winterTT summerOffsMin (fun _ => some mapTs) 0 msgTs
      = some msgTs ∧
    fixTimestamp winterTT summerOffsMin (fun _ => some mapTs) 0 msgTs
      ≠ some claimedResult := by
  decide

/-- Claim C8 (amended: the rewrite requires the message to be strictly
more than 30 minutes after the mapping time; at exactly 30 minutes the
timestamp is left unchanged): with mapping time
2017-11-05 00:59:00.000 -05:00 (a 31-minute gap), the message timestamp
2017-11-05 01:30:00.000 -05:00 is rewritten to
2017-11-05 02:30:00.000 -03:00. -/
theorem c8_fix_timestamp_amended :
    fixTimestamp winterTT summerOffsMin (fun _ => some mapTsEarlier) 0 msgTs
      = some claimedResult ∧
    fixTimestamp winterTT summerOffsMin (fun _ => some mapTs) 0 msgTs
      = some msgTs := by
  decide

end BcpFixM

/-
Model of ExtractorQueue.push_message (downcast/extractor.py) together
with its helper _update_pointer.  Python dicts preserve insertion order;
they are modelled as association lists with new keys appended at the end.
The per-queue hooks message_channel / message_timestamp / message_ttl and
the sha256 message hash are supplied as parameters.
-/

namespace ExtractorM

structure Msg where
  chan : Nat
  mid : Nat
  ts : Int
deriving DecidableEq

def getEntry {α : Type} (d : List (Int × α)) (k : Int) : Option α :=
  (d.find? (fun e => e.1 == k)).map (fun e => e.2)

def setEntry {α : Type} (d : List (Int × α)) (k : Int) (v : α) :
    List (Int × α) :=
  if d.any (fun e => e.1 == k) then
    d.map (fun e => if e.1 == k then (k, v) else e)
  else d ++ [(k, v)]

def delEntry {α : Type} (d : List (Int × α)) (k : Int) : List (Int × α) :=
  d.filter (fun e => !(e.1 == k))

structure EQState where
  newest : Option Int
  lastBatchCount : Nat
  lastBatchCountAtNewest : Nat
  unackedNew : List (Int × List (Nat × Nat))
  ackedNew : List (Int × List (Nat × Nat))
  ackedSaved : List (Int × List Nat)
  oldestUnacked : Option Int
deriving DecidableEq

/-- The first loop of _update_pointer: delete leading empty lists of
unacked messages; return the remaining dict and the first non-empty key. -/
def dropEmptyHead : List (Int × List (Nat × Nat)) →
    List (Int × List (Nat × Nat)) × Option Int
  | [] => ([], none)
  | (k, v) :: rest =>
      if v = [] then dropEmptyHead rest else ((k, v) :: rest, some k)

/-- ExtractorQueue._update_pointer. -/
def updatePointer (q : EQState) : EQState :=
  let (ua, ts?) := dropEmptyHead q.unackedNew
  let q := { q with unackedNew := ua }
  match ts? with
  | none => q
  | some ts =>
      let stale : Bool := match q.oldestUnacked with
        | some o => decide (ts ≤ o)
        | none => false
      if stale then q
      else
        { q with
          oldestUnacked := some ts,
          ackedNew := q.ackedNew.dropWhile (fun e => decide (e.1 < ts)),
          ackedSaved := q.ackedSaved.filter (fun e => !(decide (e.1 < ts))) }

/-- ExtractorQueue.push_message.  The second component of the result is
the send_message call forwarded to the dispatcher, if any:
(channel, message, ttl). -/
def pushMessage (ttlF : Msg → Nat) (hashF : Msg → Nat)
    (q : EQState) (msg : Msg) : EQState × Option (Nat × Msg × Nat) :=
  let ts := msg.ts
  let channel := msg.chan
  let ttl := ttlF msg
  let q := { q with lastBatchCount := q.lastBatchCount + 1 }
  let dropped := match q.newest with
    | some n => decide (ts < n)
    | none => false
  if dropped then (q, none)
  else
    let q := match q.newest with
      | some n =>
          if ts = n then
            { q with lastBatchCountAtNewest := q.lastBatchCountAtNewest + 1 }
          else
            { q with newest := some ts, lastBatchCountAtNewest := 1 }
      | none => { q with newest := some ts, lastBatchCountAtNewest := 1 }
    let q := if (getEntry q.unackedNew ts).isNone then
        { q with unackedNew := q.unackedNew ++ [(ts, [])] } else q
    let q := if (getEntry q.ackedNew ts).isNone then
        { q with ackedNew := q.ackedNew ++ [(ts, [])] } else q
    let ua := (getEntry q.unackedNew ts).getD []
    let ak := (getEntry q.ackedNew ts).getD []
    if (channel, msg.mid) ∈ ua then (q, none)
    else if (channel, msg.mid) ∈ ak then (q, none)
    else
      let saved := match getEntry q.ackedSaved ts with
        | some hs => decide (hashF msg ∈ hs)
        | none => false
      if saved then
        let hs := (getEntry q.ackedSaved ts).getD []
        let hs' := hs.erase (hashF msg)
        let q := if hs' = [] then { q with ackedSaved := delEntry q.ackedSaved ts }
                 else { q with ackedSaved := setEntry q.ackedSaved ts hs' }
        let q := { q with ackedNew := setEntry q.ackedNew ts (ak ++ [(channel, msg.mid)]) }
        (q, none)
      else
        let q := { q with unackedNew := setEntry q.unackedNew ts (ua ++ [(channel, msg.mid)]) }
        let q := updatePointer q
        (q, some (channel, msg, ttl))

/-- Claim C10: when newest_seen_timestamp is set and the message's
timestamp is strictly earlier, push_message only increments the batch
counter (a warning is logged) and returns without forwarding anything to
the dispatcher and without touching the acked or unacked sets. -/
theorem c10_drop_out_of_order (ttlF hashF : Msg → Nat) (q : EQState)
    (msg : Msg) (n : Int) (h1 : q.newest = some n) (h2 : msg.ts < n) :
    pushMessage ttlF hashF q msg =
      ({ q with lastBatchCount := q.lastBatchCount + 1 }, none) := by
  simp [pushMessage, h1, h2]

/-- Witness for c10_drop_out_of_order at a concrete queue state. -/
theorem c10_drop_out_of_order_witness :
    (⟨some 10, 3, 1, [], [], [], none⟩ : EQState).newest = some 10 ∧
    (⟨0, 0, (5 : Int)⟩ : Msg).ts < 10 ∧
    pushMessage (fun _ => 7) (fun _ => 0)
        ⟨some 10, 3, 1, [], [], [], none⟩ ⟨0, 0, 5⟩ =
      (⟨some 10, 4, 1, [], [], [], none⟩, none) :=
  ⟨rfl, by decide,
   c10_drop_out_of_order (fun _ => 7) (fun _ => 0)
     ⟨some 10, 3, 1, [], [], [], none⟩ ⟨0, 0, 5⟩ 10 rfl (by decide)⟩

end ExtractorM

/-
Model of Archive.get_record and Archive._finalize_record
(downcast/output/archive.py).  Only the in-memory record table, the
end-time/split logic, the dump-mode flag and the list of spawned
finalization processes are modelled; file-system side effects
(directories, property files) are not needed by the claim.  A record id
is the resolved patient id if the mapping is known, else the mapping id;
the two name spaces are kept apart with a sum type, mirroring that the
underlying UUID strings are distinct.
-/

namespace ArchiveM

abbrev RecId := Nat ⊕ Nat

structure Rec where
  endTime : Option Int
  datestamp : Int
  dump : Bool
deriving DecidableEq

structure Msg where
  server : Nat
  mappingId : Option Nat
  patientId : Nat
  ts : Int
deriving DecidableEq

structure Arch where
  records : List ((Nat × RecId) × Rec)
  splitInterval : Int
  dumpBefore : Int
  procs : List (Nat × RecId)
deriving DecidableEq

def keyIs (key : Nat × RecId) (e : (Nat × RecId) × Rec) : Bool :=
  decide (e.1 = key)

def lookupRec (a : Arch) (key : Nat × RecId) : Option Rec :=
  (a.records.find? (keyIs key)).map (fun e => e.2)

def setRec (a : Arch) (key : Nat × RecId) (r : Rec) : Arch :=
  { a with records := a.records.map (fun e => if keyIs key e then (key, r) else e) }

/-- record_id resolution at the top of get_record: patient_id if the
mapping is known (message.origin.get_patient_id), else mapping_id; for
messages without a mapping_id attribute, the message's own patient_id. -/
def resolveId (pat : Nat → Option Nat) (msg : Msg) : RecId :=
  match msg.mappingId with
  | some mid =>
      match pat mid with
      | some p => Sum.inl p
      | none => Sum.inr mid
  | none => Sum.inl msg.patientId

/-- Archive._finalize_record: mark finalizing and flush (file effects not
modelled), remove the record from the active table, and spawn a child
process that will run the finalizers. -/
def finalizeRecord (a : Arch) (key : Nat × RecId) : Arch :=
  { a with records := a.records.filter (fun e => !(keyIs key e)),
           procs := a.procs ++ [key] }

/-- Creation of a fresh ArchiveRecord inside get_record: the datestamp
comes from the message timestamp, end_time is set to it, and dump mode is
enabled when the timestamp precedes dump_records_before. -/
def newRecord (a : Arch) (key : Nat × RecId) (msg : Msg) : Arch :=
  let r : Rec := ⟨some msg.ts, msg.ts, decide (msg.ts < a.dumpBefore)⟩
  { a with records := a.records ++ [(key, r)] }

/-- Archive.get_record. -/
def getRecord (pat : Nat → Option Nat) (a : Arch) (msg : Msg) :
    Arch × (Nat × RecId) :=
  let key := (msg.server, resolveId pat msg)
  match lookupRec a key with
  | some r =>
      match r.endTime with
      | none => (setRec a key { r with endTime := some msg.ts }, key)
      | some e =>
          let n := TSM.delta_ms msg.ts e
          if n > a.splitInterval then
            (newRecord (finalizeRecord a key) key msg, key)
          else if n > 0 then
            (setRec a key { r with endTime := some msg.ts }, key)
          else (a, key)
  | none => (newRecord a key msg, key)

theorem find_update (l : List ((Nat × RecId) × Rec)) (key : Nat × RecId)
    (r : Rec) (h : (l.find? (keyIs key)).isSome = true) :
    ((l.map (fun e => if keyIs key e then (key, r) else e)).find?
      (keyIs key)) = some (key, r) := by
  induction l with
  | nil => simp at h
  | cons e t ih =>
      simp only [List.map_cons]
      by_cases hk : e.1 = key
      · have he : (if keyIs key e then (key, r) else e) = (key, r) := by
          simp [keyIs, hk]
        rw [he, List.find?_cons_of_pos]
        simp [keyIs]
      · have he : (if keyIs key e then (key, r) else e) = e := by
          simp [keyIs, hk]
        have hne : ¬ (keyIs key e = true) := by simp [keyIs, hk]
        rw [he, List.find?_cons_of_neg _ hne]
        rw [List.find?_cons_of_neg _ hne] at h
        exact ih h

theorem find_filter_ne (l : List ((Nat × RecId) × Rec)) (key : Nat × RecId) :
    (l.filter (fun e => !(keyIs key e))).find? (keyIs key) = none := by
  rw [List.find?_eq_none]
  intro x hx
  have := List.of_mem_filter hx
  simp [keyIs] at this ⊢
  exact this

theorem lookupRec_newRecord (a : Arch) (key : Nat × RecId) (msg : Msg)
    (h : lookupRec a key = none) :
    lookupRec (newRecord a key msg) key =
      some ⟨some msg.ts, msg.ts, decide (msg.ts < a.dumpBefore)⟩ := by
  unfold lookupRec newRecord at *
  rcases h1 : a.records.find? (keyIs key) with _ | e
  · rw [List.find?_append, h1]
    have : List.find? (keyIs key)
        [(key, (⟨some msg.ts, msg.ts, decide (msg.ts < a.dumpBefore)⟩ : Rec))]
        = some (key, ⟨some msg.ts, msg.ts, decide (msg.ts < a.dumpBefore)⟩) := by
      rw [List.find?_cons_of_pos]
      simp [keyIs]
    simp [this]
  · rw [h1] at h
    simp at h

theorem lookupRec_finalizeRecord (a : Arch) (key : Nat × RecId) :
    lookupRec (finalizeRecord a key) key = none := by
  unfold lookupRec finalizeRecord
  rw [find_filter_ne]
  rfl

theorem lookupRec_setRec (a : Arch) (key : Nat × RecId) (r0 r : Rec)
    (h : lookupRec a key = some r0) :
    lookupRec (setRec a key r) key = some r := by
  unfold lookupRec setRec at *
  have hs : (a.records.find? (keyIs key)).isSome = true := by
    rcases h1 : a.records.find? (keyIs key) with _ | e
    · rw [h1] at h
      simp at h
    · simp
  rw [find_update a.records key r hs]
  rfl

/-- Claim C6: when the record for the message exists and has a stored
end_time e, get_record finalizes it (spawning a finalization child
process) and returns a fresh record exactly when delta_ms between the
message timestamp and e exceeds split_interval; otherwise it returns the
existing record with end_time updated monotonically (to the message
timestamp if the message is later, else unchanged). -/
theorem c6_get_record_split (pat : Nat → Option Nat) (a : Arch) (msg : Msg)
    (r : Rec) (e : Int)
    (h1 : lookupRec a (msg.server, resolveId pat msg) = some r)
    (h2 : r.endTime = some e) :
    (getRecord pat a msg).2 = (msg.server, resolveId pat msg) ∧
    (TSM.delta_ms msg.ts e > a.splitInterval →
      (getRecord pat a msg).1.procs
        = a.procs ++ [(msg.server, resolveId pat msg)] ∧
      lookupRec (getRecord pat a msg).1 (msg.server, resolveId pat msg) =
        some ⟨some msg.ts, msg.ts, decide (msg.ts < a.dumpBefore)⟩) ∧
    (¬ TSM.delta_ms msg.ts e > a.splitInterval →
      (getRecord pat a msg).1.procs = a.procs ∧
      lookupRec (getRecord pat a msg).1 (msg.server, resolveId pat msg) =
        some ⟨some (if TSM.delta_ms msg.ts e > 0 then msg.ts else e),
              r.datestamp, r.dump⟩ ∧
      e ≤ (if TSM.delta_ms msg.ts e > 0 then msg.ts else e)) := by
  unfold getRecord
  simp only [h1, h2]
  by_cases hsplit : TSM.delta_ms msg.ts e > a.splitInterval
  · refine ⟨by simp [hsplit], fun _ => ?_, fun hc => absurd hsplit hc⟩
    constructor
    · simp [hsplit, newRecord, finalizeRecord]
    · simp only [hsplit, if_pos]
      have hfin := lookupRec_finalizeRecord a (msg.server, resolveId pat msg)
      have hnew := lookupRec_newRecord
        (finalizeRecord a (msg.server, resolveId pat msg))
        (msg.server, resolveId pat msg) msg hfin
      simpa [finalizeRecord] using hnew
  · refine ⟨?_, fun hc => absurd hc hsplit, fun _ => ?_⟩
    · simp only [hsplit, if_false]
      split
      · rfl
      · rfl
    by_cases hpos : TSM.delta_ms msg.ts e > 0
    · refine ⟨by simp [hsplit, hpos, setRec], ?_, ?_⟩
      · have hset := lookupRec_setRec a (msg.server, resolveId pat msg) r
          ({ r with endTime := some msg.ts }) h1
        have hr : ({ r with endTime := some msg.ts } : Rec)
            = ⟨some msg.ts, r.datestamp, r.dump⟩ := rfl
        rw [hr] at hset
        simp only [hsplit, hpos, if_true, if_false, if_pos]
        exact hset
      · have hlt : e < msg.ts := by
          have hre : TSM.delta_ms msg.ts e = (msg.ts - e) / 1000 :=
            Int.fdiv_eq_ediv _ (by norm_num)
          rw [hre] at hpos
          omega
        simp only [hpos, if_pos]
        omega
    · refine ⟨by simp [hsplit, hpos], ?_, by simp [hpos]⟩
      simp only [hsplit, hpos, if_false]
      rw [h1]
      cases r with
      | mk et ds du =>
          simp at h2
          subst h2
          rfl

/-- Witness for c6_get_record_split: two messages 60 minutes + 1 ms apart
(instants 0 and 3600001000000 microseconds) cause a split: the first
record is handed to a spawned finalization process and a fresh record is
created with the later end time. -/
theorem c6_get_record_split_witness :
    lookupRec ((getRecord (fun _ => none)
        ⟨[], 3600000, -1000000000000000, []⟩ ⟨0, none, 7, 0⟩).1)
        (0, Sum.inl 7) = some ⟨some 0, 0, false⟩ ∧
    (⟨some 0, 0, false⟩ : Rec).endTime = some (0 : Int) ∧
    TSM.delta_ms (3600001000000 : Int) 0 >
      ((getRecord (fun _ => none)
        ⟨[], 3600000, -1000000000000000, []⟩ ⟨0, none, 7, 0⟩).1).splitInterval ∧
    ((getRecord (fun _ => none)
        (getRecord (fun _ => none)
          ⟨[], 3600000, -1000000000000000, []⟩ ⟨0, none, 7, 0⟩).1
        ⟨0, none, 7, 3600001000000⟩).1.procs
      = ((getRecord (fun _ => none)
          ⟨[], 3600000, -1000000000000000, []⟩ ⟨0, none, 7, 0⟩).1).procs
        ++ [(0, Sum.inl 7)] ∧
     lookupRec (getRecord (fun _ => none)
        (getRecord (fun _ => none)
          ⟨[], 3600000, -1000000000000000, []⟩ ⟨0, none, 7, 0⟩).1
        ⟨0, none, 7, 3600001000000⟩).1 (0, Sum.inl 7)
      = some ⟨some 3600001000000, 3600001000000,
          decide ((3600001000000 : Int) <
            ((getRecord (fun _ => none)
              ⟨[], 3600000, -1000000000000000, []⟩ ⟨0, none, 7, 0⟩).1).dumpBefore)⟩) := by
  have h1 : lookupRec ((getRecord (fun _ => none)
      ⟨[], 3600000, -1000000000000000, []⟩ ⟨0, none, 7, 0⟩).1)
      (0, Sum.inl 7) = some ⟨some 0, 0, false⟩ := by decide
  have h3 : TSM.delta_ms (3600001000000 : Int) 0 >
      ((getRecord (fun _ => none)
        ⟨[], 3600000, -1000000000000000, []⟩ ⟨0, none, 7, 0⟩).1).splitInterval := by
    decide
  exact ⟨h1, rfl, h3,
    (c6_get_record_split (fun _ => none)
      (getRecord (fun _ => none)
        ⟨[], 3600000, -1000000000000000, []⟩ ⟨0, none, 7, 0⟩).1
      ⟨0, none, 7, 3600001000000⟩ ⟨some 0, 0, false⟩ 0 h1 rfl).2.1 h3⟩

end ArchiveM

/-
Model of TimeMap (downcast/output/timemap.py).  A span entry
[start, end, baset, pending] becomes a structure with start/stop sequence
numbers in milliseconds, the base instant in microseconds, and the set of
pending non-reference instants as a duplicate-free list.  Inside a span,
wallclock(seq) = base + 1000 * seq microseconds.
-/

namespace TimeMapM

structure Span where
  start : Int
  stop : Int
  base : Int
  pending : List Int
deriving DecidableEq

abbrev TM := List Span

/-- Python set.add: insert if not present. -/
def insertPending (t : Int) (l : List Int) : List Int :=
  if t ∈ l then l else l ++ [t]

/-- TimeMap.set_time.  The index i is bisect.bisect_right(entries, [seqnum]):
on the sorted span list this is the number of spans whose start is below
seqnum, because the Python list comparison ranks the one-element list
[seqnum] below every entry [start, end, baset, set] with start >= seqnum
and above every entry with start < seqnum. -/
def setTime (tm : TM) (seqnum time : Int) : TM :=
  let baset := time - 1000 * seqnum
  let i := (tm.takeWhile (fun e => decide (e.start < seqnum))).length
  let p? := if i = 0 then none else tm.get? (i - 1)
  let n? := tm.get? i
  match p?, n? with
  | some p, some n =>
      if seqnum ≤ p.stop then tm
      else if seqnum ≥ n.start then tm
      else if p.base = baset ∧ seqnum - p.stop < 30000 then
        let tm1 := tm.set (i - 1) { p with stop := seqnum }
        if n.base = baset ∧ n.start - seqnum < 30000 then
          (tm1.set i { n with start := p.start }).eraseIdx (i - 1)
        else tm1
      else if n.base = baset ∧ n.start - seqnum < 30000 then
        tm.set i { n with start := seqnum }
      else tm.insertIdx i ⟨seqnum, seqnum, baset, []⟩
  | some p, none =>
      if seqnum ≤ p.stop then tm
      else if p.base = baset ∧ seqnum - p.stop < 30000 then
        tm.set (i - 1) { p with stop := seqnum }
      else tm.insertIdx i ⟨seqnum, seqnum, baset, []⟩
  | none, some n =>
      if seqnum ≥ n.start then tm
      else if n.base = baset ∧ n.start - seqnum < 30000 then
        tm.set i { n with start := seqnum }
      else tm.insertIdx i ⟨seqnum, seqnum, baset, []⟩
  | none, none => tm.insertIdx i ⟨seqnum, seqnum, baset, []⟩

/-- TimeMap.add_time: attach the instant to the pending set of the first
span that starts after it; drop it if it falls inside a known span. -/
def addTime (tm : TM) (time : Int) : TM :=
  match tm with
  | [] => []
  | e :: rest =>
      if time < e.base + 1000 * e.start then
        { e with pending := insertPending time e.pending } :: rest
      else if time ≤ e.base + 1000 * e.stop then e :: rest
      else e :: addTime rest time

/-- The first phase of TimeMap.get_seqnum: the latest span for which
sn = delta_ms(time, base) lies inside the span and at or below the limit
(Python keeps overwriting best_known, so the last match wins). -/
def bestKnown (time lim : Int) : TM → Option Int
  | [] => none
  | e :: rest =>
      match bestKnown time lim rest with
      | some sn => some sn
      | none =>
          if e.start ≤ TSM.delta_ms time e.base ∧
             TSM.delta_ms time e.base ≤ e.stop ∧
             TSM.delta_ms time e.base ≤ lim
          then some (TSM.delta_ms time e.base) else none

/-- The second phase of TimeMap.get_seqnum: the earliest span for which
the timestamp lies in its past or present. -/
def firstPast (time : Int) : TM → Option Int
  | [] => none
  | e :: rest =>
      if TSM.delta_ms time e.base ≤ e.stop then some (TSM.delta_ms time e.base)
      else firstPast time rest

/-- TimeMap.get_seqnum (limit = none models the default argument, which
the code replaces by the end of the last span). -/
def get_seqnum (tm : TM) (time : Int) (limit : Option Int) : Option Int :=
  match tm with
  | [] => none
  | e :: rest =>
      let lastSpan := (e :: rest).getLast (List.cons_ne_nil e rest)
      let lim := limit.getD lastSpan.stop
      match bestKnown time lim (e :: rest) with
      | some sn => some sn
      | none =>
          match firstPast time (e :: rest) with
          | some sn => some sn
          | none => some (TSM.delta_ms time lastSpan.base)

/-- One span step of the TimeMap.get_time loop: keep the first span of
minimal distance delta = max(start - seq, seq - end). -/
def getTimeStep (sn : Int) (acc : Option (Int × Int)) (e : Span) :
    Option (Int × Int) :=
  match acc with
  | none => some (e.base + 1000 * sn, max (e.start - sn) (sn - e.stop))
  | some (bt, bd) =>
      if max (e.start - sn) (sn - e.stop) < bd then
        some (e.base + 1000 * sn, max (e.start - sn) (sn - e.stop))
      else some (bt, bd)

def getTimeGo (sn : Int) : Option (Int × Int) → TM → Option (Int × Int)
  | acc, [] => acc
  | acc, e :: rest => getTimeGo sn (getTimeStep sn acc e) rest

/-- TimeMap.get_time. -/
def get_time (tm : TM) (sn : Int) : Option Int :=
  (getTimeGo sn none tm).map (fun x => x.1)

/-- Ascending insertion sort, modelling Python sorted() on a set of
instants. -/
def insSorted (x : Int) : List Int → List Int
  | [] => [x]
  | y :: t => if x ≤ y then x :: y :: t else y :: insSorted x t

def sortInts (l : List Int) : List Int := l.foldr insSorted []

/-- _differences: consecutive differences (cur - prev, prev). -/
def diffs : List Int → List (Int × Int)
  | [] => []
  | [_] => []
  | a :: b :: rest => (b - a, a) :: diffs (b :: rest)

/-- Python max() on (timedelta, datetime) pairs: lexicographic, keeping
the first argument on ties. -/
def pairMax (a b : Int × Int) : Int × Int :=
  if a.1 > b.1 ∨ (a.1 = b.1 ∧ a.2 ≥ b.2) then a else b

/-- One step of TimeMap.resolve_gaps at index idx (the span n), with the
span p read from index idx - 1. -/
def resolveStep (tm : TM) (idx : Nat) : TM :=
  match tm.get? idx, (if idx = 0 then none else tm.get? (idx - 1)) with
  | some n, some p =>
      if n.pending = [] then tm
      else
        let gapstart := p.base + 1000 * p.stop
        let gapend := n.base + 1000 * n.start
        let pend := insertPending gapend (insertPending gapstart n.pending)
        let tm := tm.set idx { n with pending := pend }
        let best := (diffs (sortInts pend)).foldl pairMax (0, gapstart)
        let tbefore := best.2
        let tafter := best.2 + best.1
        let snp := TSM.delta_ms tbefore p.base
        let snn := TSM.delta_ms tafter n.base
        setTime (setTime tm snp tbefore) snn tafter
  | _, _ => tm

def resolveGapsGo : Nat → Nat → TM → TM
  | _, 0, tm => tm
  | idx, fuel + 1, tm =>
      if idx < tm.length then resolveGapsGo (idx + 1) fuel (resolveStep tm idx)
      else tm

/-- TimeMap.resolve_gaps.  CPython iterates over the live entries list
while the nested set_time calls may mutate it; the model re-reads the
previous span from the current list at each index, which coincides with
the source behaviour whenever set_time only mutates spans in place (no
insertion, deletion or merge happens during the loop), as in the
scenario proved for this record. -/
def resolveGaps (tm : TM) : TM := resolveGapsGo 0 tm.length tm

/-- The time map of the claim-C4 scenario, built through set_time and
add_time with instants in microseconds from 12:53:20.000: reference
points (0 -> 12:53:20.000) and (5120 -> 12:53:27.120), pending instants
12:53:21.900 and 12:53:23.800. -/
def c4map : TM :=
  addTime (addTime (setTime (setTime [] 0 0) 5120 7120000) 1900000) 3800000

/-- Claim C4: on that map, resolve_gaps places the clock adjustment in
the largest event-free gap (between 12:53:23.800 and 12:53:27.120),
extending the first span to sequence number 3800; afterwards
get_seqnum(12:53:21.900) = 1900 and get_seqnum(12:53:23.800) = 3800 with
the default (unbounded) limit. -/
theorem c4_resolve_gaps_scenario :
    c4map = [⟨0, 0, 0, []⟩, ⟨5120, 5120, 2000000, [1900000, 3800000]⟩] ∧
    resolveGaps c4map =
      [⟨0, 3800, 0, []⟩,
       ⟨5120, 5120, 2000000, [1900000, 3800000, 0, 7120000]⟩] ∧
    get_seqnum (resolveGaps c4map) 1900000 none = some 1900 ∧
    get_seqnum (resolveGaps c4map) 3800000 none = some 3800 := by
  decide

theorem delta_ms_exact (a b : Int) (ha : a % 1000 = 0) (hb : b % 1000 = 0) :
    b + 1000 * TSM.delta_ms a b = a := by
  unfold TSM.delta_ms
  rw [Int.fdiv_eq_ediv _ (by norm_num)]
  omega

theorem bestKnown_sound (time lim : Int) (tm : TM) (sn : Int)
    (h : bestKnown time lim tm = some sn) :
    ∃ e ∈ tm, sn = TSM.delta_ms time e.base ∧ e.start ≤ sn ∧ sn ≤ e.stop ∧
      sn ≤ lim := by
  induction tm with
  | nil => simp [bestKnown] at h
  | cons f rest ih =>
      rw [bestKnown] at h
      rcases h1 : bestKnown time lim rest with _ | sn'
      · rw [h1] at h
        by_cases hc : f.start ≤ TSM.delta_ms time f.base ∧
            TSM.delta_ms time f.base ≤ f.stop ∧ TSM.delta_ms time f.base ≤ lim
        · rw [if_pos hc] at h
          cases h
          exact ⟨f, List.mem_cons_self f rest, rfl, hc.1, hc.2.1, hc.2.2⟩
        · rw [if_neg hc] at h
          cases h
      · rw [h1] at h
        cases h
        obtain ⟨e, he, h2⟩ := ih h1
        exact ⟨e, List.mem_cons_of_mem f he, h2⟩

theorem bestKnown_none (time lim : Int) (tm : TM)
    (h : bestKnown time lim tm = none) (e : Span) (he : e ∈ tm) :
    ¬ (e.start ≤ TSM.delta_ms time e.base ∧
       TSM.delta_ms time e.base ≤ e.stop ∧ TSM.delta_ms time e.base ≤ lim) := by
  induction tm with
  | nil => cases he
  | cons f rest ih =>
      rw [bestKnown] at h
      rcases h1 : bestKnown time lim rest with _ | sn'
      · rw [h1] at h
        rcases List.mem_cons.mp he with h2 | h2
        · subst h2
          intro hc
          rw [if_pos hc] at h
          cases h
        · exact ih h1 h2
      · rw [h1] at h
        cases h

theorem stop_le_getLast (tm : TM) (h0 : tm ≠ [])
    (hs : List.Pairwise (fun a b => a.stop < b.start) tm)
    (hse : ∀ e ∈ tm, e.start ≤ e.stop) (e : Span) (he : e ∈ tm) :
    e.stop ≤ (tm.getLast h0).stop := by
  have hd : tm.dropLast ++ [tm.getLast h0] = tm :=
    List.dropLast_append_getLast h0
  have hlast : tm.getLast h0 ∈ tm := List.getLast_mem h0
  rw [← hd] at he hs
  rcases List.mem_append.mp he with h1 | h1
  · have hr := (List.pairwise_append.mp hs).2.2 e h1 (tm.getLast h0)
      (List.mem_singleton_self _)
    have := hse (tm.getLast h0) hlast
    omega
  · rw [List.mem_singleton.mp h1]

theorem getTimeGo_append (sn : Int) (acc : Option (Int × Int)) (l1 l2 : TM) :
    getTimeGo sn acc (l1 ++ l2) = getTimeGo sn (getTimeGo sn acc l1) l2 := by
  induction l1 generalizing acc with
  | nil => rfl
  | cons f rest ih => simp [getTimeGo, ih]

theorem getTimeGo_stable (sn bt bd : Int) (l : TM)
    (h : ∀ e ∈ l, ¬ (max (e.start - sn) (sn - e.stop) < bd)) :
    getTimeGo sn (some (bt, bd)) l = some (bt, bd) := by
  induction l with
  | nil => rfl
  | cons f rest ih =>
      rw [getTimeGo]
      have hstep : getTimeStep sn (some (bt, bd)) f = some (bt, bd) := by
        rw [getTimeStep, if_neg (h f (List.mem_cons_self f rest))]
      rw [hstep]
      exact ih (fun e he => h e (List.mem_cons_of_mem f he))

theorem getTimeGo_pos (sn : Int) (l : TM)
    (hpos : ∀ e ∈ l, 0 < max (e.start - sn) (sn - e.stop)) :
    ∀ acc : Option (Int × Int),
      (acc = none ∨ ∃ p, acc = some p ∧ 0 < p.2) →
      (getTimeGo sn acc l = none ∧ acc = none) ∨
        ∃ p, getTimeGo sn acc l = some p ∧ 0 < p.2 := by
  induction l with
  | nil =>
      intro acc hacc
      rcases hacc with h | ⟨p, hp, hpp⟩
      · exact Or.inl ⟨h, h⟩
      · exact Or.inr ⟨p, hp, hpp⟩
  | cons f rest ih =>
      intro acc hacc
      have hf := hpos f (List.mem_cons_self f rest)
      have hrest : ∀ e ∈ rest, 0 < max (e.start - sn) (sn - e.stop) :=
        fun e he => hpos e (List.mem_cons_of_mem f he)
      have hstep : ∃ p, getTimeStep sn acc f = some p ∧ 0 < p.2 := by
        rcases hacc with h | ⟨p, hp, hpp⟩
        · subst h
          exact ⟨(f.base + 1000 * sn, max (f.start - sn) (sn - f.stop)),
            rfl, hf⟩
        · obtain ⟨bt, bd⟩ := p
          subst hp
          rw [getTimeStep]
          by_cases hlt : max (f.start - sn) (sn - f.stop) < bd
          · exact ⟨(f.base + 1000 * sn, max (f.start - sn) (sn - f.stop)),
              by rw [if_pos hlt], hf⟩
          · exact ⟨(bt, bd), by rw [if_neg hlt], hpp⟩
      obtain ⟨p, hp, hpp⟩ := hstep
      rw [getTimeGo, hp]
      rcases ih (fun e he => hrest e he) (some p) (Or.inr ⟨p, rfl, hpp⟩) with
        ⟨_, hcontra⟩ | h
      · cases hcontra
      · exact Or.inr h

/-- For a sorted, disjoint span list, get_time at a sequence number lying
inside the span j (present in the list) returns j's extrapolation. -/
theorem get_time_inside (s t : List Span) (j : Span) (sn : Int)
    (hs : List.Pairwise (fun a b => a.stop < b.start) (s ++ j :: t))
    (h1 : j.start ≤ sn) (h2 : sn ≤ j.stop) :
    get_time (s ++ j :: t) sn = some (j.base + 1000 * sn) := by
  have hps := List.pairwise_append.mp hs
  have hsj : ∀ a ∈ s, a.stop < j.start :=
    fun a ha => hps.2.2 a ha j (List.mem_cons_self j t)
  have hjt : ∀ b ∈ t, j.stop < b.start :=
    (List.pairwise_cons.mp hps.2.1).1
  have hspos : ∀ e ∈ s, 0 < max (e.start - sn) (sn - e.stop) := by
    intro e he
    have := hsj e he
    have : 0 < sn - e.stop := by omega
    exact lt_of_lt_of_le this (le_max_right _ _)
  have htpos : ∀ e ∈ t, 0 < max (e.start - sn) (sn - e.stop) := by
    intro e he
    have := hjt e he
    have : 0 < e.start - sn := by omega
    exact lt_of_lt_of_le this (le_max_left _ _)
  have hdj : max (j.start - sn) (sn - j.stop) ≤ 0 := by
    apply max_le <;> omega
  unfold get_time
  rw [getTimeGo_append]
  have hacc := getTimeGo_pos sn s hspos none (Or.inl rfl)
  have hstep : getTimeStep sn (getTimeGo sn none s) j =
      some (j.base + 1000 * sn, max (j.start - sn) (sn - j.stop)) := by
    rcases hacc with ⟨hnone, _⟩ | ⟨p, hp, hpp⟩
    · rw [hnone]
      rfl
    · obtain ⟨bt, bd⟩ := p
      rw [hp, getTimeStep, if_pos (by simp at hpp; omega)]
  rw [getTimeGo, hstep, getTimeGo_stable]
  · rfl
  · intro e he
    have := htpos e he
    omega

/-- Claim C3, counterexample: on the sorted, disjoint single-span map
with span [0, 10] and base instant 0, the timestamp 500 microseconds
(half a millisecond into the span) lies inside the span, but delta_ms
floors it to sequence number 0 and the round trip returns the span base,
not the original timestamp. -/
theorem c3_roundtrip_counterexample :
    List.Pairwise (fun a b => a.stop < b.start) [(⟨0, 10, 0, []⟩ : Span)] ∧
    (∀ e ∈ [(⟨0, 10, 0, []⟩ : Span)], e.start ≤ e.stop) ∧
    ((⟨0, 10, 0, []⟩ : Span).base + 1000 * (⟨0, 10, 0, []⟩ : Span).start
       ≤ 500 ∧
     (500 : Int) ≤ (⟨0, 10, 0, []⟩ : Span).base
       + 1000 * (⟨0, 10, 0, []⟩ : Span).stop) ∧
    ((get_seqnum [(⟨0, 10, 0, []⟩ : Span)] 500 none).bind
       (fun sn => get_time [(⟨0, 10, 0, []⟩ : Span)] sn)) = some 0 ∧
    ((get_seqnum [(⟨0, 10, 0, []⟩ : Span)] 500 none).bind
       (fun sn => get_time [(⟨0, 10, 0, []⟩ : Span)] sn)) ≠ some 500 := by
  refine ⟨?_, ?_, ?_, ?_, ?_⟩ <;> decide

/-- Claim C3 (amended: the round trip additionally requires the timestamp
and the span bases to be whole milliseconds, since delta_ms floors
sub-millisecond offsets away): for every TimeMap whose spans are sorted
and disjoint and whose instants are millisecond-aligned, and every
timestamp ts inside some span, get_time (get_seqnum ts) with the default
(unbounded) limit returns ts. -/
theorem c3_roundtrip_ms_aligned (tm : TM)
    (hs : List.Pairwise (fun a b => a.stop < b.start) tm)
    (hse : ∀ e ∈ tm, e.start ≤ e.stop)
    (hal : ∀ e ∈ tm, e.base % 1000 = 0)
    (ts : Int) (hts : ts % 1000 = 0)
    (e : Span) (he : e ∈ tm)
    (hin1 : e.base + 1000 * e.start ≤ ts)
    (hin2 : ts ≤ e.base + 1000 * e.stop) :
    (get_seqnum tm ts none).bind (fun sn => get_time tm sn) = some ts := by
  cases tm with
  | nil => cases he
  | cons f rest =>
      have h0 : (f :: rest : TM) ≠ [] := List.cons_ne_nil f rest
      have hexact : e.base + 1000 * TSM.delta_ms ts e.base = ts :=
        delta_ms_exact ts e.base hts (hal e he)
      have hcond : e.start ≤ TSM.delta_ms ts e.base ∧
          TSM.delta_ms ts e.base ≤ e.stop ∧
          TSM.delta_ms ts e.base ≤ ((f :: rest).getLast h0).stop := by
        refine ⟨by omega, by omega, ?_⟩
        have h3 : TSM.delta_ms ts e.base ≤ e.stop := by omega
        have h4 := stop_le_getLast (f :: rest) h0 hs hse e he
        omega
      rcases hbk : bestKnown ts ((f :: rest).getLast h0).stop (f :: rest) with
        _ | sn
      · exact absurd hcond
          (bestKnown_none ts ((f :: rest).getLast h0).stop (f :: rest) hbk e he)
      · obtain ⟨j, hj, hsn, hj1, hj2, _⟩ :=
          bestKnown_sound ts ((f :: rest).getLast h0).stop (f :: rest) sn hbk
        obtain ⟨s, t, hst⟩ := List.append_of_mem hj
        have hts' : j.base + 1000 * sn = ts := by
          rw [hsn]
          exact delta_ms_exact ts j.base hts (hal j hj)
        have hgt : get_time (f :: rest) sn = some ts := by
          rw [hst]
          rw [hst] at hs
          rw [get_time_inside s t j sn hs hj1 hj2, hts']
        have hgs : get_seqnum (f :: rest) ts none = some sn := by
          rw [get_seqnum]
          simp only [Option.getD]
          rw [hbk]
        rw [hgs]
        simpa using hgt

/-- Witness for c3_roundtrip_ms_aligned on a concrete single-span map at
the millisecond-aligned instant 1000. -/
theorem c3_roundtrip_ms_aligned_witness :
    List.Pairwise (fun a b => a.stop < b.start) [(⟨0, 10, 0, []⟩ : Span)] ∧
    (∀ e ∈ [(⟨0, 10, 0, []⟩ : Span)], e.start ≤ e.stop) ∧
    (∀ e ∈ [(⟨0, 10, 0, []⟩ : Span)], e.base % 1000 = 0) ∧
    (1000 : Int) % 1000 = 0 ∧
    (⟨0, 10, 0, []⟩ : Span) ∈ [(⟨0, 10, 0, []⟩ : Span)] ∧
    (⟨0, 10, 0, []⟩ : Span).base + 1000 * (⟨0, 10, 0, []⟩ : Span).start
      ≤ 1000 ∧
    (1000 : Int) ≤ (⟨0, 10, 0, []⟩ : Span).base
      + 1000 * (⟨0, 10, 0, []⟩ : Span).stop ∧
    (get_seqnum [(⟨0, 10, 0, []⟩ : Span)] 1000 none).bind
      (fun sn => get_time [(⟨0, 10, 0, []⟩ : Span)] sn) = some 1000 :=
  ⟨by decide, by decide, by decide, by decide, by decide, by decide, by decide,
   c3_roundtrip_ms_aligned [⟨0, 10, 0, []⟩] (by decide) (by decide) (by decide)
     1000 (by decide) ⟨0, 10, 0, []⟩ (by decide) (by decide) (by decide)⟩

end TimeMapM

/-
Model of the wave-sample output path (downcast/output/waveforms.py):
WaveSampleHandler.send_message, WaveOutputInfo (saved_intervals, pending
window, write_pending_signals, write_signals) and SignalBuffer, for a
record receiving a single wave signal.

- wave_samples are lists of little-endian byte pairs (lo, hi); sample i of
  the Python byte string occupies bytes 2i and 2i+1.
- The per-record observables recorded by the model: `written` collects the
  effective (start, stop) relative-sequence-number interval of each
  write_signals invocation (after the already-written-data skip), and
  `writes` collects the individual byte-pair stores (byte position within
  the segment's signal file, pair).
- The SignalBuffer heap of (start, samples) chunks is modelled as a list
  kept sorted by start (ties keep insertion order); the code only ever
  reads, pops or replaces the minimum, for which the sorted list and the
  Python heap agree.
-/

namespace WavesM

/-- Interpretation of a little-endian byte pair as a signed 16-bit value
(_bytestoint16). -/
def int16 (p : Nat × Nat) : Int :=
  if (p.1 : Int) + 256 * p.2 ≥ 32768 then (p.1 : Int) + 256 * p.2 - 65536
  else (p.1 : Int) + 256 * p.2

/-- The Python condition `signal.scale_lower and signal.scale_lower > 0`:
None and 0 are falsy. -/
def scalePos (scaleLower : Option Int) : Bool :=
  match scaleLower with
  | some v => decide (0 < v)
  | none => false

/-- spf = -(-_tpf // sample_period) with _tpf = 16 (ceiling division). -/
def spfOf (tps : Int) : Int := -(Int.fdiv (-16) tps)

structure WSOut where
  writes : List (Int × (Nat × Nat))
  smin : Int
  smax : Int
  ssum : Int
deriving DecidableEq

/-- The byte-pair index of sample i within the segment file:
fn * frame_size + frame_offset + sn, with frame number
fn = (t0 + i) // spf and subframe number sn = (t0 + i) % spf. -/
def wsInd (t0 spf fS fO : Int) (i : Nat) : Int :=
  Int.fdiv (t0 + (i : Int)) spf * fS + fO + Int.emod (t0 + (i : Int)) spf

/-- One iteration of the write loop of write_signals: substitute zsub for
a 00 00 pair (adding ssub to the running sum), and store the pair at byte
position wsInd * 2. -/
def wsStep (zsub : Nat × Nat) (ssub : Int) (samples : List (Nat × Nat))
    (t0 fS fO spf : Int)
    (acc : List (Int × (Nat × Nat)) × Int) (i : Nat) :
    List (Int × (Nat × Nat)) × Int :=
  if samples.getD i (0, 0) = (0, 0) then
    (acc.1 ++ [(wsInd t0 spf fS fO i * 2, zsub)], acc.2 + ssub)
  else
    (acc.1 ++ [(wsInd t0 spf fS fO i * 2, samples.getD i (0, 0))], acc.2)

/-- The per-signal body of WaveOutputInfo.write_signals: interpret the
first n sample pairs, then write each pair at byte position 2 * (fn *
frame_size + frame_offset + sn), substituting 00 80 for a 00 00 pair when
scale_lower > 0 and accumulating -32768 into the running sum in that
case; finally fold the new min/max/sum into the per-signal statistics,
the sum being kept modulo 2^16 (Python bitwise and with 0xffff). -/
def writeSignalsOne (scaleLower : Option Int) (samples : List (Nat × Nat))
    (n : Nat) (t0 frameSize frameOffset spf : Int)
    (oldMin oldMax oldSum : Int) : WSOut :=
  let zsub : Nat × Nat := if scalePos scaleLower then (0, 128) else (0, 0)
  let ssub : Int := if scalePos scaleLower then -32768 else 0
  let svalues := (samples.take n).map int16
  let loop := (List.range n).foldl
    (wsStep zsub ssub samples t0 frameSize frameOffset spf)
    ([], svalues.sum)
  ⟨loop.1,
   min oldMin ((svalues.min?).getD 32767),
   max oldMax ((svalues.max?).getD (-32768)),
   Int.emod (loop.2 + oldSum) 65536⟩

/-- WaveOutputInfo.interval_is_saved, scanning saved_intervals from the
end. -/
def intervalIsSavedRev (start stop : Int) : List (Int × Int) → Bool
  | [] => false
  | (ss, se) :: rest =>
      if stop > se then false
      else if start ≥ ss then true
      else intervalIsSavedRev start stop rest

def intervalIsSaved (saved : List (Int × Int)) (start stop : Int) : Bool :=
  intervalIsSavedRev start stop saved.reverse

/-- The loop of WaveOutputInfo.unsaved_intervals over reversed
saved_intervals, returning the intervals appended inside the loop and the
final (possibly lowered) end. -/
def unsavedRev (start : Int) : Int → List (Int × Int) → List (Int × Int) × Int
  | stop, [] => ([], stop)
  | stop, (ss, se) :: rest =>
      if start ≥ se then ([], stop)
      else
        let acc1 := if stop > se then [(se, stop)] else []
        if stop > ss then
          if ss ≤ start then (acc1, ss)
          else
            let r := unsavedRev start ss rest
            (acc1 ++ r.1, r.2)
        else
          let r := unsavedRev start stop rest
          (acc1 ++ r.1, r.2)

def unsavedIntervals (saved : List (Int × Int)) (start stop : Int) :
    List (Int × Int) :=
  let r := unsavedRev start stop saved.reverse
  r.1 ++ (if start < r.2 then [(start, r.2)] else [])

/-- The merge branch of WaveOutputInfo.mark_saved. -/
def mergeSaved (saved : List (Int × Int)) (start stop : Int) :
    List (Int × Int) :=
  let before := saved.filter (fun i => decide (i.2 < start))
  let after := saved.filter (fun i => decide (i.1 > stop))
  let overl := saved.filter
    (fun i => !(decide (i.2 < start)) && !(decide (i.1 > stop)))
  let s := overl.foldl (fun a i => min a i.1) start
  let e := overl.foldl (fun a i => max a i.2) stop
  before ++ [(s, e)] ++ after

/-- WaveOutputInfo.mark_saved. -/
def markSaved (saved : List (Int × Int)) (start stop : Int) :
    List (Int × Int) :=
  match saved.getLast? with
  | some (ls, le) =>
      if start ≤ le ∧ start ≥ ls then
        if le < stop then saved.dropLast ++ [(ls, stop)] else saved
      else mergeSaved saved start stop
  | none => mergeSaved saved start stop

/-- heappush on the single signal's chunk list (sorted by start). -/
def bufInsert (c : Int × List (Nat × Nat)) :
    List (Int × List (Nat × Nat)) → List (Int × List (Nat × Nat))
  | [] => [c]
  | d :: rest => if c.1 < d.1 then c :: d :: rest else d :: bufInsert c rest

/-- SignalBuffer.add_signal for the single signal. -/
def addSignal (buf : List (Int × List (Nat × Nat))) (start : Int)
    (samples : List (Nat × Nat)) : List (Int × List (Nat × Nat)) :=
  if samples = [] then buf else bufInsert (start, samples) buf

/-- SignalBuffer.truncate_before for the single signal.  Each iteration
pops the minimum chunk or replaces it with its tail past t; the fuel
2 * length + 1 covers every pop and at most one replace per chunk. -/
def truncateBefore (tps t : Int) :
    Nat → List (Int × List (Nat × Nat)) → List (Int × List (Nat × Nat))
  | 0, buf => buf
  | _ + 1, [] => []
  | fuel + 1, (s0, ss0) :: rest =>
      if s0 ≤ t - tps then
        if (ss0.length : Int) > Int.fdiv (t - s0) tps then
          truncateBefore tps t fuel
            (bufInsert (s0 + Int.fdiv (t - s0) tps * tps,
              ss0.drop (Int.fdiv (t - s0) tps).toNat) rest)
        else truncateBefore tps t fuel rest
      else (s0, ss0) :: rest

structure WaveSt where
  s0 : Option Int
  pendingStart : Option Int
  pendingEnd : Option Int
  saved : List (Int × Int)
  buffer : List (Int × List (Nat × Nat))
  segOpen : Bool
  segStart : Int
  segEnd : Int
  sampleMin : Int
  sampleMax : Int
  sampleSum : Int
  written : List (Int × Int)
  writes : List (Int × (Nat × Nat))
deriving DecidableEq

def initWaveSt : WaveSt :=
  ⟨none, none, none, [], [], false, 0, 0, 32767, -32768, 0, [], []⟩

/-- WaveOutputInfo.open_segment for the single signal: reset statistics
and set segment_start = segment_end = start (header writing is a file
effect outside the model). -/
def openSegment (st : WaveSt) (start : Int) : WaveSt :=
  { st with segOpen := true, segStart := start, segEnd := start,
            sampleMin := 32767, sampleMax := -32768, sampleSum := 0 }

/-- The per-signal write at the end of write_signals, recording the
effective written interval, the byte-pair stores, the updated statistics
and the advanced segment_end. -/
def writeCore (tps : Int) (scaleLower : Option Int) (st : WaveSt)
    (start stop : Int) (samples : List (Nat × Nat)) : WaveSt :=
  let spf := spfOf tps
  let n := (Int.fdiv (stop - start) tps).toNat
  let t0 := Int.fdiv (start - st.segStart) tps
  let out := writeSignalsOne scaleLower samples n t0 spf 0 spf
    st.sampleMin st.sampleMax st.sampleSum
  { st with sampleMin := out.smin, sampleMax := out.smax,
            sampleSum := out.ssum, segEnd := stop,
            writes := st.writes ++ out.writes,
            written := st.written ++ [(start, stop)] }

/-- WaveOutputInfo.write_signals for the single signal: open a new
segment when no segment is open or the write is after a gap or before
segment_start; skip data already written (start below segment_end),
returning without writing when the whole interval is below segment_end. -/
def writeSignals (tps : Int) (scaleLower : Option Int) (st : WaveSt)
    (start stop : Int) (samples : List (Nat × Nat)) : WaveSt :=
  let st := if !st.segOpen || decide (start > st.segEnd)
      || decide (start < st.segStart) then openSegment st start else st
  if start < st.segEnd then
    if stop < st.segEnd then st
    else
      let skip := Int.fdiv (st.segEnd - start) tps
      writeCore tps scaleLower st st.segEnd stop (samples.drop skip.toNat)
  else writeCore tps scaleLower st start stop samples

/-- WaveOutputInfo.write_pending_signals. -/
def writePending (tps : Int) (scaleLower : Option Int) :
    Nat → WaveSt → Int → WaveSt
  | 0, st, _ => st
  | fuel + 1, st, stop =>
      match st.pendingStart with
      | none => st
      | some ps =>
          if ps < stop then
            match st.buffer with
            | [] => st
            | (cs, ss) :: _ =>
                if cs ≥ stop then st
                else
                  let ce0 := cs + (ss.length : Int) * tps
                  let ce := if ce0 > stop then stop else ce0
                  let st := writeSignals tps scaleLower st cs ce ss
                  let st := { st with saved := markSaved st.saved ps ce }
                  let st := { st with
                    buffer := truncateBefore tps ce
                      (2 * st.buffer.length + 1) st.buffer }
                  let st := { st with pendingStart := some ce }
                  writePending tps scaleLower fuel st stop
          else st

/-- The part of WaveSampleHandler.send_message after the relative
sequence-number computation: saved-interval check, pending window
management, buffering of the unsaved slices and the expiring-message
flush.  The nack/ack dialogue with the dispatcher, the attribute and
record lookups, dump mode, the time-map update and the _write_events
quality log are outside this model. -/
def sendMessageBody (tps : Int) (scaleLower : Option Int) (fuel : Nat)
    (st : WaveSt) (msgStart msgEnd : Int) (samples : List (Nat × Nat))
    (ttl : Int) : WaveSt :=
  if intervalIsSaved st.saved msgStart msgEnd then st
  else
    let st := match st.pendingStart with
      | none => { st with pendingStart := some msgStart,
                          pendingEnd := some msgStart }
      | some _ => st
    let ps := st.pendingStart.getD 0
    let pe := st.pendingEnd.getD 0
    let st :=
      if ps ≤ msgStart ∧ msgStart ≤ pe then
        if ps < msgStart then writePending tps scaleLower fuel st msgStart
        else st
      else
        let st := if ps < pe then writePending tps scaleLower fuel st pe
                  else st
        { st with pendingStart := some msgStart, pendingEnd := some msgStart }
    let st := (unsavedIntervals st.saved msgStart msgEnd).foldl
      (fun (st : WaveSt) iv =>
        let vstart := Int.fdiv (iv.1 - msgStart) tps
        let vend := Int.fdiv (iv.2 - msgStart) tps
        let s := (samples.take vend.toNat).drop vstart.toNat
        let st := { st with buffer := addSignal st.buffer iv.1 s }
        { st with pendingEnd := some (max iv.2 (st.pendingEnd.getD 0)) }) st
    if ttl ≤ 0 then writePending tps scaleLower fuel st msgEnd else st

def sendMessage (tps : Int) (scaleLower : Option Int) (fuel : Nat)
    (st : WaveSt) (seq : Int) (samples : List (Nat × Nat)) (ttl : Int) :
    WaveSt :=
  let nsamples : Int := samples.length
  let stepA : WaveSt × Int := match st.s0 with
    | none => ({ st with s0 := some seq }, 0)
    | some s0v => (st, seq - s0v)
  let msgStart := stepA.2 - Int.emod stepA.2 tps
  sendMessageBody tps scaleLower fuel stepA.1 msgStart
    (msgStart + nsamples * tps) samples ttl

/-- A record's wave stream: fold send_message over the messages
(sequence number, sample pairs, ttl). -/
def runWave (tps : Int) (scaleLower : Option Int) (fuel : Nat)
    (msgs : List (Int × List (Nat × Nat) × Int)) : WaveSt :=
  msgs.foldl (fun st m => sendMessage tps scaleLower fuel st m.1 m.2.1 m.2.2)
    initWaveSt

theorem wsStep_foldl (zsub : Nat × Nat) (ssub : Int)
    (samples : List (Nat × Nat)) (t0 fS fO spf : Int) (n : Nat) :
    ∀ acc : List (Int × (Nat × Nat)) × Int,
    (List.range n).foldl (wsStep zsub ssub samples t0 fS fO spf) acc =
      (acc.1 ++ (List.range n).map (fun (i : Nat) =>
        (wsInd t0 spf fS fO i * 2,
         if samples.getD i (0, 0) = (0, 0) then zsub
         else samples.getD i (0, 0))),
       acc.2 + ((List.range n).map (fun (i : Nat) =>
         if samples.getD i (0, 0) = (0, 0) then ssub else 0)).sum) := by
  induction n with
  | zero => intro acc; simp
  | succ n ih =>
      intro acc
      rw [List.range_succ, List.foldl_append, ih]
      simp only [List.foldl_cons, List.foldl_nil, List.map_append,
        List.map_cons, List.map_nil, List.sum_append, List.sum_cons,
        List.sum_nil]
      unfold wsStep
      by_cases h : samples.getD n (0, 0) = (0, 0)
      · rw [if_pos h, if_pos h]
        simp only [Prod.mk.injEq]
        refine ⟨by rw [List.append_assoc], by rw [if_pos h]; ring⟩
      · rw [if_neg h, if_neg h]
        simp only [Prod.mk.injEq]
        refine ⟨by rw [List.append_assoc], by rw [if_neg h]; ring⟩

theorem take_map_int16_sum (l : List (Nat × Nat)) (n : Nat)
    (h : n ≤ l.length) :
    ((l.take n).map int16).sum
      = ((List.range n).map (fun (i : Nat) => int16 (l.getD i (0, 0)))).sum := by
  have he : (l.take n).map int16
      = (List.range n).map (fun (i : Nat) => int16 (l.getD i (0, 0))) := by
    apply List.ext_getElem
    · simp [h]
    · intro i h1 h2
      simp only [List.getElem_map, List.getElem_take, List.getElem_range]
      have hi : i < l.length := by
        simp [h] at h1
        omega
      rw [List.getD_eq_getElem l (0, 0) hi]
  rw [he]

theorem sum_map_add_map (l : List Nat) (f g : Nat → Int) :
    (l.map f).sum + (l.map g).sum = (l.map (fun x => f x + g x)).sum := by
  induction l with
  | nil => simp
  | cons a t ih =>
      simp only [List.map_cons, List.sum_cons]
      rw [← ih]
      ring

/-- Claim C7: write_signals writes every 00 00 sample pair as 00 80 when
the signal's configured scale_lower is greater than 0 (and unchanged when
scale_lower is absent or at most 0), all other pairs unchanged, and the
running sample_sum becomes, modulo 2^16, the old sum plus the sum of the
written values with -32768 standing in for each substituted zero pair
(and 0 for an unsubstituted zero pair). -/
theorem c7_zero_substitution (scaleLower : Option Int)
    (samples : List (Nat × Nat)) (n : Nat) (hn : n ≤ samples.length)
    (t0 frameSize frameOffset spf oldMin oldMax oldSum : Int) :
    (writeSignalsOne scaleLower samples n t0 frameSize frameOffset spf
        oldMin oldMax oldSum).writes =
      (List.range n).map (fun (i : Nat) =>
        (wsInd t0 spf frameSize frameOffset i * 2,
         if samples.getD i (0, 0) = (0, 0) ∧ scalePos scaleLower
         then ((0 : Nat), (128 : Nat)) else samples.getD i (0, 0))) ∧
    (writeSignalsOne scaleLower samples n t0 frameSize frameOffset spf
        oldMin oldMax oldSum).ssum =
      Int.emod (oldSum + ((List.range n).map (fun (i : Nat) =>
        if samples.getD i (0, 0) = (0, 0) ∧ scalePos scaleLower
        then (-32768 : Int) else int16 (samples.getD i (0, 0)))).sum)
        65536 := by
  have hunf := wsStep_foldl
    (if scalePos scaleLower then ((0 : Nat), (128 : Nat)) else (0, 0))
    (if scalePos scaleLower then (-32768 : Int) else 0)
    samples t0 frameSize frameOffset spf n
    ([], ((samples.take n).map int16).sum)
  constructor
  · show ((List.range n).foldl
        (wsStep (if scalePos scaleLower then (0, 128) else (0, 0))
          (if scalePos scaleLower then -32768 else 0)
          samples t0 frameSize frameOffset spf)
        ([], ((samples.take n).map int16).sum)).1 = _
    rw [hunf]
    simp only [List.nil_append]
    apply List.map_congr_left
    intro i hi
    by_cases h : samples.getD i (0, 0) = (0, 0)
    · rw [if_pos h]
      by_cases hp : scalePos scaleLower
      · rw [if_pos hp, if_pos ⟨h, hp⟩]
      · rw [if_neg hp, if_neg (fun hc => hp hc.2), h]
    · rw [if_neg h, if_neg (fun hc => h hc.1)]
  · show Int.emod (((List.range n).foldl
        (wsStep (if scalePos scaleLower then (0, 128) else (0, 0))
          (if scalePos scaleLower then -32768 else 0)
          samples t0 frameSize frameOffset spf)
        ([], ((samples.take n).map int16).sum)).2 + oldSum) 65536 = _
    rw [hunf]
    simp only []
    rw [take_map_int16_sum samples n hn]
    have hsum : ((List.range n).map
          (fun (i : Nat) => int16 (samples.getD i (0, 0)))).sum
        + ((List.range n).map (fun (i : Nat) =>
            if samples.getD i (0, 0) = (0, 0)
            then (if scalePos scaleLower then (-32768 : Int) else 0)
            else 0)).sum
      = ((List.range n).map (fun (i : Nat) =>
          if samples.getD i (0, 0) = (0, 0) ∧ scalePos scaleLower
          then (-32768 : Int) else int16 (samples.getD i (0, 0)))).sum := by
      rw [sum_map_add_map]
      apply congrArg
      apply List.map_congr_left
      intro i hi
      have h0 : int16 (0, 0) = 0 := by decide
      by_cases h : samples.getD i (0, 0) = (0, 0)
      · rw [if_pos h, h]
        by_cases hp : scalePos scaleLower
        · rw [if_pos hp, if_pos ⟨rfl, hp⟩, h0]
          ring
        · rw [if_neg hp, if_neg (fun hc => hp hc.2), h0]
          ring
      · rw [if_neg h, if_neg (fun hc => h hc.1)]
        ring
    rw [← hsum]
    apply congrArg (fun x => Int.emod x 65536)
    ring

/-- Witness for c7_zero_substitution on a two-sample chunk with a zero
pair and scale_lower = 1. -/
theorem c7_zero_substitution_witness :
    (2 : Nat) ≤ ([((0 : Nat), (0 : Nat)), (5, 1)] : List (Nat × Nat)).length ∧
    ((writeSignalsOne (some 1) [(0, 0), (5, 1)] 2 0 16 0 16
        32767 (-32768) 0).writes =
      (List.range 2).map (fun (i : Nat) =>
        (wsInd 0 16 16 0 i * 2,
         if ([((0 : Nat), (0 : Nat)), (5, 1)] : List (Nat × Nat)).getD i (0, 0)
              = (0, 0) ∧ scalePos (some 1)
         then ((0 : Nat), (128 : Nat))
         else ([((0 : Nat), (0 : Nat)), (5, 1)] : List (Nat × Nat)).getD i (0, 0))) ∧
     (writeSignalsOne (some 1) [(0, 0), (5, 1)] 2 0 16 0 16
        32767 (-32768) 0).ssum =
      Int.emod ((0 : Int) + ((List.range 2).map (fun (i : Nat) =>
        if ([((0 : Nat), (0 : Nat)), (5, 1)] : List (Nat × Nat)).getD i (0, 0)
             = (0, 0) ∧ scalePos (some 1)
        then (-32768 : Int)
        else int16 (([((0 : Nat), (0 : Nat)), (5, 1)] : List (Nat × Nat)).getD i (0, 0)))).sum)
        65536) :=
  ⟨by decide,
   c7_zero_substitution (some 1) [(0, 0), (5, 1)] 2 (by decide)
     0 16 0 16 32767 (-32768) 0⟩

theorem foldl_keeps {α β : Type} {P : α → Prop} {l : List β} {f : α → β → α}
    (h : ∀ a b, b ∈ l → P a → P (f a b)) :
    ∀ a, P a → P (l.foldl f a) := by
  induction l with
  | nil => intro a ha; exact ha
  | cons b t ih =>
      intro a ha
      exact ih (fun a c hc hp => h a c (List.mem_cons_of_mem b hc) hp)
        (f a b) (h a b (List.mem_cons_self b t) ha)

/-- Structural well-formedness used for the in-order write bound: all
recorded written intervals, buffered chunks, the pending window and the
open segment end lie at or after relative sequence number 0. -/
def GoodSt (st : WaveSt) : Prop :=
  (∀ iv ∈ st.written, 0 ≤ iv.1) ∧
  (∀ c ∈ st.buffer, 0 ≤ c.1) ∧
  (∀ x : Int, st.pendingStart = some x → 0 ≤ x) ∧
  (∀ x : Int, st.pendingEnd = some x → 0 ≤ x) ∧
  (st.segOpen = true → 0 ≤ st.segEnd)

theorem bufInsert_mem (c x : Int × List (Nat × Nat))
    (l : List (Int × List (Nat × Nat))) (h : x ∈ bufInsert c l) :
    x = c ∨ x ∈ l := by
  induction l with
  | nil => simpa [bufInsert] using h
  | cons d rest ih =>
      rw [bufInsert] at h
      by_cases hc : c.1 < d.1
      · rw [if_pos hc] at h
        rcases List.mem_cons.mp h with h1 | h1
        · exact Or.inl h1
        · exact Or.inr h1
      · rw [if_neg hc] at h
        rcases List.mem_cons.mp h with h1 | h1
        · exact Or.inr (h1 ▸ List.mem_cons_self d rest)
        · rcases ih h1 with h2 | h2
          · exact Or.inl h2
          · exact Or.inr (List.mem_cons_of_mem d h2)

theorem truncateBefore_nonneg (tps t : Int) (htps : 0 < tps) :
    ∀ (fuel : Nat) (buf : List (Int × List (Nat × Nat))),
      (∀ c ∈ buf, 0 ≤ c.1) →
      ∀ c ∈ truncateBefore tps t fuel buf, 0 ≤ c.1 := by
  intro fuel
  induction fuel with
  | zero => intro buf hb; exact hb
  | succ fuel ih =>
      intro buf hb c hc
      match buf, hb, hc with
      | [], hb, hc => cases hc
      | (s0, ss0) :: rest, hb, hc =>
          rw [truncateBefore] at hc
          by_cases h1 : s0 ≤ t - tps
          · rw [if_pos h1] at hc
            by_cases h2 : (ss0.length : Int) > Int.fdiv (t - s0) tps
            · rw [if_pos h2] at hc
              refine ih _ ?_ c hc
              intro d hd
              rcases bufInsert_mem _ d rest hd with h3 | h3
              · subst h3
                have hs0 : (0 : Int) ≤ s0 :=
                  hb (s0, ss0) (List.mem_cons_self _ rest)
                have hq : 0 ≤ Int.fdiv (t - s0) tps :=
                  Int.fdiv_nonneg (by omega) (le_of_lt htps)
                have := mul_nonneg hq (le_of_lt htps)
                simp only []
                omega
              · exact hb d (List.mem_cons_of_mem _ h3)
            · rw [if_neg h2] at hc
              exact ih rest (fun d hd => hb d (List.mem_cons_of_mem _ hd)) c hc
          · rw [if_neg h1] at hc
            exact hb c hc

theorem openSegment_good (st : WaveSt) (start : Int) (hst : GoodSt st)
    (h0 : 0 ≤ start) : GoodSt (openSegment st start) := by
  obtain ⟨hw, hb, hps, hpe, hse⟩ := hst
  exact ⟨hw, hb, hps, hpe, fun _ => h0⟩

theorem writeCore_good (tps : Int) (sl : Option Int) (st : WaveSt)
    (start stop : Int) (samples : List (Nat × Nat)) (hst : GoodSt st)
    (h0 : 0 ≤ start) (h1 : start ≤ stop) :
    GoodSt (writeCore tps sl st start stop samples) := by
  obtain ⟨hw, hb, hps, hpe, hse⟩ := hst
  refine ⟨?_, hb, hps, hpe, fun _ => by simp only [writeCore]; omega⟩
  intro iv hiv
  simp only [writeCore, List.mem_append, List.mem_singleton] at hiv
  rcases hiv with h | h
  · exact hw iv h
  · subst h
    exact h0

theorem writeSignals_good (tps : Int) (sl : Option Int) (st : WaveSt)
    (start stop : Int) (samples : List (Nat × Nat)) (hst : GoodSt st)
    (h0 : 0 ≤ start) (h1 : start ≤ stop) :
    GoodSt (writeSignals tps sl st start stop samples) := by
  rw [writeSignals]
  by_cases hopen : (!st.segOpen || decide (start > st.segEnd)
      || decide (start < st.segStart)) = true
  · rw [if_pos hopen]
    have hg := openSegment_good st start hst h0
    have hseg : (openSegment st start).segEnd = start := rfl
    rw [hseg]
    rw [if_neg (lt_irrefl start)]
    exact writeCore_good tps sl _ start stop samples hg h0 h1
  · rw [if_neg hopen]
    have hso : st.segOpen = true ∧ ¬ start > st.segEnd := by
      constructor
      · by_contra hc
        apply hopen
        simp [hc]
      · by_contra hc
        apply hopen
        simp [hc]
    have hsege : 0 ≤ st.segEnd := hst.2.2.2.2 hso.1
    by_cases hlt : start < st.segEnd
    · rw [if_pos hlt]
      by_cases hstop : stop < st.segEnd
      · rw [if_pos hstop]
        exact hst
      · rw [if_neg hstop]
        exact writeCore_good tps sl st st.segEnd stop _ hst hsege (by omega)
    · rw [if_neg hlt]
      exact writeCore_good tps sl st start stop samples hst h0 h1

theorem writeSignals_saved (tps : Int) (sl : Option Int) (st : WaveSt)
    (start stop : Int) (samples : List (Nat × Nat)) :
    (writeSignals tps sl st start stop samples).saved = st.saved ∧
    (writeSignals tps sl st start stop samples).buffer = st.buffer ∧
    (writeSignals tps sl st start stop samples).pendingStart
      = st.pendingStart ∧
    (writeSignals tps sl st start stop samples).pendingEnd
      = st.pendingEnd ∧
    (writeSignals tps sl st start stop samples).s0 = st.s0 := by
  rw [writeSignals]
  split <;> split <;> first
    | exact ⟨rfl, rfl, rfl, rfl, rfl⟩
    | (split
       · exact ⟨rfl, rfl, rfl, rfl, rfl⟩
       · exact ⟨rfl, rfl, rfl, rfl, rfl⟩)

theorem writePending_good (tps : Int) (htps : 0 < tps) (sl : Option Int) :
    ∀ (fuel : Nat) (st : WaveSt) (stop : Int), GoodSt st →
      GoodSt (writePending tps sl fuel st stop) := by
  intro fuel
  induction fuel with
  | zero => intro st stop hst; exact hst
  | succ fuel ih =>
      intro st stop hst
      rw [writePending]
      rcases hps : st.pendingStart with _ | ps
      · exact hst
      · simp only []
        by_cases h1 : ps < stop
        · rw [if_pos h1]
          rcases hbuf : st.buffer with _ | ⟨⟨cs, ss⟩, brest⟩
          · exact hst
          · simp only []
            by_cases h2 : cs ≥ stop
            · rw [if_pos h2]
              exact hst
            · rw [if_neg h2]
              have hcs : (0 : Int) ≤ cs := by
                refine hst.2.1 (cs, ss) ?_
                rw [hbuf]
                exact List.mem_cons_self _ _
              have hce : cs ≤ (if cs + (ss.length : Int) * tps > stop
                  then stop else cs + (ss.length : Int) * tps) := by
                have hlen : (0 : Int) ≤ (ss.length : Int) * tps :=
                  mul_nonneg (by positivity) (le_of_lt htps)
                by_cases h3 : cs + (ss.length : Int) * tps > stop
                · rw [if_pos h3]
                  omega
                · rw [if_neg h3]
                  omega
              apply ih
              set ce := (if cs + (ss.length : Int) * tps > stop
                  then stop else cs + (ss.length : Int) * tps) with hcedef
              have hg1 := writeSignals_good tps sl st cs ce ss hst hcs hce
              obtain ⟨gw, gb, gps, gpe, gse⟩ := hg1
              obtain ⟨heqs, heqb, heqps, heqpe, heqs0⟩ :=
                writeSignals_saved tps sl st cs ce ss
              refine ⟨gw, ?_, ?_, gpe, gse⟩
              · intro c hc
                refine truncateBefore_nonneg tps ce htps _ _ ?_ c hc
                exact gb
              · intro x hx
                simp only [Option.some.injEq] at hx
                omega
        · rw [if_neg h1]
          exact hst

theorem unsavedRev_ge (start : Int) :
    ∀ (stop : Int) (l : List (Int × Int)),
      (∀ iv ∈ (unsavedRev start stop l).1, start < iv.1) := by
  intro stop l
  induction l generalizing stop with
  | nil => intro iv hiv; cases hiv
  | cons e rest ih =>
      obtain ⟨ss, se⟩ := e
      intro iv hiv
      rw [unsavedRev] at hiv
      by_cases h1 : start ≥ se
      · rw [if_pos h1] at hiv
        cases hiv
      · rw [if_neg h1] at hiv
        simp only [] at hiv
        by_cases h2 : stop > ss
        · rw [if_pos h2] at hiv
          by_cases h3 : ss ≤ start
          · rw [if_pos h3] at hiv
            by_cases h4 : stop > se
            · rw [if_pos h4] at hiv
              rcases List.mem_singleton.mp hiv with h5
              rw [h5]
              omega
            · rw [if_neg h4] at hiv
              cases hiv
          · rw [if_neg h3] at hiv
            rcases List.mem_append.mp hiv with h5 | h5
            · by_cases h4 : stop > se
              · rw [if_pos h4] at h5
                rcases List.mem_singleton.mp h5 with h6
                rw [h6]
                omega
              · rw [if_neg h4] at h5
                cases h5
            · exact ih ss iv h5
        · rw [if_neg h2] at hiv
          rcases List.mem_append.mp hiv with h5 | h5
          · by_cases h4 : stop > se
            · rw [if_pos h4] at h5
              rcases List.mem_singleton.mp h5 with h6
              rw [h6]
              omega
            · rw [if_neg h4] at h5
              cases h5
          · exact ih stop iv h5

theorem unsavedIntervals_ge (saved : List (Int × Int)) (start stop : Int) :
    ∀ iv ∈ unsavedIntervals saved start stop, start ≤ iv.1 := by
  intro iv hiv
  rw [unsavedIntervals] at hiv
  rcases List.mem_append.mp hiv with h1 | h1
  · have := unsavedRev_ge start stop saved.reverse iv h1
    omega
  · by_cases h2 : start < (unsavedRev start stop saved.reverse).2
    · rw [if_pos h2] at h1
      rcases List.mem_singleton.mp h1 with h3
      rw [h3]
  
    · rw [if_neg h2] at h1
      cases h1

theorem sendMessageBody_good (tps : Int) (htps : 0 < tps) (sl : Option Int)
    (fuel : Nat) (st : WaveSt) (msgStart msgEnd : Int)
    (samples : List (Nat × Nat)) (ttl : Int) (hst : GoodSt st)
    (h0 : 0 ≤ msgStart) :
    GoodSt (sendMessageBody tps sl fuel st msgStart msgEnd samples ttl) := by
  rw [sendMessageBody]
  by_cases hsv : intervalIsSaved st.saved msgStart msgEnd = true
  · rw [if_pos hsv]
    exact hst
  · rw [if_neg hsv]
    simp only []
    obtain ⟨hw, hb, hps, hpe, hse⟩ := hst
    set st1 := (match st.pendingStart with
      | none => { st with pendingStart := some msgStart,
                          pendingEnd := some msgStart }
      | some _ => st) with hst1
    have hg1 : GoodSt st1 := by
      rw [hst1]
      rcases hcase : st.pendingStart with _ | v
      · exact ⟨hw, hb, fun x hx => by
          simp only [Option.some.injEq] at hx
          omega,
          fun x hx => by
            simp only [Option.some.injEq] at hx
            omega, hse⟩
      · exact ⟨hw, hb, hps, hpe, hse⟩
    set st2 := (if st1.pendingStart.getD 0 ≤ msgStart ∧
        msgStart ≤ st1.pendingEnd.getD 0 then
        (if st1.pendingStart.getD 0 < msgStart then
          writePending tps sl fuel st1 msgStart else st1)
      else
        { (if st1.pendingStart.getD 0 < st1.pendingEnd.getD 0 then
            writePending tps sl fuel st1 (st1.pendingEnd.getD 0) else st1)
          with pendingStart := some msgStart,
               pendingEnd := some msgStart }) with hst2
    have hg2 : GoodSt st2 := by
      rw [hst2]
      by_cases hc1 : st1.pendingStart.getD 0 ≤ msgStart ∧
          msgStart ≤ st1.pendingEnd.getD 0
      · rw [if_pos hc1]
        by_cases hc2 : st1.pendingStart.getD 0 < msgStart
        · rw [if_pos hc2]
          exact writePending_good tps htps sl fuel st1 msgStart hg1
        · rw [if_neg hc2]
          exact hg1
      · rw [if_neg hc1]
        have hg3 : GoodSt (if st1.pendingStart.getD 0
            < st1.pendingEnd.getD 0 then
            writePending tps sl fuel st1 (st1.pendingEnd.getD 0) else st1) := by
          by_cases hc2 : st1.pendingStart.getD 0 < st1.pendingEnd.getD 0
          · rw [if_pos hc2]
            exact writePending_good tps htps sl fuel st1 _ hg1
          · rw [if_neg hc2]
            exact hg1
        obtain ⟨gw, gb, gps, gpe, gse⟩ := hg3
        exact ⟨gw, gb,
          fun x hx => by
            simp only [Option.some.injEq] at hx
            omega,
          fun x hx => by
            simp only [Option.some.injEq] at hx
            omega, gse⟩
    have hg4 : GoodSt ((unsavedIntervals st2.saved msgStart msgEnd).foldl
        (fun (st : WaveSt) iv =>
          let vstart := Int.fdiv (iv.1 - msgStart) tps
          let vend := Int.fdiv (iv.2 - msgStart) tps
          let s := (samples.take vend.toNat).drop vstart.toNat
          let st := { st with buffer := addSignal st.buffer iv.1 s }
          { st with pendingEnd := some (max iv.2 (st.pendingEnd.getD 0)) })
        st2) := by
      refine foldl_keeps ?_ st2 hg2
      intro a iv hiv ha
      obtain ⟨aw, ab, aps, ape, ase⟩ := ha
      have hiv1 : msgStart ≤ iv.1 :=
        unsavedIntervals_ge st2.saved msgStart msgEnd iv hiv
      refine ⟨aw, ?_, aps, ?_, ase⟩
      · intro c hc
        simp only [addSignal] at hc
        by_cases hemp : ((samples.take (Int.fdiv (iv.2 - msgStart) tps).toNat).drop
            (Int.fdiv (iv.1 - msgStart) tps).toNat) = []
        · rw [if_pos hemp] at hc
          exact ab c hc
        · rw [if_neg hemp] at hc
          rcases bufInsert_mem _ c a.buffer hc with h1 | h1
          · rw [h1]
            simp only []
            omega
          · exact ab c h1
      · intro x hx
        simp only [Option.some.injEq] at hx
        have hgd : (0 : Int) ≤ a.pendingEnd.getD 0 := by
          rcases hcase : a.pendingEnd with _ | v
          · simp
          · simpa using ape v hcase
        have := le_max_right iv.2 (a.pendingEnd.getD 0)
        omega
    by_cases httl : ttl ≤ 0
    · rw [if_pos httl]
      exact writePending_good tps htps sl fuel _ msgEnd hg4
    · rw [if_neg httl]
      exact hg4

theorem sub_emod_nonneg (x t : Int) (ht : 0 < t) (hx : 0 ≤ x) :
    0 ≤ x - Int.emod x t := by
  show 0 ≤ x - x % t
  rw [Int.emod_def]
  have h1 := Int.ediv_nonneg hx (le_of_lt ht)
  have h2 : (0 : Int) ≤ t * (x / t) := mul_nonneg (le_of_lt ht) h1
  omega

theorem writePending_s0 (tps : Int) (sl : Option Int) :
    ∀ (fuel : Nat) (st : WaveSt) (stop : Int),
      (writePending tps sl fuel st stop).s0 = st.s0 := by
  intro fuel
  induction fuel with
  | zero => intro st stop; rfl
  | succ fuel ih =>
      intro st stop
      rw [writePending]
      rcases hps : st.pendingStart with _ | ps
      · rfl
      · simp only []
        by_cases h1 : ps < stop
        · rw [if_pos h1]
          rcases hbuf : st.buffer with _ | ⟨⟨cs, ss⟩, brest⟩
          · rfl
          · simp only []
            by_cases h2 : cs ≥ stop
            · rw [if_pos h2]
            · rw [if_neg h2, ih]
              exact (writeSignals_saved tps sl st cs _ ss).2.2.2.2
        · rw [if_neg h1]

theorem foldAdd_s0 (tps : Int) (samples : List (Nat × Nat)) (msgStart : Int)
    (l : List (Int × Int)) :
    ∀ a : WaveSt, (l.foldl (fun (st : WaveSt) iv =>
      let vstart := Int.fdiv (iv.1 - msgStart) tps
      let vend := Int.fdiv (iv.2 - msgStart) tps
      let s := (samples.take vend.toNat).drop vstart.toNat
      let st := { st with buffer := addSignal st.buffer iv.1 s }
      { st with pendingEnd := some (max iv.2 (st.pendingEnd.getD 0)) }) a).s0
      = a.s0 := by
  induction l with
  | nil => intro a; rfl
  | cons iv t ih =>
      intro a
      rw [List.foldl_cons, ih]

theorem sendMessageBody_s0 (tps : Int) (sl : Option Int) (fuel : Nat)
    (st : WaveSt) (msgStart msgEnd : Int) (samples : List (Nat × Nat))
    (ttl : Int) :
    (sendMessageBody tps sl fuel st msgStart msgEnd samples ttl).s0
      = st.s0 := by
  rw [sendMessageBody]
  by_cases hsv : intervalIsSaved st.saved msgStart msgEnd = true
  · rw [if_pos hsv]
  · rw [if_neg hsv]
    simp only []
    set st1 := (match st.pendingStart with
      | none => { st with pendingStart := some msgStart,
                          pendingEnd := some msgStart }
      | some _ => st) with hst1
    have h1 : st1.s0 = st.s0 := by
      rw [hst1]
      rcases st.pendingStart with _ | v
      · rfl
      · rfl
    set st2 := (if st1.pendingStart.getD 0 ≤ msgStart ∧
        msgStart ≤ st1.pendingEnd.getD 0 then
        (if st1.pendingStart.getD 0 < msgStart then
          writePending tps sl fuel st1 msgStart else st1)
      else
        { (if st1.pendingStart.getD 0 < st1.pendingEnd.getD 0 then
            writePending tps sl fuel st1 (st1.pendingEnd.getD 0) else st1)
          with pendingStart := some msgStart,
               pendingEnd := some msgStart }) with hst2
    have h2 : st2.s0 = st1.s0 := by
      rw [hst2]
      by_cases hc1 : st1.pendingStart.getD 0 ≤ msgStart ∧
          msgStart ≤ st1.pendingEnd.getD 0
      · rw [if_pos hc1]
        by_cases hc2 : st1.pendingStart.getD 0 < msgStart
        · rw [if_pos hc2, writePending_s0]
        · rw [if_neg hc2]
      · rw [if_neg hc1]
        show (if st1.pendingStart.getD 0 < st1.pendingEnd.getD 0 then
            writePending tps sl fuel st1 (st1.pendingEnd.getD 0)
          else st1).s0 = st1.s0
        by_cases hc2 : st1.pendingStart.getD 0 < st1.pendingEnd.getD 0
        · rw [if_pos hc2, writePending_s0]
        · rw [if_neg hc2]
    have h3 := foldAdd_s0 tps samples msgStart
      (unsavedIntervals st2.saved msgStart msgEnd) st2
    by_cases httl : ttl ≤ 0
    · rw [if_pos httl, writePending_s0, h3, h2, h1]
    · rw [if_neg httl, h3, h2, h1]

theorem sendMessage_s0 (tps : Int) (sl : Option Int) (fuel : Nat)
    (st : WaveSt) (seq : Int) (samples : List (Nat × Nat)) (ttl : Int) :
    (sendMessage tps sl fuel st seq samples ttl).s0
      = (match st.s0 with | none => some seq | some v => some v) := by
  rw [sendMessage]
  rcases hs0 : st.s0 with _ | v
  · rw [sendMessageBody_s0]
  · rw [sendMessageBody_s0]
    exact hs0

theorem sendMessage_good (tps : Int) (htps : 0 < tps) (sl : Option Int)
    (fuel : Nat) (st : WaveSt) (seq : Int) (samples : List (Nat × Nat))
    (ttl : Int) (hst : GoodSt st)
    (hseq : ∀ v, st.s0 = some v → v ≤ seq) :
    GoodSt (sendMessage tps sl fuel st seq samples ttl) := by
  rw [sendMessage]
  rcases hs0 : st.s0 with _ | v
  · refine sendMessageBody_good tps htps sl fuel _ _ _ samples ttl ?_ ?_
    · exact hst
    · show 0 ≤ (0 : Int) - (0 : Int) % tps
      rw [Int.zero_emod]
      omega
  · refine sendMessageBody_good tps htps sl fuel _ _ _ samples ttl hst ?_
    have hv := hseq v hs0
    exact sub_emod_nonneg (seq - v) tps htps (by omega)

/-- Claim C5, counterexample: a record receives a wave message with
sequence number 5000 (setting base_sequence_number = 5000), then a wave
message with sequence number 0 (possible: replayed or clock-skewed
messages arrive behind the first one; the finalizer's segment pattern
-?[0-9]+.hea explicitly anticipates negative segment names).  The second
message's samples are written at relative interval [-5000, -4996), i.e.
at absolute sequence numbers 0..3, all below base_sequence_number. -/
theorem c5_base_seqnum_counterexample :
    (runWave 1 none 8 [(5000, [(1, 0), (1, 0), (1, 0), (1, 0)], 0),
       (0, [(1, 0), (1, 0), (1, 0), (1, 0)], 0)]).s0 = some 5000 ∧
    ((-5000 : Int), (-4996 : Int)) ∈
      (runWave 1 none 8 [(5000, [(1, 0), (1, 0), (1, 0), (1, 0)], 0),
         (0, [(1, 0), (1, 0), (1, 0), (1, 0)], 0)]).written ∧
    (5000 : Int) + (-5000 : Int) < 5000 := by
  refine ⟨?_, ?_, ?_⟩ <;> decide

/-- Claim C5 (amended: the bound holds provided every wave message's
sequence number is at least the first message's, i.e. messages reach the
record in order with respect to the first one): base_sequence_number is
the first message's sequence number, and every interval written to the
signal files starts at relative sequence number >= 0, hence at an
absolute sequence number >= base_sequence_number. -/
theorem c5_base_seqnum_lower_bound_inorder (tps : Int) (htps : 0 < tps)
    (sl : Option Int) (fuel : Nat) (m0 : Int × List (Nat × Nat) × Int)
    (rest : List (Int × List (Nat × Nat) × Int))
    (horder : ∀ m ∈ m0 :: rest, m0.1 ≤ m.1) :
    (runWave tps sl fuel (m0 :: rest)).s0 = some m0.1 ∧
    ∀ iv ∈ (runWave tps sl fuel (m0 :: rest)).written, 0 ≤ iv.1 := by
  have hg0 : GoodSt initWaveSt := by
    refine ⟨?_, ?_, ?_, ?_, ?_⟩
    · intro iv h
      cases h
    · intro c h
      cases h
    · intro x hx
      exact Option.noConfusion hx
    · intro x hx
      exact Option.noConfusion hx
    · intro h
      exact Bool.noConfusion h
  have hQ1 : (sendMessage tps sl fuel initWaveSt m0.1 m0.2.1 m0.2.2).s0
        = some m0.1 ∧
      GoodSt (sendMessage tps sl fuel initWaveSt m0.1 m0.2.1 m0.2.2) := by
    constructor
    · rw [sendMessage_s0]
      rfl
    · exact sendMessage_good tps htps sl fuel initWaveSt m0.1 m0.2.1 m0.2.2
        hg0 (fun v hv => Option.noConfusion hv)
  have hstep : ∀ (a : WaveSt) (m : Int × List (Nat × Nat) × Int),
      m ∈ rest → (a.s0 = some m0.1 ∧ GoodSt a) →
      ((sendMessage tps sl fuel a m.1 m.2.1 m.2.2).s0 = some m0.1 ∧
       GoodSt (sendMessage tps sl fuel a m.1 m.2.1 m.2.2)) := by
    intro a m hm ha
    constructor
    · rw [sendMessage_s0, ha.1]
    · refine sendMessage_good tps htps sl fuel a m.1 m.2.1 m.2.2 ha.2 ?_
      intro v hv
      rw [ha.1] at hv
      cases hv
      exact horder m (List.mem_cons_of_mem m0 hm)
  have hall := foldl_keeps hstep
    (sendMessage tps sl fuel initWaveSt m0.1 m0.2.1 m0.2.2) hQ1
  rw [runWave, List.foldl_cons]
  exact ⟨hall.1, hall.2.1⟩

/-- Witness for c5_base_seqnum_lower_bound_inorder on a two-message
in-order stream. -/
theorem c5_base_seqnum_lower_bound_inorder_witness :
    (0 : Int) < 1 ∧
    (∀ m ∈ [((5 : Int), ([((1 : Nat), (0 : Nat))] : List (Nat × Nat)),
        (0 : Int)), ((9 : Int), ([((1 : Nat), (0 : Nat))] : List (Nat × Nat)),
        (0 : Int))],
      ((5 : Int), ([((1 : Nat), (0 : Nat))] : List (Nat × Nat)),
        (0 : Int)).1 ≤ m.1) ∧
    ((runWave 1 none 4 [(5, [(1, 0)], 0), (9, [(1, 0)], 0)]).s0
        = some 5 ∧
     ∀ iv ∈ (runWave 1 none 4 [(5, [(1, 0)], 0), (9, [(1, 0)], 0)]).written,
       0 ≤ iv.1) :=
  ⟨by decide, by decide,
   c5_base_seqnum_lower_bound_inorder 1 (by decide) none 4
     (5, [(1, 0)], 0) [(9, [(1, 0)], 0)] (by decide)⟩

end WavesM

/-
Model of the Dispatcher (downcast/dispatcher.py).

State: the insertion-ordered map all_messages keyed by (channel, message)
with its shared DispatcherMessageInfo values (the per-channel OrderedDict
is the filter of this list by channel, with the same relative order), the
message_counter, the scratch sets active_handlers / replay_handlers, and
the registered handler and dead-letter handler lists.

Handlers are abstracted as a Policy: on each send_message delivery a
handler performs a finite sequence of ack_message / nack_message calls on
the delivered message (every handler in the repository only ever acks or
nacks the message it was handed), possibly depending on everything it has
observed so far (the event log) and on the delivery's ttl.  An exception
escaping the handler mid-way is modelled by the policy returning the
prefix of calls made before the exception (the dispatcher catches and
logs non-fatal exceptions and continues).

The event log is the observation structure: message insertions,
handler deliveries, handler ack calls, and upstream source.ack_message /
source.nack_message calls.  In _expire_message, if a dead-letter handler
acked the message away, channel._message_source returns None and the
subsequent source ack raises AttributeError, which is caught and logged -
hence no upstream ack event in that case.

The while loop of _replay_pending and the expiry sweeps recurse on fuel;
every claim below holds for every fuel value (Python's loop corresponds
to a sufficiently large fuel, and can diverge for adversarial handlers).
-/

namespace Dispatch

inductive HAct
  | ack
  | nack (replay : Bool)
deriving DecidableEq

inductive Event
  | ins (c m : Nat)
  | hsend (h c m : Nat) (ttl : Int)
  | hack (h c m : Nat)
  | srcAck (c m : Nat)
  | srcNack (c m : Nat)
deriving DecidableEq

/-- A handler's behaviour: handler id, observed log, channel, message,
ttl, yielding the sequence of ack/nack calls it makes. -/
abbrev Policy := Nat → List Event → Nat → Nat → Int → List HAct

structure MsgInfo where
  source : Nat
  expires : Int
  handlers : List Nat
  submitted : Bool
  claimed : Bool
deriving DecidableEq

structure DState where
  handlers : List Nat
  deadletters : List Nat
  messages : List ((Nat × Nat) × MsgInfo)
  counter : Int
  active : List Nat
  replays : List Nat
  log : List Event
deriving DecidableEq

/-- Python set.add on a set modelled as a duplicate-free list. -/
def insertSet (h : Nat) (l : List Nat) : List Nat :=
  if h ∈ l then l else l ++ [h]

def lookupMsg (s : DState) (c m : Nat) : Option MsgInfo :=
  (s.messages.find? (fun e => decide (e.1 = (c, m)))).map (fun e => e.2)

def pendingB (s : DState) (c m : Nat) : Bool :=
  s.messages.any (fun e => decide (e.1 = (c, m)))

def setMsg (s : DState) (c m : Nat) (f : MsgInfo → MsgInfo) : DState :=
  { s with messages :=
      s.messages.map (fun e => if e.1 = (c, m) then (e.1, f e.2) else e) }

def deleteMsg (s : DState) (c m : Nat) : DState :=
  { s with messages :=
      s.messages.filter (fun e => !(decide (e.1 = (c, m)))) }

def emit (s : DState) (e : Event) : DState := { s with log := s.log ++ [e] }

/-- Dispatcher._ack_message (via DispatcherChannel.ack_message): warn on
an unknown handler or message (no state change), else
_message_del_handler (set claimed, move the handler to active_handlers
if interested, remove it from the message's handler set, and always add
it to replay_handlers), then, if the message was submitted and no
handlers remain, delete it and ack it upstream.  The hack event records
that the handler made the ack call. -/
def ackFin (c m : Nat) (s : DState) : DState :=
  match lookupMsg s c m with
  | some mi2 =>
      if mi2.submitted = true ∧ mi2.handlers = [] then
        emit (deleteMsg s c m) (Event.srcAck c m)
      else s
  | none => s

def ackCore (h c m : Nat) (mi : MsgInfo) (s : DState) : DState :=
  let s1 := if h ∈ mi.handlers then { s with active := insertSet h s.active }
            else s
  let s2 := setMsg s1 c m (fun mi =>
    { mi with claimed := true, handlers := mi.handlers.erase h })
  { s2 with replays := insertSet h s2.replays }

def ackAct (h c m : Nat) (s : DState) : DState :=
  match lookupMsg s c m with
  | none => emit s (Event.hack h c m)
  | some mi => ackFin c m (emit (ackCore h c m mi s) (Event.hack h c m))

/-- Dispatcher._nack_message: warn on an unknown handler or message,
else _message_add_handler (set claimed, add to active_handlers if newly
interested, add the handler to the message's handler set, and add it to
replay_handlers when replay was requested). -/
def nackCore (h c m : Nat) (mi : MsgInfo) (replay : Bool) (s : DState) :
    DState :=
  let s1 := setMsg s c m (fun mi => { mi with claimed := true })
  let s2 := if h ∈ mi.handlers then s1
            else { s1 with active := insertSet h s1.active }
  let s3 := setMsg s2 c m (fun mi =>
    { mi with handlers := insertSet h mi.handlers })
  if replay then { s3 with replays := insertSet h s3.replays } else s3

def nackAct (h c m : Nat) (replay : Bool) (s : DState) : DState :=
  if h ∈ s.handlers then
    match lookupMsg s c m with
    | none => s
    | some mi => nackCore h c m mi replay s
  else s

/-- Dispatcher._handler_send_message: deliver to the handler, then run
the ack/nack calls it makes. -/
def hactStep (h c m : Nat) (s : DState) (a : HAct) : DState :=
  match a with
  | HAct.ack => ackAct h c m s
  | HAct.nack r => nackAct h c m r s

def handlerSend (pol : Policy) (h c m : Nat) (ttl : Int) (s : DState) :
    DState :=
  let s1 := emit s (Event.hsend h c m ttl)
  (pol h s1.log c m ttl).foldl (hactStep h c m) s1

/-- Dispatcher._replay_pending: while handlers acked or nacked during the
previous pass, re-deliver every still-pending message of the channel (in
insertion order) to each handler that is in both scratch sets and still
interested in it (the live ttl is expires - message_counter). -/
def redeliver (pol : Policy) (c mId : Nat) (expv : Int) (s : DState)
    (h : Nat) : DState :=
  match lookupMsg s c mId with
  | some mi =>
      if h ∈ mi.handlers then handlerSend pol h c mId (expv - s.counter) s
      else s
  | none => s

def replayRound (pol : Policy) (c : Nat) (activeL : List Nat)
    (snapshot : List (Nat × Int)) (s : DState) : DState :=
  snapshot.foldl (fun s me => activeL.foldl (redeliver pol c me.1 me.2) s) s

def replayPending (pol : Policy) (c : Nat) : Nat → DState → DState
  | 0, s => s
  | fuel + 1, s =>
      if s.active = [] then s
      else
        replayPending pol c fuel
          (replayRound pol c
            (s.handlers.filter
              (fun h => decide (h ∈ s.active) && decide (h ∈ s.replays)))
            ((s.messages.filter (fun e => decide (e.1.1 = c))).map
              (fun e => (e.1.2, e.2.expires)))
            { s with active := [], replays := [] })

/-- Dispatcher._expire_message: re-deliver with ttl 0 to each handler
still interested (re-checking interest before each delivery, as the
_message_handlers generator does); if the message is still pending, send
it to every dead-letter handler, then read its source, delete it and ack
it upstream (when a dead-letter handler already acked it away, the
source read yields None and the upstream ack raises and is only
logged). -/
def expDeliver (pol : Policy) (c m : Nat) (s : DState) (h : Nat) : DState :=
  match lookupMsg s c m with
  | some mi => if h ∈ mi.handlers then handlerSend pol h c m 0 s else s
  | none => s

def expFinish (pol : Policy) (c m : Nat) (s : DState) : DState :=
  if pendingB s c m then
    let s2 := s.deadletters.foldl (fun s h => handlerSend pol h c m 0 s) s
    let src := (lookupMsg s2 c m).map (fun mi => mi.source)
    let s3 := deleteMsg s2 c m
    match src with
    | some _ => emit s3 (Event.srcAck c m)
    | none => s3
  else s

def expireMsg (pol : Policy) (c m : Nat) (s : DState) : DState :=
  expFinish pol c m (s.handlers.foldl (expDeliver pol c m) s)

/-- Dispatcher._check_expiring: while the oldest message of all_messages
has non-positive remaining ttl, expire it and run the replay pass for its
channel.  The Nat recursion argument is instantiated with the message
count, which bounds the iterations since each expiry removes the head
message. -/
def sweepOne (pol : Policy) (rfuel : Nat) (c m : Nat) (s : DState) :
    DState :=
  replayPending pol c rfuel (expireMsg pol c m { s with active := [] })

def checkExpiring (pol : Policy) (rfuel : Nat) : Nat → DState → DState
  | 0, s => s
  | n + 1, s =>
      match s.messages with
      | [] => s
      | ((c, m), mi) :: _ =>
          if mi.expires - s.counter > 0 then s
          else checkExpiring pol rfuel n (sweepOne pol rfuel c m s)

/-- Dispatcher.send_message: drop (with a warning) a message already
pending on its channel; otherwise insert it with expires = counter + ttl
and bump the counter, clear the scratch sets, deliver to every handler,
then mark it submitted and either expire it immediately (nobody claimed
it), ack it upstream (everybody acked synchronously) or nack it
upstream; finally run the replay pass and the expiry sweep. -/
def insertMsg (c m src : Nat) (ttl : Int) (s : DState) : DState :=
  { s with
    messages :=
      s.messages ++ [((c, m), MsgInfo.mk src (s.counter + ttl) [] false false)],
    counter := s.counter + 1,
    log := s.log ++ [Event.ins c m],
    active := [], replays := [] }

def submitFin (pol : Policy) (c m : Nat) (s : DState) : DState :=
  match lookupMsg s c m with
  | some mi =>
      let s1 := setMsg s c m (fun mi => { mi with submitted := true })
      if mi.claimed = false then expireMsg pol c m s1
      else if mi.handlers = [] then
        emit (deleteMsg s1 c m) (Event.srcAck c m)
      else emit s1 (Event.srcNack c m)
  | none => s

def sendMessage (pol : Policy) (rfuel : Nat) (c m src : Nat) (ttl : Int)
    (s : DState) : DState :=
  if pendingB s c m then s
  else
    let s2 := (insertMsg c m src ttl s).handlers.foldl
      (fun s h => handlerSend pol h c m ttl s) (insertMsg c m src ttl s)
    let s4 := replayPending pol c rfuel (submitFin pol c m s2)
    checkExpiring pol rfuel s4.messages.length s4

/-- Dispatcher.terminate: force-expire every pending message, oldest
first (the Nat recursion argument is instantiated with the message
count). -/
def terminateD (pol : Policy) (rfuel : Nat) : Nat → DState → DState
  | 0, s => s
  | n + 1, s =>
      match s.messages with
      | [] => s
      | ((c, m), _) :: _ => terminateD pol rfuel n (sweepOne pol rfuel c m s)

inductive Op
  | send (c m src : Nat) (ttl : Int)
  | terminate
deriving DecidableEq

def runOp (pol : Policy) (rfuel : Nat) (s : DState) : Op → DState
  | .send c m src ttl => sendMessage pol rfuel c m src ttl s
  | .terminate => terminateD pol rfuel s.messages.length s

def runOps (pol : Policy) (rfuel : Nat) (ops : List Op) (s : DState) :
    DState :=
  ops.foldl (runOp pol rfuel) s

def initState (hs dls : List Nat) : DState := ⟨hs, dls, [], 0, [], [], []⟩

def countAck (l : List Event) (c m : Nat) : Nat := l.count (.srcAck c m)

def countIns (l : List Event) (c m : Nat) : Nat := l.count (.ins c m)

end Dispatch

namespace Dispatch

/- Primitive lemmas about the state operations. -/

theorem mem_insertSet (x h : Nat) (l : List Nat) :
    x ∈ insertSet h l ↔ x = h ∨ x ∈ l := by
  unfold insertSet
  split
  · constructor
    · exact fun hx => Or.inr hx
    · rintro (rfl | hx)
      · assumption
      · exact hx
  · simp [List.mem_append, or_comm]

theorem insertSet_nodup (h : Nat) (l : List Nat) (hl : l.Nodup) :
    (insertSet h l).Nodup := by
  unfold insertSet
  split
  · exact hl
  · rename_i hn
    simp [List.nodup_append, hl, hn]

theorem log_emit (s : DState) (e : Event) : (emit s e).log = s.log ++ [e] := rfl

theorem messages_emit (s : DState) (e : Event) :
    (emit s e).messages = s.messages := rfl

abbrev Entry := (Nat × Nat) × MsgInfo

theorem findKey_filter_self (l : List Entry) (k : Nat × Nat) :
    (l.filter (fun e => !(decide (e.1 = k)))).find?
      (fun e => decide (e.1 = k)) = none := by
  apply List.find?_eq_none.mpr
  intro e he
  rcases List.mem_filter.mp he with ⟨_, hkeep⟩
  simpa using hkeep

theorem findKey_filter_ne (l : List Entry) (k k' : Nat × Nat) (hne : k' ≠ k) :
    (l.filter (fun e => !(decide (e.1 = k)))).find?
        (fun e => decide (e.1 = k')) =
      l.find? (fun e => decide (e.1 = k')) := by
  induction l with
  | nil => rfl
  | cons e t ih =>
      by_cases he : e.1 = k
      · rw [show List.filter (fun e => !(decide (e.1 = k))) (e :: t)
            = List.filter (fun e => !(decide (e.1 = k))) t by
            simp [List.filter_cons, he]]
        rw [ih]
        rw [List.find?_cons_of_neg]
        show ¬(decide (e.1 = k') = true)
        rw [he]
        simp
        exact fun hkk => hne hkk.symm
      · rw [show List.filter (fun e => !(decide (e.1 = k))) (e :: t)
            = e :: List.filter (fun e => !(decide (e.1 = k))) t by
            simp [List.filter_cons, he]]
        by_cases hk' : e.1 = k'
        · rw [List.find?_cons_of_pos, List.find?_cons_of_pos] <;> simp [hk']
        · rw [List.find?_cons_of_neg, List.find?_cons_of_neg, ih] <;> simp [hk']

theorem findKey_map_set (l : List Entry) (k0 : Nat × Nat) (f : MsgInfo → MsgInfo)
    (k : Nat × Nat) :
    (l.map (fun e => if e.1 = k0 then (e.1, f e.2) else e)).find?
        (fun e => decide (e.1 = k)) =
      (l.find? (fun e => decide (e.1 = k))).map
        (fun e => if e.1 = k0 then (e.1, f e.2) else e) := by
  induction l with
  | nil => rfl
  | cons e t ih =>
      have hkey : (if e.1 = k0 then (e.1, f e.2) else e).1 = e.1 := by
        split <;> rfl
      by_cases hk : e.1 = k
      · rw [List.map_cons, List.find?_cons_of_pos, List.find?_cons_of_pos]
        · rfl
        · simp [hk]
        · show decide ((if e.1 = k0 then (e.1, f e.2) else e).1 = k) = true
          rw [hkey, hk]
          simp
      · rw [List.map_cons, List.find?_cons_of_neg, List.find?_cons_of_neg, ih]
        · simp [hk]
        · show ¬(decide ((if e.1 = k0 then (e.1, f e.2) else e).1 = k) = true)
          rw [hkey]
          simp [hk]

theorem lookupMsg_setMsg (s : DState) (c0 m0 : Nat) (f : MsgInfo → MsgInfo)
    (c m : Nat) :
    lookupMsg (setMsg s c0 m0 f) c m =
      if (c, m) = (c0, m0) then (lookupMsg s c m).map f
      else lookupMsg s c m := by
  unfold lookupMsg setMsg
  rw [findKey_map_set]
  rcases hf : s.messages.find? (fun e => decide (e.1 = (c, m))) with _ | e
  · rw [hf]
    split <;> rfl
  · rw [hf]
    have hek : e.1 = (c, m) := by
      have := List.find?_some hf
      simpa using this
    by_cases hkk : ((c, m) : Nat × Nat) = (c0, m0)
    · rw [if_pos hkk]
      show some (if e.1 = (c0, m0) then (e.1, f e.2) else e).2 = some (f e.2)
      rw [hek, if_pos hkk]
    · rw [if_neg hkk]
      show some (if e.1 = (c0, m0) then (e.1, f e.2) else e).2 = some e.2
      rw [hek, if_neg hkk]

theorem lookupMsg_deleteMsg (s : DState) (c0 m0 c m : Nat) :
    lookupMsg (deleteMsg s c0 m0) c m =
      if (c, m) = (c0, m0) then none else lookupMsg s c m := by
  unfold lookupMsg deleteMsg
  by_cases hkk : ((c, m) : Nat × Nat) = (c0, m0)
  · rw [if_pos hkk, ← hkk, findKey_filter_self]
    rfl
  · rw [if_neg hkk, findKey_filter_ne]
    exact hkk

theorem setMsg_keys (s : DState) (c0 m0 : Nat) (f : MsgInfo → MsgInfo) :
    (setMsg s c0 m0 f).messages.map Prod.fst = s.messages.map Prod.fst := by
  unfold setMsg
  rw [List.map_map]
  apply List.map_congr_left
  intro e _
  show (if e.1 = (c0, m0) then (e.1, f e.2) else e).1 = e.1
  split <;> rfl

theorem pendingB_true_iff (s : DState) (c m : Nat) :
    pendingB s c m = true ↔ (c, m) ∈ s.messages.map Prod.fst := by
  unfold pendingB
  rw [List.any_eq_true]
  constructor
  · rintro ⟨e, he, hp⟩
    exact List.mem_map.mpr ⟨e, he, by simpa using hp⟩
  · intro hmem
    rcases List.mem_map.mp hmem with ⟨e, he, hk⟩
    exact ⟨e, he, by simpa using hk⟩

theorem pendingB_keys (s : DState) (c m : Nat) :
    pendingB s c m = decide ((c, m) ∈ s.messages.map Prod.fst) := by
  by_cases h : (c, m) ∈ s.messages.map Prod.fst
  · rw [(pendingB_true_iff s c m).mpr h]
    simp [h]
  · rcases hb : pendingB s c m with _ | _
    · simp [h]
    · exact absurd ((pendingB_true_iff s c m).mp hb) h

theorem pendingB_setMsg (s : DState) (c0 m0 : Nat) (f : MsgInfo → MsgInfo)
    (c m : Nat) :
    pendingB (setMsg s c0 m0 f) c m = pendingB s c m := by
  rw [pendingB_keys, pendingB_keys, setMsg_keys]

theorem pendingB_deleteMsg_self (s : DState) (c m : Nat) :
    pendingB (deleteMsg s c m) c m = false := by
  rcases hb : pendingB (deleteMsg s c m) c m with _ | _
  · rfl
  · rcases List.mem_map.mp ((pendingB_true_iff _ c m).mp hb) with ⟨e, he, hk⟩
    rcases List.mem_filter.mp he with ⟨_, hkeep⟩
    rw [hk] at hkeep
    simp at hkeep

theorem pendingB_deleteMsg_le (s : DState) (c0 m0 c m : Nat)
    (h : pendingB (deleteMsg s c0 m0) c m = true) : pendingB s c m = true := by
  rcases List.mem_map.mp ((pendingB_true_iff _ c m).mp h) with ⟨e, he, hk⟩
  exact (pendingB_true_iff s c m).mpr
    (List.mem_map.mpr ⟨e, (List.mem_filter.mp he).1, hk⟩)

theorem pendingB_deleteMsg_other (s : DState) (c0 m0 c m : Nat)
    (hne : ((c, m) : Nat × Nat) ≠ (c0, m0)) :
    pendingB (deleteMsg s c0 m0) c m = pendingB s c m := by
  rcases hb : pendingB s c m with _ | _
  · rcases hb2 : pendingB (deleteMsg s c0 m0) c m with _ | _
    · rfl
    · have hcon := pendingB_deleteMsg_le s c0 m0 c m hb2
      rw [hb] at hcon
      exact Bool.noConfusion hcon
  · rcases List.mem_map.mp ((pendingB_true_iff _ c m).mp hb) with ⟨e, he, hk⟩
    apply (pendingB_true_iff _ c m).mpr
    apply List.mem_map.mpr
    refine ⟨e, List.mem_filter.mpr ⟨he, ?_⟩, hk⟩
    rw [hk]
    simp only [Bool.not_eq_true', decide_eq_false_iff_not]
    exact hne

theorem lookupMsg_none_iff (s : DState) (c m : Nat) :
    lookupMsg s c m = none ↔ pendingB s c m = false := by
  unfold lookupMsg pendingB
  rw [Option.map_eq_none']
  rw [List.find?_eq_none]
  constructor
  · intro h
    rcases hb : s.messages.any (fun e => decide (e.1 = (c, m))) with _ | _
    · rfl
    · rcases List.any_eq_true.mp hb with ⟨e, he, hp⟩
      exact absurd hp (h e he)
  · intro h e he hp
    have : s.messages.any (fun e => decide (e.1 = (c, m))) = true :=
      List.any_eq_true.mpr ⟨e, he, hp⟩
    rw [h] at this
    exact Bool.noConfusion this

theorem lookupMsg_some_pending (s : DState) (c m : Nat) (mi : MsgInfo)
    (h : lookupMsg s c m = some mi) : pendingB s c m = true := by
  rcases hb : pendingB s c m with _ | _
  · rw [(lookupMsg_none_iff s c m).mpr hb] at h
    exact Option.noConfusion h
  · rfl

theorem deleteMsg_not_pending (s : DState) (c m : Nat)
    (hp : pendingB s c m = false) : deleteMsg s c m = s := by
  have hmsgs : s.messages.filter (fun e => !(decide (e.1 = (c, m)))) = s.messages := by
    apply List.filter_eq_self.mpr
    intro e he
    rcases hd : decide (e.1 = ((c, m) : Nat × Nat)) with _ | _
    · rfl
    · have : pendingB s c m = true := List.any_eq_true.mpr ⟨e, he, hd⟩
      rw [hp] at this
      exact Bool.noConfusion this
  unfold deleteMsg
  cases s
  simp only [hmsgs]

end Dispatch

namespace Dispatch

/-- Relation between a state and its successor under every dispatcher
operation except message insertion: handler registries unchanged, log
extended by insertion-free events, message keys only lost, and every
surviving message keeps its submitted flag. -/
def Step (s t : DState) : Prop :=
  t.handlers = s.handlers ∧ t.deadletters = s.deadletters ∧
  (∃ ext, t.log = s.log ++ ext ∧ ∀ c m, Event.ins c m ∉ ext) ∧
  List.Sublist (t.messages.map Prod.fst) (s.messages.map Prod.fst) ∧
  (∀ c m mi', lookupMsg t c m = some mi' →
      ∃ mi, lookupMsg s c m = some mi ∧ mi'.submitted = mi.submitted)

theorem step_refl (s : DState) : Step s s :=
  ⟨rfl, rfl, ⟨[], by simp, by simp⟩, List.Sublist.refl _,
   fun c m mi' h => ⟨mi', h, rfl⟩⟩

theorem step_trans {s t u : DState} (h1 : Step s t) (h2 : Step t u) :
    Step s u := by
  obtain ⟨a1, b1, ⟨e1, hl1, hi1⟩, m1, k1⟩ := h1
  obtain ⟨a2, b2, ⟨e2, hl2, hi2⟩, m2, k2⟩ := h2
  refine ⟨a2.trans a1, b2.trans b1, ⟨e1 ++ e2, ?_, ?_⟩, m2.trans m1, ?_⟩
  · rw [hl2, hl1, List.append_assoc]
  · intro c m hmem
    rcases List.mem_append.mp hmem with hm | hm
    · exact hi1 c m hm
    · exact hi2 c m hm
  · intro c m mi' hl
    rcases k2 c m mi' hl with ⟨mi2, hl2', he2'⟩
    rcases k1 c m mi2 hl2' with ⟨mi1, hl1', he1'⟩
    exact ⟨mi1, hl1', he2'.trans he1'⟩

theorem step_foldl {β : Type} (f : DState → β → DState) (l : List β)
    (h : ∀ s b, b ∈ l → Step s (f s b)) :
    ∀ s, Step s (l.foldl f s) := by
  induction l with
  | nil => intro s; exact step_refl s
  | cons b t ih =>
      intro s
      exact step_trans (h s b (List.mem_cons_self b t))
        (ih (fun s' b' hb' => h s' b' (List.mem_cons_of_mem b hb')) (f s b))

theorem step_emit (s : DState) (e : Event)
    (he : ∀ c m, e ≠ Event.ins c m) : Step s (emit s e) := by
  refine ⟨rfl, rfl, ⟨[e], rfl, ?_⟩, List.Sublist.refl _,
    fun c m mi' h => ⟨mi', h, rfl⟩⟩
  intro c m hmem
  exact he c m (List.mem_singleton.mp hmem).symm

theorem step_setMsg (s : DState) (c0 m0 : Nat) (f : MsgInfo → MsgInfo)
    (hf : ∀ mi, (f mi).submitted = mi.submitted) :
    Step s (setMsg s c0 m0 f) := by
  refine ⟨rfl, rfl, ⟨[], by simp [setMsg], by simp⟩, ?_, ?_⟩
  · rw [setMsg_keys]
  · intro c m mi' hl
    rw [lookupMsg_setMsg] at hl
    by_cases hkk : ((c, m) : Nat × Nat) = (c0, m0)
    · rw [if_pos hkk] at hl
      rcases hmap : lookupMsg s c m with _ | mi
      · rw [hmap] at hl
        exact Option.noConfusion hl
      · rw [hmap] at hl
        refine ⟨mi, rfl, ?_⟩
        have hmi : f mi = mi' := by
          injection hl
        rw [← hmi, hf]
    · rw [if_neg hkk] at hl
      exact ⟨mi', hl, rfl⟩

theorem step_delete (s : DState) (c0 m0 : Nat) : Step s (deleteMsg s c0 m0) := by
  refine ⟨rfl, rfl, ⟨[], by simp [deleteMsg], by simp⟩, ?_, ?_⟩
  · exact List.Sublist.map Prod.fst (List.filter_sublist _)
  · intro c m mi' hl
    rw [lookupMsg_deleteMsg] at hl
    by_cases hkk : ((c, m) : Nat × Nat) = (c0, m0)
    · rw [if_pos hkk] at hl
      exact Option.noConfusion hl
    · rw [if_neg hkk] at hl
      exact ⟨mi', hl, rfl⟩

theorem step_ackFin (c m : Nat) (s : DState) : Step s (ackFin c m s) := by
  unfold ackFin
  rcases hl : lookupMsg s c m with _ | mi2
  · exact step_refl s
  · simp only []
    split
    · exact step_trans (step_delete s c m)
        (step_emit (deleteMsg s c m) (Event.srcAck c m) (fun c' m' => by simp))
    · exact step_refl s

theorem step_ackCore (h c m : Nat) (mi : MsgInfo) (s : DState) :
    Step s (ackCore h c m mi s) := by
  unfold ackCore
  simp only []
  by_cases hmem : h ∈ mi.handlers
  · simp only [if_pos hmem]
    exact step_setMsg { s with active := insertSet h s.active } c m
      (fun mi => { mi with claimed := true, handlers := mi.handlers.erase h })
      (fun mi => rfl)
  · simp only [if_neg hmem]
    exact step_setMsg s c m
      (fun mi => { mi with claimed := true, handlers := mi.handlers.erase h })
      (fun mi => rfl)

theorem step_ackAct (h c m : Nat) (s : DState) : Step s (ackAct h c m s) := by
  unfold ackAct
  rcases hl : lookupMsg s c m with _ | mi
  · exact step_emit s _ (fun c' m' => by simp)
  · exact step_trans (step_ackCore h c m mi s)
      (step_trans (step_emit _ _ (fun c' m' => by simp)) (step_ackFin c m _))

theorem step_nackCore (h c m : Nat) (mi : MsgInfo) (r : Bool) (s : DState) :
    Step s (nackCore h c m mi r s) := by
  unfold nackCore
  simp only []
  have h1 := step_setMsg s c m (fun mi => { mi with claimed := true })
    (fun mi => rfl)
  by_cases hmem : h ∈ mi.handlers
  · simp only [if_pos hmem]
    have h3 := step_setMsg (setMsg s c m (fun mi => { mi with claimed := true }))
      c m (fun mi => { mi with handlers := insertSet h mi.handlers })
      (fun mi => rfl)
    split
    · exact step_trans h1 h3
    · exact step_trans h1 h3
  · simp only [if_neg hmem]
    have h3 := step_setMsg
      { setMsg s c m (fun mi => { mi with claimed := true }) with
        active := insertSet h
          (setMsg s c m (fun mi => { mi with claimed := true })).active }
      c m (fun mi => { mi with handlers := insertSet h mi.handlers })
      (fun mi => rfl)
    split
    · exact @step_trans s
        (setMsg s c m (fun mi => { mi with claimed := true })) _ h1 h3
    · exact @step_trans s
        (setMsg s c m (fun mi => { mi with claimed := true })) _ h1 h3

theorem step_nackAct (h c m : Nat) (r : Bool) (s : DState) :
    Step s (nackAct h c m r s) := by
  unfold nackAct
  split
  · rcases hl : lookupMsg s c m with _ | mi
    · exact step_refl s
    · exact step_nackCore h c m mi r s
  · exact step_refl s

theorem step_hactStep (h c m : Nat) (s : DState) (a : HAct) :
    Step s (hactStep h c m s a) := by
  rcases a with _ | r
  · exact step_ackAct h c m s
  · exact step_nackAct h c m r s

theorem step_handlerSend (pol : Policy) (h c m : Nat) (ttl : Int)
    (s : DState) : Step s (handlerSend pol h c m ttl s) := by
  unfold handlerSend
  simp only []
  exact step_trans (step_emit s _ (fun c' m' => by simp))
    (step_foldl _ _ (fun s' b _ => step_hactStep h c m s' b) _)

theorem step_redeliver (pol : Policy) (c mId : Nat) (expv : Int)
    (s : DState) (h : Nat) : Step s (redeliver pol c mId expv s h) := by
  unfold redeliver
  rcases hl : lookupMsg s c mId with _ | mi
  · exact step_refl s
  · simp only []
    split
    · exact step_handlerSend pol h c mId (expv - s.counter) s
    · exact step_refl s

theorem step_replayRound (pol : Policy) (c : Nat) (activeL : List Nat)
    (snapshot : List (Nat × Int)) (s : DState) :
    Step s (replayRound pol c activeL snapshot s) :=
  step_foldl _ _
    (fun s' me _ =>
      step_foldl _ _ (fun s'' h _ => step_redeliver pol c me.1 me.2 s'' h) s')
    s

theorem step_replayPending (pol : Policy) (c : Nat) :
    ∀ (fuel : Nat) (s : DState), Step s (replayPending pol c fuel s) := by
  intro fuel
  induction fuel with
  | zero => intro s; exact step_refl s
  | succ n ih =>
      intro s
      rw [replayPending]
      split
      · exact step_refl s
      · exact @step_trans s
          (replayRound pol c
            (s.handlers.filter
              (fun h => decide (h ∈ s.active) && decide (h ∈ s.replays)))
            ((s.messages.filter (fun e => decide (e.1.1 = c))).map
              (fun e => (e.1.2, e.2.expires)))
            { s with active := [], replays := [] }) _
          (step_replayRound pol c _ _ _) (ih _)

theorem step_expDeliver (pol : Policy) (c m : Nat) (s : DState) (h : Nat) :
    Step s (expDeliver pol c m s h) := by
  unfold expDeliver
  rcases hl : lookupMsg s c m with _ | mi
  · exact step_refl s
  · simp only []
    split
    · exact step_handlerSend pol h c m 0 s
    · exact step_refl s

theorem step_expFinish (pol : Policy) (c m : Nat) (s : DState) :
    Step s (expFinish pol c m s) := by
  unfold expFinish
  split
  · simp only []
    generalize hG : s.deadletters.foldl (fun s h => handlerSend pol h c m 0 s) s = s2
    have h2 : Step s s2 := by
      rw [← hG]
      exact step_foldl _ _ (fun s' b _ => step_handlerSend pol b c m 0 s') s
    rcases hsrc : (lookupMsg s2 c m).map (fun mi => mi.source) with _ | v
    · rw [hsrc]
      exact step_trans h2 (step_delete s2 c m)
    · rw [hsrc]
      exact step_trans h2 (step_trans (step_delete s2 c m)
        (step_emit (deleteMsg s2 c m) (Event.srcAck c m) (fun c' m' => by simp)))
  · exact step_refl s

theorem step_expireMsg (pol : Policy) (c m : Nat) (s : DState) :
    Step s (expireMsg pol c m s) := by
  unfold expireMsg
  exact step_trans
    (step_foldl _ _ (fun s' b _ => step_expDeliver pol c m s' b) s)
    (step_expFinish pol c m _)

theorem step_sweepOne (pol : Policy) (rfuel : Nat) (c m : Nat) (s : DState) :
    Step s (sweepOne pol rfuel c m s) := by
  unfold sweepOne
  exact @step_trans s (expireMsg pol c m { s with active := [] }) _
    (step_expireMsg pol c m _) (step_replayPending pol c rfuel _)

theorem step_checkExpiring (pol : Policy) (rfuel : Nat) :
    ∀ (n : Nat) (s : DState), Step s (checkExpiring pol rfuel n s) := by
  intro n
  induction n with
  | zero => intro s; exact step_refl s
  | succ k ih =>
      intro s
      rw [checkExpiring]
      rcases hm : s.messages with _ | ⟨⟨⟨c, m⟩, mi⟩, rest⟩
      · exact step_refl s
      · simp only []
        split
        · exact step_refl s
        · exact step_trans (step_sweepOne pol rfuel c m s) (ih _)

theorem step_terminateD (pol : Policy) (rfuel : Nat) :
    ∀ (n : Nat) (s : DState), Step s (terminateD pol rfuel n s) := by
  intro n
  induction n with
  | zero => intro s; exact step_refl s
  | succ k ih =>
      intro s
      rw [terminateD]
      rcases hm : s.messages with _ | ⟨⟨⟨c, m⟩, mi⟩, rest⟩
      · exact step_refl s
      · exact step_trans (step_sweepOne pol rfuel c m s) (ih _)

end Dispatch

namespace Dispatch

/-- Accounting invariant of the dispatcher: for every key, the number of
ins events equals the number of upstream acks, plus one if the message is
currently pending. -/
def InvC1 (s : DState) : Prop :=
  ∀ c m : Nat, countIns s.log c m
    = countAck s.log c m + (if pendingB s c m = true then 1 else 0)

theorem count_event_singleton (x e : Event) :
    [x].count e = if x = e then 1 else 0 := by
  rw [List.count_cons, List.count_nil]
  simp

theorem countAck_append_event (l : List Event) (e : Event) (c m : Nat)
    (hne : e ≠ Event.srcAck c m) :
    countAck (l ++ [e]) c m = countAck l c m := by
  unfold countAck
  rw [List.count_append, count_event_singleton, if_neg hne, Nat.add_zero]

theorem countAck_append_self (l : List Event) (c m : Nat) :
    countAck (l ++ [Event.srcAck c m]) c m = countAck l c m + 1 := by
  unfold countAck
  rw [List.count_append, count_event_singleton, if_pos rfl]

theorem countIns_append_event (l : List Event) (e : Event) (c m : Nat)
    (hne : e ≠ Event.ins c m) :
    countIns (l ++ [e]) c m = countIns l c m := by
  unfold countIns
  rw [List.count_append, count_event_singleton, if_neg hne, Nat.add_zero]

theorem countIns_append_self (l : List Event) (c m : Nat) :
    countIns (l ++ [Event.ins c m]) c m = countIns l c m + 1 := by
  unfold countIns
  rw [List.count_append, count_event_singleton, if_pos rfl]

theorem countIns_zero_not_mem (l : List Event) (c m : Nat)
    (h : countIns l c m = 0) : Event.ins c m ∉ l := by
  unfold countIns at h
  exact List.count_eq_zero.mp h

theorem countIns_pos_of_mem (l : List Event) (c m : Nat)
    (h : Event.ins c m ∈ l) : 0 < countIns l c m := by
  apply Nat.pos_of_ne_zero
  intro h0
  exact countIns_zero_not_mem l c m h0 h

theorem countIns_ext_insfree (l ext : List Event) (c m : Nat)
    (hi : ∀ c' m', Event.ins c' m' ∉ ext) :
    countIns (l ++ ext) c m = countIns l c m := by
  unfold countIns
  rw [List.count_append]
  have : ext.count (Event.ins c m) = 0 := List.count_eq_zero.mpr (hi c m)
  rw [this, Nat.add_zero]

theorem invc1_emit (s : DState) (e : Event)
    (hIns : ∀ c m, e ≠ Event.ins c m)
    (hAck : ∀ c m, e ≠ Event.srcAck c m)
    (hs : InvC1 s) : InvC1 (emit s e) := by
  intro c m
  show countIns (s.log ++ [e]) c m = countAck (s.log ++ [e]) c m + _
  rw [countIns_append_event _ _ _ _ (hIns c m),
    countAck_append_event _ _ _ _ (hAck c m)]
  exact hs c m

theorem invc1_setMsg (s : DState) (c0 m0 : Nat) (f : MsgInfo → MsgInfo)
    (hs : InvC1 s) : InvC1 (setMsg s c0 m0 f) := by
  intro c m
  rw [show pendingB (setMsg s c0 m0 f) c m = pendingB s c m from
    pendingB_setMsg s c0 m0 f c m]
  exact hs c m

theorem invc1_ackDelete (s : DState) (c0 m0 : Nat)
    (hp : pendingB s c0 m0 = true) (hs : InvC1 s) :
    InvC1 (emit (deleteMsg s c0 m0) (Event.srcAck c0 m0)) := by
  intro c m
  by_cases hk : ((c, m) : Nat × Nat) = (c0, m0)
  · have hc : c = c0 := congrArg Prod.fst hk
    have hm : m = m0 := congrArg Prod.snd hk
    subst hc
    subst hm
    show countIns (s.log ++ [Event.srcAck c m]) c m
      = countAck (s.log ++ [Event.srcAck c m]) c m + _
    rw [countIns_append_event _ _ _ _ (by simp), countAck_append_self,
      show pendingB (emit (deleteMsg s c m) (Event.srcAck c m)) c m = false from
        pendingB_deleteMsg_self s c m]
    have h0 := hs c m
    rw [hp, if_pos rfl] at h0
    simp only [Bool.false_eq_true, if_false]
    omega
  · show countIns (s.log ++ [Event.srcAck c0 m0]) c m
      = countAck (s.log ++ [Event.srcAck c0 m0]) c m + _
    have hne : Event.srcAck c0 m0 ≠ Event.srcAck c m := by
      intro hcon
      injection hcon with h1 h2
      exact hk (by rw [h1, h2])
    rw [countIns_append_event _ _ _ _ (by simp),
      countAck_append_event _ _ _ _ hne,
      show pendingB (emit (deleteMsg s c0 m0) (Event.srcAck c0 m0)) c m
          = pendingB s c m from pendingB_deleteMsg_other s c0 m0 c m hk]
    exact hs c m

theorem invc1_ackFin (c m : Nat) (s : DState) (hs : InvC1 s) :
    InvC1 (ackFin c m s) := by
  unfold ackFin
  rcases hl : lookupMsg s c m with _ | mi2
  · exact hs
  · simp only []
    split
    · exact invc1_ackDelete s c m (lookupMsg_some_pending s c m mi2 hl) hs
    · exact hs

theorem invc1_ackCore (h c m : Nat) (mi : MsgInfo) (s : DState)
    (hs : InvC1 s) : InvC1 (ackCore h c m mi s) := by
  unfold ackCore
  simp only []
  by_cases hmem : h ∈ mi.handlers
  · simp only [if_pos hmem]
    exact invc1_setMsg { s with active := insertSet h s.active } c m
      (fun mi => { mi with claimed := true, handlers := mi.handlers.erase h }) hs
  · simp only [if_neg hmem]
    exact invc1_setMsg s c m
      (fun mi => { mi with claimed := true, handlers := mi.handlers.erase h }) hs

theorem invc1_ackAct (h c m : Nat) (s : DState) (hs : InvC1 s) :
    InvC1 (ackAct h c m s) := by
  unfold ackAct
  rcases hl : lookupMsg s c m with _ | mi
  · exact invc1_emit s _ (fun c' m' => by simp) (fun c' m' => by simp) hs
  · exact invc1_ackFin c m _
      (invc1_emit _ _ (fun c' m' => by simp) (fun c' m' => by simp)
        (invc1_ackCore h c m mi s hs))

theorem invc1_nackCore (h c m : Nat) (mi : MsgInfo) (r : Bool) (s : DState)
    (hs : InvC1 s) : InvC1 (nackCore h c m mi r s) := by
  unfold nackCore
  simp only []
  have h1 : InvC1 (setMsg s c m fun mi => { mi with claimed := true }) :=
    invc1_setMsg s c m _ hs
  by_cases hmem : h ∈ mi.handlers
  · simp only [if_pos hmem]
    have h3 := invc1_setMsg (setMsg s c m fun mi => { mi with claimed := true })
      c m (fun mi => { mi with handlers := insertSet h mi.handlers }) h1
    split
    · exact h3
    · exact h3
  · simp only [if_neg hmem]
    have h3 := invc1_setMsg
      { setMsg s c m (fun mi => { mi with claimed := true }) with
        active := insertSet h
          (setMsg s c m (fun mi => { mi with claimed := true })).active }
      c m (fun mi => { mi with handlers := insertSet h mi.handlers }) h1
    split
    · exact h3
    · exact h3

theorem invc1_nackAct (h c m : Nat) (r : Bool) (s : DState) (hs : InvC1 s) :
    InvC1 (nackAct h c m r s) := by
  unfold nackAct
  split
  · rcases hl : lookupMsg s c m with _ | mi
    · exact hs
    · exact invc1_nackCore h c m mi r s hs
  · exact hs

theorem invc1_hactStep (h c m : Nat) (s : DState) (a : HAct) (hs : InvC1 s) :
    InvC1 (hactStep h c m s a) := by
  rcases a with _ | r
  · exact invc1_ackAct h c m s hs
  · exact invc1_nackAct h c m r s hs

theorem invc1_handlerSend (pol : Policy) (h c m : Nat) (ttl : Int)
    (s : DState) (hs : InvC1 s) : InvC1 (handlerSend pol h c m ttl s) := by
  unfold handlerSend
  simp only []
  exact WavesM.foldl_keeps
    (fun s' a _ hP => invc1_hactStep h c m s' a hP) _
    (invc1_emit s _ (fun c' m' => by simp) (fun c' m' => by simp) hs)

theorem invc1_redeliver (pol : Policy) (c mId : Nat) (expv : Int)
    (s : DState) (h : Nat) (hs : InvC1 s) :
    InvC1 (redeliver pol c mId expv s h) := by
  unfold redeliver
  rcases hl : lookupMsg s c mId with _ | mi
  · exact hs
  · simp only []
    split
    · exact invc1_handlerSend pol h c mId _ s hs
    · exact hs

theorem invc1_replayRound (pol : Policy) (c : Nat) (activeL : List Nat)
    (snapshot : List (Nat × Int)) (s : DState) (hs : InvC1 s) :
    InvC1 (replayRound pol c activeL snapshot s) := by
  unfold replayRound
  exact WavesM.foldl_keeps
    (fun s' me _ hP => WavesM.foldl_keeps
      (fun s'' h _ hQ => invc1_redeliver pol c me.1 me.2 s'' h hQ) _ hP)
    _ hs

theorem invc1_replayPending (pol : Policy) (c : Nat) :
    ∀ (fuel : Nat) (s : DState), InvC1 s → InvC1 (replayPending pol c fuel s) := by
  intro fuel
  induction fuel with
  | zero => intro s hs; exact hs
  | succ n ih =>
      intro s hs
      rw [replayPending]
      split
      · exact hs
      · exact ih _ (invc1_replayRound pol c _ _ _ hs)

theorem invc1_expDeliver (pol : Policy) (c m : Nat) (s : DState) (h : Nat)
    (hs : InvC1 s) : InvC1 (expDeliver pol c m s h) := by
  unfold expDeliver
  rcases hl : lookupMsg s c m with _ | mi
  · exact hs
  · simp only []
    split
    · exact invc1_handlerSend pol h c m 0 s hs
    · exact hs

theorem invc1_expFinish (pol : Policy) (c m : Nat) (s : DState)
    (hs : InvC1 s) : InvC1 (expFinish pol c m s) := by
  unfold expFinish
  split
  · simp only []
    generalize hG : s.deadletters.foldl (fun s h => handlerSend pol h c m 0 s) s = s2
    have h2 : InvC1 s2 := by
      rw [← hG]
      exact WavesM.foldl_keeps
        (fun s' b _ hP => invc1_handlerSend pol b c m 0 s' hP) _ hs
    rcases hsrc : (lookupMsg s2 c m).map (fun mi => mi.source) with _ | v
    · rw [hsrc]
      have hnone : lookupMsg s2 c m = none := by
        rcases hlk : lookupMsg s2 c m with _ | mi
        · rfl
        · rw [hlk] at hsrc
          exact Option.noConfusion hsrc
      have hnp : pendingB s2 c m = false := (lookupMsg_none_iff s2 c m).mp hnone
      rw [deleteMsg_not_pending s2 c m hnp]
      exact h2
    · rw [hsrc]
      have hpend : pendingB s2 c m = true := by
        rcases hlk : lookupMsg s2 c m with _ | mi
        · rw [hlk] at hsrc
          exact Option.noConfusion hsrc
        · exact lookupMsg_some_pending s2 c m mi hlk
      exact invc1_ackDelete s2 c m hpend h2
  · exact hs

theorem invc1_expireMsg (pol : Policy) (c m : Nat) (s : DState)
    (hs : InvC1 s) : InvC1 (expireMsg pol c m s) := by
  unfold expireMsg
  exact invc1_expFinish pol c m _
    (WavesM.foldl_keeps (fun s' b _ hP => invc1_expDeliver pol c m s' b hP) _ hs)

theorem invc1_sweepOne (pol : Policy) (rfuel : Nat) (c m : Nat) (s : DState)
    (hs : InvC1 s) : InvC1 (sweepOne pol rfuel c m s) := by
  unfold sweepOne
  exact invc1_replayPending pol c rfuel _
    (invc1_expireMsg pol c m { s with active := [] } hs)

theorem invc1_checkExpiring (pol : Policy) (rfuel : Nat) :
    ∀ (n : Nat) (s : DState), InvC1 s → InvC1 (checkExpiring pol rfuel n s) := by
  intro n
  induction n with
  | zero => intro s hs; exact hs
  | succ k ih =>
      intro s hs
      rw [checkExpiring]
      rcases hm : s.messages with _ | ⟨⟨⟨c, m⟩, mi⟩, rest⟩
      · exact hs
      · simp only []
        split
        · exact hs
        · exact ih _ (invc1_sweepOne pol rfuel c m s hs)

theorem invc1_terminateD (pol : Policy) (rfuel : Nat) :
    ∀ (n : Nat) (s : DState), InvC1 s → InvC1 (terminateD pol rfuel n s) := by
  intro n
  induction n with
  | zero => intro s hs; exact hs
  | succ k ih =>
      intro s hs
      rw [terminateD]
      rcases hm : s.messages with _ | ⟨⟨⟨c, m⟩, mi⟩, rest⟩
      · exact hs
      · exact ih _ (invc1_sweepOne pol rfuel c m s hs)

theorem pendingB_insertMsg (c m src : Nat) (ttl : Int) (s : DState)
    (c' m' : Nat) :
    pendingB (insertMsg c m src ttl s) c' m'
      = (pendingB s c' m' || decide (((c, m) : Nat × Nat) = (c', m'))) := by
  show (s.messages ++ [((c, m), MsgInfo.mk src (s.counter + ttl) [] false false)]).any
      (fun e => decide (e.1 = (c', m'))) = _
  rw [List.any_append]
  simp [pendingB]

theorem invc1_insertMsg (c m src : Nat) (ttl : Int) (s : DState)
    (hp : pendingB s c m = false) (hs : InvC1 s) :
    InvC1 (insertMsg c m src ttl s) := by
  intro c' m'
  by_cases hk : ((c', m') : Nat × Nat) = (c, m)
  · have hc : c' = c := congrArg Prod.fst hk
    have hm : m' = m := congrArg Prod.snd hk
    subst hc
    subst hm
    show countIns (s.log ++ [Event.ins c' m']) c' m'
      = countAck (s.log ++ [Event.ins c' m']) c' m' + _
    rw [countIns_append_self, countAck_append_event _ _ _ _ (by simp)]
    rw [show pendingB (insertMsg c' m' src ttl s) c' m' = true by
      rw [pendingB_insertMsg]
      simp]
    have h0 := hs c' m'
    rw [hp] at h0
    simp only [Bool.false_eq_true, if_false] at h0
    rw [if_pos rfl]
    omega
  · have hne : Event.ins c m ≠ Event.ins c' m' := by
      intro hcon
      injection hcon with h1 h2
      exact hk (by rw [h1, h2])
    show countIns (s.log ++ [Event.ins c m]) c' m'
      = countAck (s.log ++ [Event.ins c m]) c' m' + _
    rw [countIns_append_event _ _ _ _ hne,
      countAck_append_event _ _ _ _ (by simp)]
    rw [show pendingB (insertMsg c m src ttl s) c' m' = pendingB s c' m' by
      rw [pendingB_insertMsg]
      have : decide (((c, m) : Nat × Nat) = (c', m')) = false := by
        simp only [decide_eq_false_iff_not]
        exact fun hcon => hk hcon.symm
      rw [this, Bool.or_false]]
    exact hs c' m'

theorem invc1_submitFin (pol : Policy) (c m : Nat) (s : DState)
    (hs : InvC1 s) : InvC1 (submitFin pol c m s) := by
  unfold submitFin
  rcases hl : lookupMsg s c m with _ | mi
  · exact hs
  · simp only []
    have h1 : InvC1 (setMsg s c m fun mi => { mi with submitted := true }) :=
      invc1_setMsg s c m _ hs
    split
    · exact invc1_expireMsg pol c m _ h1
    · split
      · have hp2 : pendingB (setMsg s c m fun mi => { mi with submitted := true })
            c m = true := by
          rw [pendingB_setMsg]
          exact lookupMsg_some_pending s c m mi hl
        exact invc1_ackDelete _ c m hp2 h1
      · exact invc1_emit _ _ (fun c' m' => by simp) (fun c' m' => by simp) h1

theorem invc1_sendMessage (pol : Policy) (rfuel : Nat) (c m src : Nat)
    (ttl : Int) (s : DState) (hs : InvC1 s) :
    InvC1 (sendMessage pol rfuel c m src ttl s) := by
  unfold sendMessage
  split
  · exact hs
  · rename_i hpT
    have hp : pendingB s c m = false := by
      rcases hb : pendingB s c m with _ | _
      · rfl
      · exact absurd hb hpT
    simp only []
    apply invc1_checkExpiring pol rfuel _ _
    apply invc1_replayPending pol c rfuel _
    apply invc1_submitFin pol c m _
    exact WavesM.foldl_keeps
      (fun s' h _ hP => invc1_handlerSend pol h c m ttl s' hP) _
      (invc1_insertMsg c m src ttl s hp hs)

end Dispatch

namespace Dispatch

theorem append_singleton_decomp {α : Type} (L : List α) (e x : α)
    (l1 l2 : List α) (h : L ++ [e] = l1 ++ x :: l2) :
    (l1 = L ∧ x = e ∧ l2 = []) ∨
      ∃ l2', L = l1 ++ x :: l2' ∧ l2 = l2' ++ [e] := by
  rcases List.eq_nil_or_concat l2 with hnil | ⟨l2', y, rfl⟩
  · subst hnil
    obtain ⟨h1, h2⟩ := List.append_inj' h rfl
    injection h2 with he _
    exact Or.inl ⟨h1.symm, he.symm, rfl⟩
  · right
    rw [List.concat_eq_append] at h ⊢
    rw [show l1 ++ x :: (l2' ++ [y]) = (l1 ++ x :: l2') ++ [y] by simp] at h
    obtain ⟨h1, h2⟩ := List.append_inj' h rfl
    injection h2 with he _
    exact ⟨l2', h1, by rw [he]⟩

theorem mem_log_step {s t : DState} (hst : Step s t) {e : Event}
    (he : e ∈ s.log) : e ∈ t.log := by
  obtain ⟨_, _, ⟨ext, hl, _⟩, _, _⟩ := hst
  rw [hl]
  exact List.mem_append_left _ he

theorem log_ackCore (h c m : Nat) (mi : MsgInfo) (s : DState) :
    (ackCore h c m mi s).log = s.log := by
  unfold ackCore
  simp only []
  split <;> rfl

theorem log_nackCore (h c m : Nat) (mi : MsgInfo) (r : Bool) (s : DState) :
    (nackCore h c m mi r s).log = s.log := by
  unfold nackCore
  simp only []
  split <;> split <;> rfl

theorem log_nackAct (h c m : Nat) (r : Bool) (s : DState) :
    (nackAct h c m r s).log = s.log := by
  unfold nackAct
  split
  · rcases hl : lookupMsg s c m with _ | mi
    · rfl
    · exact log_nackCore h c m mi r s
  · rfl

theorem log_ackFin (c m : Nat) (s : DState) :
    (ackFin c m s).log = s.log ∨
      (ackFin c m s).log = s.log ++ [Event.srcAck c m] := by
  unfold ackFin
  rcases hl : lookupMsg s c m with _ | mi2
  · exact Or.inl rfl
  · simp only []
    split
    · exact Or.inr rfl
    · exact Or.inl rfl

theorem hack_ackAct_mem (h c m h' c' m' : Nat) (s : DState)
    (hmem : Event.hack h' c' m' ∈ (ackAct h c m s).log) :
    Event.hack h' c' m' ∈ s.log ∨ (h' = h ∧ c' = c ∧ m' = m) := by
  unfold ackAct at hmem
  rcases hl : lookupMsg s c m with _ | mi
  · rw [hl] at hmem
    rcases List.mem_append.mp hmem with hm | hm
    · exact Or.inl hm
    · have he := List.mem_singleton.mp hm
      injection he with e1 e2 e3
      exact Or.inr ⟨e1, e2, e3⟩
  · rw [hl] at hmem
    rcases log_ackFin c m (emit (ackCore h c m mi s) (Event.hack h c m)) with
      heq | heq
    · rw [heq, log_emit, log_ackCore] at hmem
      rcases List.mem_append.mp hmem with hm | hm
      · exact Or.inl hm
      · have he := List.mem_singleton.mp hm
        injection he with e1 e2 e3
        exact Or.inr ⟨e1, e2, e3⟩
    · rw [heq, log_emit, log_ackCore] at hmem
      rcases List.mem_append.mp hmem with hm | hm
      · rcases List.mem_append.mp hm with hm2 | hm2
        · exact Or.inl hm2
        · have he := List.mem_singleton.mp hm2
          injection he with e1 e2 e3
          exact Or.inr ⟨e1, e2, e3⟩
      · have he := List.mem_singleton.mp hm
        exact absurd he (by simp)

theorem hack_hactStep_mem (h c m h' c' m' : Nat) (s : DState) (a : HAct)
    (hmem : Event.hack h' c' m' ∈ (hactStep h c m s a).log) :
    Event.hack h' c' m' ∈ s.log ∨ (h' = h ∧ c' = c ∧ m' = m) := by
  rcases a with _ | r
  · exact hack_ackAct_mem h c m h' c' m' s hmem
  · rw [show (hactStep h c m s (HAct.nack r)).log = s.log from
      log_nackAct h c m r s] at hmem
    exact Or.inl hmem

theorem hack_hactFold_mem (h c m h' c' m' : Nat) :
    ∀ (acts : List HAct) (s : DState),
    Event.hack h' c' m' ∈ (acts.foldl (hactStep h c m) s).log →
    Event.hack h' c' m' ∈ s.log ∨ (h' = h ∧ c' = c ∧ m' = m) := by
  intro acts
  induction acts with
  | nil => intro s hmem; exact Or.inl hmem
  | cons a rest ih =>
      intro s hmem
      rcases ih (hactStep h c m s a) hmem with hm | hk
      · exact hack_hactStep_mem h c m h' c' m' s a hm
      · exact Or.inr hk

theorem hack_handlerSend_mem (pol : Policy) (h c m : Nat) (ttl : Int)
    (h' c' m' : Nat) (s : DState)
    (hmem : Event.hack h' c' m' ∈ (handlerSend pol h c m ttl s).log) :
    Event.hack h' c' m' ∈ s.log ∨ (h' = h ∧ c' = c ∧ m' = m) := by
  unfold handlerSend at hmem
  simp only [] at hmem
  rcases hack_hactFold_mem h c m h' c' m' _ _ hmem with hm | hk
  · rw [log_emit] at hm
    rcases List.mem_append.mp hm with hm2 | hm2
    · exact Or.inl hm2
    · exact absurd (List.mem_singleton.mp hm2) (by simp)
  · exact Or.inr hk

theorem hsend_in_handlerSend (pol : Policy) (h c m : Nat) (ttl : Int)
    (s : DState) :
    Event.hsend h c m ttl ∈ (handlerSend pol h c m ttl s).log := by
  unfold handlerSend
  simp only []
  have hstep := step_foldl (hactStep h c m)
    (pol h (emit s (Event.hsend h c m ttl)).log c m ttl)
    (fun s' b _ => step_hactStep h c m s' b) (emit s (Event.hsend h c m ttl))
  obtain ⟨_, _, ⟨ext, hl, _⟩, _, _⟩ := hstep
  rw [hl, log_emit]
  exact List.mem_append_left _ (List.mem_append_right _ (List.mem_singleton.mpr rfl))

end Dispatch

namespace Dispatch

/-- A handler makes no nack call after an ack call within one delivery
(every handler in the repository acks or nacks a delivered message exactly
once, so this holds for all of them). -/
def noNackAfterAck : List HAct → Prop
  | [] => True
  | HAct.ack :: rest => (∀ r, HAct.nack r ∉ rest) ∧ noNackAfterAck rest
  | HAct.nack _ :: rest => noNackAfterAck rest

def GoodPolicy (pol : Policy) : Prop :=
  ∀ h l c m ttl, noNackAfterAck (pol h l c m ttl)

/-- All pending messages are submitted (holds between dispatcher
operations; temporarily broken inside send_message). -/
def SubAll (s : DState) : Prop :=
  ∀ c m mi, lookupMsg s c m = some mi → mi.submitted = true

theorem suball_step {s t : DState} (hst : Step s t) (hs : SubAll s) :
    SubAll t := by
  intro c m mi' hl
  obtain ⟨_, _, _, _, hk⟩ := hst
  rcases hk c m mi' hl with ⟨mi, hls, heq⟩
  rw [heq]
  exact hs c m mi hls

/-- Ordering and delivery invariant for claim C2, for fixed handler
registries H (handlers) and D (dead-letter handlers). -/
structure Inv2 (H D : List Nat) (s : DState) : Prop where
  hH : s.handlers = H
  hD : s.deadletters = D
  ackOrd : ∀ c m l1 l2, s.log = l1 ++ Event.srcAck c m :: l2 →
      ∀ h, h ∈ H → ∃ t, Event.hsend h c m t ∈ l1
  hackOrd : ∀ h c m, h ∈ H → ∀ l1 l2, s.log = l1 ++ Event.hack h c m :: l2 →
      ∀ t, Event.hsend h c m t ∉ l2
  subDel : ∀ c m mi, lookupMsg s c m = some mi → mi.submitted = true →
      ∀ h, h ∈ H → ∃ t, Event.hsend h c m t ∈ s.log
  noRev : ∀ h c m mi, h ∈ H → Event.hack h c m ∈ s.log →
      lookupMsg s c m = some mi → h ∉ mi.handlers
  hackIns : ∀ h c m, Event.hack h c m ∈ s.log → Event.ins c m ∈ s.log
  pendIns : ∀ c m, pendingB s c m = true → Event.ins c m ∈ s.log
  hNodup : ∀ c m mi, lookupMsg s c m = some mi → mi.handlers.Nodup

theorem inv2_emit (H D : List Nat) (s : DState) (e : Event)
    (hs : Inv2 H D s)
    (hA : ∀ c m, e = Event.srcAck c m →
        ∀ h, h ∈ H → ∃ t, Event.hsend h c m t ∈ s.log)
    (hB : ∀ h c m t, e = Event.hsend h c m t → h ∈ H →
        Event.hack h c m ∉ s.log)
    (hE : ∀ h c m, e = Event.hack h c m → Event.ins c m ∈ s.log)
    (hN : ∀ h c m, e = Event.hack h c m → h ∈ H →
        ∀ mi, lookupMsg s c m = some mi → h ∉ mi.handlers) :
    Inv2 H D (emit s e) := by
  obtain ⟨hH, hD, ackOrd, hackOrd, subDel, noRev, hackIns, pendIns, hNodup⟩ := hs
  refine ⟨hH, hD, ?_, ?_, ?_, ?_, ?_, ?_, hNodup⟩
  · intro c m l1 l2 hdec h hh
    rcases append_singleton_decomp s.log e (Event.srcAck c m) l1 l2 hdec with
      ⟨hl1, hxe, _⟩ | ⟨l2', hL, _⟩
    · subst hl1
      exact hA c m hxe.symm h hh
    · exact ackOrd c m l1 l2' hL h hh
  · intro h c m hh l1 l2 hdec t hmem
    rcases append_singleton_decomp s.log e (Event.hack h c m) l1 l2 hdec with
      ⟨_, _, hl2⟩ | ⟨l2', hL, hl2⟩
    · subst hl2
      exact absurd hmem (List.not_mem_nil _)
    · rw [hl2] at hmem
      rcases List.mem_append.mp hmem with hm | hm
      · exact hackOrd h c m hh l1 l2' hL t hm
      · have hxe := List.mem_singleton.mp hm
        have hhackmem : Event.hack h c m ∈ s.log := by
          rw [hL]
          exact List.mem_append_right _ (List.mem_cons_self _ _)
        exact hB h c m t hxe.symm hh hhackmem
  · intro c m mi hlk hsub h hh
    rcases subDel c m mi hlk hsub h hh with ⟨t, ht⟩
    exact ⟨t, List.mem_append_left _ ht⟩
  · intro h c m mi hh hhack hlk
    rcases List.mem_append.mp hhack with hm | hm
    · exact noRev h c m mi hh hm hlk
    · exact hN h c m (List.mem_singleton.mp hm).symm hh mi hlk
  · intro h c m hhack
    rcases List.mem_append.mp hhack with hm | hm
    · exact List.mem_append_left _ (hackIns h c m hm)
    · exact List.mem_append_left _ (hE h c m (List.mem_singleton.mp hm).symm)
  · intro c m hp
    exact List.mem_append_left _ (pendIns c m hp)

theorem inv2_delete (H D : List Nat) (s : DState) (c0 m0 : Nat)
    (hs : Inv2 H D s) : Inv2 H D (deleteMsg s c0 m0) := by
  obtain ⟨hH, hD, ackOrd, hackOrd, subDel, noRev, hackIns, pendIns, hNodup⟩ := hs
  refine ⟨hH, hD, ackOrd, hackOrd, ?_, ?_, hackIns, ?_, ?_⟩
  · intro c m mi hlk hsub h hh
    rw [lookupMsg_deleteMsg] at hlk
    by_cases hkk : ((c, m) : Nat × Nat) = (c0, m0)
    · rw [if_pos hkk] at hlk
      exact Option.noConfusion hlk
    · rw [if_neg hkk] at hlk
      exact subDel c m mi hlk hsub h hh
  · intro h c m mi hh hhack hlk
    rw [lookupMsg_deleteMsg] at hlk
    by_cases hkk : ((c, m) : Nat × Nat) = (c0, m0)
    · rw [if_pos hkk] at hlk
      exact Option.noConfusion hlk
    · rw [if_neg hkk] at hlk
      exact noRev h c m mi hh hhack hlk
  · intro c m hp
    exact pendIns c m (pendingB_deleteMsg_le s c0 m0 c m hp)
  · intro c m mi hlk
    rw [lookupMsg_deleteMsg] at hlk
    by_cases hkk : ((c, m) : Nat × Nat) = (c0, m0)
    · rw [if_pos hkk] at hlk
      exact Option.noConfusion hlk
    · rw [if_neg hkk] at hlk
      exact hNodup c m mi hlk

theorem inv2_setMsg_shrink (H D : List Nat) (s : DState) (c0 m0 : Nat)
    (f : MsgInfo → MsgInfo) (hs : Inv2 H D s)
    (hsub : ∀ mi, (f mi).submitted = mi.submitted)
    (hshr : ∀ mi h, h ∈ (f mi).handlers → h ∈ mi.handlers)
    (hnd : ∀ mi, mi.handlers.Nodup → (f mi).handlers.Nodup) :
    Inv2 H D (setMsg s c0 m0 f) := by
  obtain ⟨hH, hD, ackOrd, hackOrd, subDel, noRev, hackIns, pendIns, hNodup⟩ := hs
  refine ⟨hH, hD, ackOrd, hackOrd, ?_, ?_, hackIns, ?_, ?_⟩
  · intro c m mi hlk hsubm h hh
    rw [lookupMsg_setMsg] at hlk
    by_cases hkk : ((c, m) : Nat × Nat) = (c0, m0)
    · rw [if_pos hkk] at hlk
      rcases hmap : lookupMsg s c m with _ | mi0
      · rw [hmap] at hlk
        exact Option.noConfusion hlk
      · rw [hmap] at hlk
        have hfm : f mi0 = mi := by injection hlk
        have : mi0.submitted = true := by
          rw [← hsub mi0, hfm]
          exact hsubm
        exact subDel c m mi0 hmap this h hh
    · rw [if_neg hkk] at hlk
      exact subDel c m mi hlk hsubm h hh
  · intro h c m mi hh hhack hlk
    rw [lookupMsg_setMsg] at hlk
    by_cases hkk : ((c, m) : Nat × Nat) = (c0, m0)
    · rw [if_pos hkk] at hlk
      rcases hmap : lookupMsg s c m with _ | mi0
      · rw [hmap] at hlk
        exact Option.noConfusion hlk
      · rw [hmap] at hlk
        have hfm : f mi0 = mi := by injection hlk
        intro hmem
        rw [← hfm] at hmem
        exact noRev h c m mi0 hh hhack hmap (hshr mi0 h hmem)
    · rw [if_neg hkk] at hlk
      exact noRev h c m mi hh hhack hlk
  · intro c m hp
    rw [pendingB_setMsg] at hp
    exact pendIns c m hp
  · intro c m mi hlk
    rw [lookupMsg_setMsg] at hlk
    by_cases hkk : ((c, m) : Nat × Nat) = (c0, m0)
    · rw [if_pos hkk] at hlk
      rcases hmap : lookupMsg s c m with _ | mi0
      · rw [hmap] at hlk
        exact Option.noConfusion hlk
      · rw [hmap] at hlk
        have hfm : f mi0 = mi := by injection hlk
        rw [← hfm]
        exact hnd mi0 (hNodup c m mi0 hmap)
    · rw [if_neg hkk] at hlk
      exact hNodup c m mi hlk

theorem inv2_setMsg_grow (H D : List Nat) (s : DState) (c0 m0 h0 : Nat)
    (hs : Inv2 H D s)
    (hgrow : h0 ∈ H → Event.hack h0 c0 m0 ∉ s.log) :
    Inv2 H D (setMsg s c0 m0
      (fun mi => { mi with handlers := insertSet h0 mi.handlers })) := by
  obtain ⟨hH, hD, ackOrd, hackOrd, subDel, noRev, hackIns, pendIns, hNodup⟩ := hs
  refine ⟨hH, hD, ackOrd, hackOrd, ?_, ?_, hackIns, ?_, ?_⟩
  · intro c m mi hlk hsubm h hh
    rw [lookupMsg_setMsg] at hlk
    by_cases hkk : ((c, m) : Nat × Nat) = (c0, m0)
    · rw [if_pos hkk] at hlk
      rcases hmap : lookupMsg s c m with _ | mi0
      · rw [hmap] at hlk
        exact Option.noConfusion hlk
      · rw [hmap] at hlk
        have hfm : { mi0 with handlers := insertSet h0 mi0.handlers } = mi := by
          injection hlk
        have : mi0.submitted = true := by
          rw [← hfm] at hsubm
          exact hsubm
        exact subDel c m mi0 hmap this h hh
    · rw [if_neg hkk] at hlk
      exact subDel c m mi hlk hsubm h hh
  · intro h c m mi hh hhack hlk
    rw [lookupMsg_setMsg] at hlk
    by_cases hkk : ((c, m) : Nat × Nat) = (c0, m0)
    · rw [if_pos hkk] at hlk
      rcases hmap : lookupMsg s c m with _ | mi0
      · rw [hmap] at hlk
        exact Option.noConfusion hlk
      · rw [hmap] at hlk
        have hfm : { mi0 with handlers := insertSet h0 mi0.handlers } = mi := by
          injection hlk
        intro hmem
        rw [← hfm] at hmem
        rcases (mem_insertSet h h0 mi0.handlers).mp hmem with rfl | hmem0
        · have hc : c = c0 := congrArg Prod.fst hkk
          have hm : m = m0 := congrArg Prod.snd hkk
          rw [hc, hm] at hhack
          exact hgrow hh hhack
        · exact noRev h c m mi0 hh hhack hmap hmem0
    · rw [if_neg hkk] at hlk
      exact noRev h c m mi hh hhack hlk
  · intro c m hp
    rw [pendingB_setMsg] at hp
    exact pendIns c m hp
  · intro c m mi hlk
    rw [lookupMsg_setMsg] at hlk
    by_cases hkk : ((c, m) : Nat × Nat) = (c0, m0)
    · rw [if_pos hkk] at hlk
      rcases hmap : lookupMsg s c m with _ | mi0
      · rw [hmap] at hlk
        exact Option.noConfusion hlk
      · rw [hmap] at hlk
        have hfm : { mi0 with handlers := insertSet h0 mi0.handlers } = mi := by
          injection hlk
        rw [← hfm]
        exact insertSet_nodup h0 mi0.handlers (hNodup c m mi0 hmap)
    · rw [if_neg hkk] at hlk
      exact hNodup c m mi hlk

theorem inv2_setSubmitted (H D : List Nat) (s : DState) (c0 m0 : Nat)
    (hs : Inv2 H D s)
    (hdeliv : ∀ h, h ∈ H → ∃ t, Event.hsend h c0 m0 t ∈ s.log) :
    Inv2 H D (setMsg s c0 m0 (fun mi => { mi with submitted := true })) := by
  obtain ⟨hH, hD, ackOrd, hackOrd, subDel, noRev, hackIns, pendIns, hNodup⟩ := hs
  refine ⟨hH, hD, ackOrd, hackOrd, ?_, ?_, hackIns, ?_, ?_⟩
  · intro c m mi hlk hsubm h hh
    rw [lookupMsg_setMsg] at hlk
    by_cases hkk : ((c, m) : Nat × Nat) = (c0, m0)
    · have hc : c = c0 := congrArg Prod.fst hkk
      have hm : m = m0 := congrArg Prod.snd hkk
      subst hc
      subst hm
      exact hdeliv h hh
    · rw [if_neg hkk] at hlk
      exact subDel c m mi hlk hsubm h hh
  · intro h c m mi hh hhack hlk
    rw [lookupMsg_setMsg] at hlk
    by_cases hkk : ((c, m) : Nat × Nat) = (c0, m0)
    · rw [if_pos hkk] at hlk
      rcases hmap : lookupMsg s c m with _ | mi0
      · rw [hmap] at hlk
        exact Option.noConfusion hlk
      · rw [hmap] at hlk
        have hfm : { mi0 with submitted := true } = mi := by
          injection hlk
        intro hmem
        rw [← hfm] at hmem
        exact noRev h c m mi0 hh hhack hmap hmem
    · rw [if_neg hkk] at hlk
      exact noRev h c m mi hh hhack hlk
  · intro c m hp
    rw [pendingB_setMsg] at hp
    exact pendIns c m hp
  · intro c m mi hlk
    rw [lookupMsg_setMsg] at hlk
    by_cases hkk : ((c, m) : Nat × Nat) = (c0, m0)
    · rw [if_pos hkk] at hlk
      rcases hmap : lookupMsg s c m with _ | mi0
      · rw [hmap] at hlk
        exact Option.noConfusion hlk
      · rw [hmap] at hlk
        have hfm : { mi0 with submitted := true } = mi := by
          injection hlk
        rw [← hfm]
        exact hNodup c m mi0 hmap
    · rw [if_neg hkk] at hlk
      exact hNodup c m mi hlk

end Dispatch

namespace Dispatch

theorem inv2_scratch {H D : List Nat} {s : DState} (hs : Inv2 H D s)
    (a r : List Nat) : Inv2 H D { s with active := a, replays := r } := by
  obtain ⟨hH, hD, f3, f4, f5, f6, f7, f8, f9⟩ := hs
  exact ⟨hH, hD, f3, f4, f5, f6, f7, f8, f9⟩

theorem inv2_ackFin (H D : List Nat) (c m : Nat) (s : DState)
    (hs : Inv2 H D s) : Inv2 H D (ackFin c m s) := by
  unfold ackFin
  rcases hl : lookupMsg s c m with _ | mi2
  · exact hs
  · simp only []
    split
    · rename_i hcond
      apply inv2_emit H D (deleteMsg s c m) (Event.srcAck c m)
        (inv2_delete H D s c m hs)
      · intro c' m' heq h hh
        injection heq with e1 e2
        subst e1
        subst e2
        exact hs.subDel c m mi2 hl hcond.1 h hh
      · intro h' c' m' t heq
        exact absurd heq (by simp)
      · intro h' c' m' heq
        exact absurd heq (by simp)
      · intro h' c' m' heq
        exact absurd heq (by simp)
    · exact hs

theorem lookupMsg_ackCore_self (h c m : Nat) (mi : MsgInfo) (s : DState)
    (hl : lookupMsg s c m = some mi) :
    lookupMsg (ackCore h c m mi s) c m
      = some { mi with claimed := true, handlers := mi.handlers.erase h } := by
  unfold ackCore
  simp only []
  by_cases hmem : h ∈ mi.handlers
  · simp only [if_pos hmem]
    show lookupMsg (setMsg { s with active := insertSet h s.active } c m
      (fun mi => { mi with claimed := true, handlers := mi.handlers.erase h }))
      c m = _
    rw [lookupMsg_setMsg, if_pos rfl]
    show (lookupMsg s c m).map _ = _
    rw [hl]
    rfl
  · simp only [if_neg hmem]
    show lookupMsg (setMsg s c m
      (fun mi => { mi with claimed := true, handlers := mi.handlers.erase h }))
      c m = _
    rw [lookupMsg_setMsg, if_pos rfl, hl]
    rfl

theorem inv2_ackCore (H D : List Nat) (h c m : Nat) (mi : MsgInfo)
    (s : DState) (hs : Inv2 H D s) : Inv2 H D (ackCore h c m mi s) := by
  unfold ackCore
  simp only []
  by_cases hmem : h ∈ mi.handlers
  · simp only [if_pos hmem]
    exact inv2_scratch
      (inv2_setMsg_shrink H D { s with active := insertSet h s.active } c m
        (fun mi => { mi with claimed := true, handlers := mi.handlers.erase h })
        (inv2_scratch hs _ _) (fun _ => rfl)
        (fun mi0 h' hm => List.mem_of_mem_erase hm)
        (fun mi0 hnd => hnd.erase _)) _ _
  · simp only [if_neg hmem]
    exact inv2_scratch
      (inv2_setMsg_shrink H D s c m
        (fun mi => { mi with claimed := true, handlers := mi.handlers.erase h })
        hs (fun _ => rfl)
        (fun mi0 h' hm => List.mem_of_mem_erase hm)
        (fun mi0 hnd => hnd.erase _)) _ _

theorem inv2_ackAct (H D : List Nat) (h c m : Nat) (s : DState)
    (hs : Inv2 H D s) (hIns : Event.ins c m ∈ s.log) :
    Inv2 H D (ackAct h c m s) := by
  unfold ackAct
  rcases hl : lookupMsg s c m with _ | mi
  · apply inv2_emit H D s (Event.hack h c m) hs
    · intro c' m' heq
      exact absurd heq (by simp)
    · intro h' c' m' t heq
      exact absurd heq (by simp)
    · intro h' c' m' heq
      injection heq with e1 e2 e3
      subst e2
      subst e3
      exact hIns
    · intro h' c' m' heq hh' mi' hlk
      injection heq with e1 e2 e3
      subst e2
      subst e3
      rw [hl] at hlk
      exact Option.noConfusion hlk
  · apply inv2_ackFin H D c m _
    apply inv2_emit H D (ackCore h c m mi s) (Event.hack h c m)
      (inv2_ackCore H D h c m mi s hs)
    · intro c' m' heq
      exact absurd heq (by simp)
    · intro h' c' m' t heq
      exact absurd heq (by simp)
    · intro h' c' m' heq
      injection heq with e1 e2 e3
      subst e2
      subst e3
      rw [log_ackCore]
      exact hIns
    · intro h' c' m' heq hh' mi' hlk
      injection heq with e1 e2 e3
      subst e1
      subst e2
      subst e3
      rw [lookupMsg_ackCore_self h c m mi s hl] at hlk
      have hmi : { mi with claimed := true, handlers := mi.handlers.erase h }
          = mi' := by injection hlk
      rw [← hmi]
      intro hmem
      rcases (List.Nodup.mem_erase_iff (hs.hNodup c m mi hl)).mp hmem with
        ⟨hne, _⟩
      exact hne rfl

theorem inv2_nackCore (H D : List Nat) (h c m : Nat) (mi : MsgInfo) (r : Bool)
    (s : DState) (hs : Inv2 H D s)
    (hNoHack : h ∈ H → Event.hack h c m ∉ s.log) :
    Inv2 H D (nackCore h c m mi r s) := by
  unfold nackCore
  simp only []
  have h1 : Inv2 H D (setMsg s c m fun mi => { mi with claimed := true }) :=
    inv2_setMsg_shrink H D s c m _ hs (fun _ => rfl) (fun _ _ hm => hm)
      (fun _ hnd => hnd)
  by_cases hmem : h ∈ mi.handlers
  · simp only [if_pos hmem]
    split
    · exact inv2_scratch
        (inv2_setMsg_grow H D _ c m h h1 (fun hh hk => hNoHack hh hk)) _ _
    · exact inv2_setMsg_grow H D _ c m h h1 (fun hh hk => hNoHack hh hk)
  · simp only [if_neg hmem]
    split
    · exact inv2_scratch
        (inv2_setMsg_grow H D _ c m h (inv2_scratch h1 _ _)
          (fun hh hk => hNoHack hh hk)) _ _
    · exact inv2_setMsg_grow H D _ c m h (inv2_scratch h1 _ _)
        (fun hh hk => hNoHack hh hk)

theorem inv2_nackAct (H D : List Nat) (h c m : Nat) (r : Bool) (s : DState)
    (hs : Inv2 H D s) (hNoHack : h ∈ H → Event.hack h c m ∉ s.log) :
    Inv2 H D (nackAct h c m r s) := by
  unfold nackAct
  split
  · rcases hl : lookupMsg s c m with _ | mi
    · exact hs
    · exact inv2_nackCore H D h c m mi r s hs hNoHack
  · exact hs

theorem inv2_actFold (pol : Policy) (H D : List Nat) (h c m : Nat) :
    ∀ (acts : List HAct) (s : DState), Inv2 H D s →
    Event.ins c m ∈ s.log →
    noNackAfterAck acts →
    (h ∈ H → Event.hack h c m ∈ s.log → ∀ r, HAct.nack r ∉ acts) →
    Inv2 H D (acts.foldl (hactStep h c m) s) := by
  intro acts
  induction acts with
  | nil => intro s hs _ _ _; exact hs
  | cons a rest ih =>
      intro s hs hIns hNAA hHK
      rcases a with _ | r
      · have h1 : Inv2 H D (ackAct h c m s) := inv2_ackAct H D h c m s hs hIns
        refine ih (ackAct h c m s) h1
          (mem_log_step (step_ackAct h c m s) hIns) hNAA.2 ?_
        intro _ _ r
        exact hNAA.1 r
      · have hnohack : h ∈ H → Event.hack h c m ∉ s.log := by
          intro hh hhk
          exact (hHK hh hhk r) (List.mem_cons_self _ _)
        have h1 : Inv2 H D (nackAct h c m r s) :=
          inv2_nackAct H D h c m r s hs hnohack
        have hlogEq : (nackAct h c m r s).log = s.log := log_nackAct h c m r s
        refine ih (nackAct h c m r s) h1 (by rw [hlogEq]; exact hIns) hNAA ?_
        intro hh hhk r'
        rw [hlogEq] at hhk
        intro hmem
        exact (hHK hh hhk r') (List.mem_cons_of_mem _ hmem)

theorem inv2_handlerSend (pol : Policy) (H D : List Nat) (h c m : Nat)
    (ttl : Int) (s : DState) (hg : GoodPolicy pol) (hs : Inv2 H D s)
    (hIns : Event.ins c m ∈ s.log)
    (hNoHack : h ∈ H → Event.hack h c m ∉ s.log) :
    Inv2 H D (handlerSend pol h c m ttl s) := by
  unfold handlerSend
  simp only []
  have h1 : Inv2 H D (emit s (Event.hsend h c m ttl)) := by
    apply inv2_emit H D s (Event.hsend h c m ttl) hs
    · intro c' m' heq
      exact absurd heq (by simp)
    · intro h' c' m' t heq hh'
      injection heq with e1 e2 e3 e4
      subst e1
      subst e2
      subst e3
      exact hNoHack hh'
    · intro h' c' m' heq
      exact absurd heq (by simp)
    · intro h' c' m' heq
      exact absurd heq (by simp)
  apply inv2_actFold pol H D h c m _ _ h1 (List.mem_append_left _ hIns)
    (hg h _ c m ttl)
  intro hh hhk r
  rcases List.mem_append.mp hhk with hm | hm
  · exact absurd hm (hNoHack hh)
  · exact absurd (List.mem_singleton.mp hm) (by simp)

theorem inv2_redeliver (pol : Policy) (H D : List Nat) (c mId : Nat)
    (expv : Int) (s : DState) (h : Nat) (hg : GoodPolicy pol)
    (hs : Inv2 H D s) : Inv2 H D (redeliver pol c mId expv s h) := by
  unfold redeliver
  rcases hl : lookupMsg s c mId with _ | mi
  · exact hs
  · simp only []
    split
    · rename_i hmem
      apply inv2_handlerSend pol H D h c mId _ s hg hs
        (hs.pendIns c mId (lookupMsg_some_pending s c mId mi hl))
      intro hh hhk
      exact hs.noRev h c mId mi hh hhk hl hmem
    · exact hs

theorem inv2_replayRound (pol : Policy) (H D : List Nat) (c : Nat)
    (activeL : List Nat) (snapshot : List (Nat × Int)) (s : DState)
    (hg : GoodPolicy pol) (hs : Inv2 H D s) :
    Inv2 H D (replayRound pol c activeL snapshot s) := by
  unfold replayRound
  exact WavesM.foldl_keeps
    (fun s' me _ hP => WavesM.foldl_keeps
      (fun s'' h _ hQ => inv2_redeliver pol H D c me.1 me.2 s'' h hg hQ) _ hP)
    _ hs

theorem inv2_replayPending (pol : Policy) (H D : List Nat) (c : Nat)
    (hg : GoodPolicy pol) :
    ∀ (fuel : Nat) (s : DState), Inv2 H D s →
    Inv2 H D (replayPending pol c fuel s) := by
  intro fuel
  induction fuel with
  | zero => intro s hs; exact hs
  | succ n ih =>
      intro s hs
      rw [replayPending]
      split
      · exact hs
      · exact ih _ (inv2_replayRound pol H D c _ _ _ hg (inv2_scratch hs _ _))

theorem inv2_expDeliver (pol : Policy) (H D : List Nat) (c m : Nat)
    (s : DState) (h : Nat) (hg : GoodPolicy pol) (hs : Inv2 H D s) :
    Inv2 H D (expDeliver pol c m s h) := by
  unfold expDeliver
  rcases hl : lookupMsg s c m with _ | mi
  · exact hs
  · simp only []
    split
    · rename_i hmem
      apply inv2_handlerSend pol H D h c m 0 s hg hs
        (hs.pendIns c m (lookupMsg_some_pending s c m mi hl))
      intro hh hhk
      exact hs.noRev h c m mi hh hhk hl hmem
    · exact hs

end Dispatch

namespace Dispatch

theorem inv2_expFinish (pol : Policy) (H D : List Nat) (c m : Nat)
    (s : DState) (hg : GoodPolicy pol) (hdisj : ∀ x, x ∈ D → x ∉ H)
    (hsubK : ∀ mi, lookupMsg s c m = some mi → mi.submitted = true)
    (hs : Inv2 H D s) : Inv2 H D (expFinish pol c m s) := by
  unfold expFinish
  split
  · rename_i hpend
    simp only []
    generalize hG : s.deadletters.foldl (fun s h => handlerSend pol h c m 0 s) s = s2
    have hIns0 : Event.ins c m ∈ s.log := hs.pendIns c m hpend
    have hP : Inv2 H D s2 ∧ Event.ins c m ∈ s2.log := by
      rw [← hG]
      refine @WavesM.foldl_keeps DState Nat
        (fun s' => Inv2 H D s' ∧ Event.ins c m ∈ s'.log) s.deadletters
        (fun s h => handlerSend pol h c m 0 s) ?_ s ⟨hs, hIns0⟩
      intro s' b hb hPd
      refine ⟨?_, mem_log_step (step_handlerSend pol b c m 0 s') hPd.2⟩
      apply inv2_handlerSend pol H D b c m 0 s' hg hPd.1 hPd.2
      intro hhb
      exact absurd hhb (hdisj b (by rw [← hs.hD]; exact hb))
    have hstep2 : Step s s2 := by
      rw [← hG]
      exact step_foldl _ _ (fun s' b _ => step_handlerSend pol b c m 0 s') s
    rcases hsrc : (lookupMsg s2 c m).map (fun mi => mi.source) with _ | v
    · rw [hsrc]
      exact inv2_delete H D s2 c m hP.1
    · rw [hsrc]
      have hmi2 : ∃ mi2, lookupMsg s2 c m = some mi2 := by
        rcases hlk : lookupMsg s2 c m with _ | mi2
        · rw [hlk] at hsrc
          exact Option.noConfusion hsrc
        · exact ⟨mi2, rfl⟩
      rcases hmi2 with ⟨mi2, hlk⟩
      have hsub2 : mi2.submitted = true := by
        obtain ⟨_, _, _, _, hk⟩ := hstep2
        rcases hk c m mi2 hlk with ⟨mi, hls, heq⟩
        rw [heq]
        exact hsubK mi hls
      apply inv2_emit H D (deleteMsg s2 c m) (Event.srcAck c m)
        (inv2_delete H D s2 c m hP.1)
      · intro c' m' heq h hh
        injection heq with e1 e2
        subst e1
        subst e2
        exact hP.1.subDel c m mi2 hlk hsub2 h hh
      · intro h' c' m' t heq
        exact absurd heq (by simp)
      · intro h' c' m' heq
        exact absurd heq (by simp)
      · intro h' c' m' heq
        exact absurd heq (by simp)
  · exact hs

theorem inv2_expireMsg (pol : Policy) (H D : List Nat) (c m : Nat)
    (s : DState) (hg : GoodPolicy pol) (hdisj : ∀ x, x ∈ D → x ∉ H)
    (hsubK : ∀ mi, lookupMsg s c m = some mi → mi.submitted = true)
    (hs : Inv2 H D s) : Inv2 H D (expireMsg pol c m s) := by
  unfold expireMsg
  have hstep : Step s (s.handlers.foldl (expDeliver pol c m) s) :=
    step_foldl _ _ (fun s' b _ => step_expDeliver pol c m s' b) s
  apply inv2_expFinish pol H D c m _ hg hdisj ?_ ?_
  · intro mi hlk
    obtain ⟨_, _, _, _, hk⟩ := hstep
    rcases hk c m mi hlk with ⟨mi0, hls, heq⟩
    rw [heq]
    exact hsubK mi0 hls
  · exact WavesM.foldl_keeps
      (fun s' b _ hP => inv2_expDeliver pol H D c m s' b hg hP) _ hs

theorem inv2_sweepOne (pol : Policy) (H D : List Nat) (rfuel : Nat)
    (c m : Nat) (s : DState) (hg : GoodPolicy pol)
    (hdisj : ∀ x, x ∈ D → x ∉ H) (hs : Inv2 H D s) (hsub : SubAll s) :
    Inv2 H D (sweepOne pol rfuel c m s) := by
  unfold sweepOne
  apply inv2_replayPending pol H D c hg rfuel _
  apply inv2_expireMsg pol H D c m _ hg hdisj ?_ (inv2_scratch hs _ _)
  intro mi hlk
  exact hsub c m mi hlk

theorem inv2_checkExpiring (pol : Policy) (H D : List Nat) (rfuel : Nat)
    (hg : GoodPolicy pol) (hdisj : ∀ x, x ∈ D → x ∉ H) :
    ∀ (n : Nat) (s : DState), Inv2 H D s → SubAll s →
    Inv2 H D (checkExpiring pol rfuel n s) := by
  intro n
  induction n with
  | zero => intro s hs _; exact hs
  | succ k ih =>
      intro s hs hsub
      rw [checkExpiring]
      rcases hm : s.messages with _ | ⟨⟨⟨c, m⟩, mi⟩, rest⟩
      · exact hs
      · simp only []
        split
        · exact hs
        · exact ih _ (inv2_sweepOne pol H D rfuel c m s hg hdisj hs hsub)
            (suball_step (step_sweepOne pol rfuel c m s) hsub)

theorem inv2_terminateD (pol : Policy) (H D : List Nat) (rfuel : Nat)
    (hg : GoodPolicy pol) (hdisj : ∀ x, x ∈ D → x ∉ H) :
    ∀ (n : Nat) (s : DState), Inv2 H D s → SubAll s →
    Inv2 H D (terminateD pol rfuel n s) := by
  intro n
  induction n with
  | zero => intro s hs _; exact hs
  | succ k ih =>
      intro s hs hsub
      rw [terminateD]
      rcases hm : s.messages with _ | ⟨⟨⟨c, m⟩, mi⟩, rest⟩
      · exact hs
      · exact ih _ (inv2_sweepOne pol H D rfuel c m s hg hdisj hs hsub)
          (suball_step (step_sweepOne pol rfuel c m s) hsub)

theorem lookupMsg_insertMsg (c m src : Nat) (ttl : Int) (s : DState)
    (c' m' : Nat) :
    lookupMsg (insertMsg c m src ttl s) c' m' =
      (lookupMsg s c' m').or
        (if ((c', m') : Nat × Nat) = (c, m) then
          some (MsgInfo.mk src (s.counter + ttl) [] false false)
        else none) := by
  unfold lookupMsg insertMsg
  simp only []
  rw [List.find?_append]
  rcases hf : s.messages.find? (fun e => decide (e.1 = (c', m'))) with _ | e
  · rw [hf]
    by_cases hkk : ((c', m') : Nat × Nat) = (c, m)
    · rw [if_pos hkk]
      rw [List.find?_cons_of_pos]
      · rfl
      · simp [hkk.symm]
    · rw [if_neg hkk]
      rw [List.find?_cons_of_neg]
      · rfl
      · simp only [decide_eq_true_eq]
        exact fun hcon => hkk hcon.symm
  · rw [hf]
    rfl

end Dispatch

namespace Dispatch

theorem inv2_insertMsg (H D : List Nat) (c m src : Nat) (ttl : Int)
    (s : DState) (hs : Inv2 H D s) : Inv2 H D (insertMsg c m src ttl s) := by
  obtain ⟨hH, hD, ackOrd, hackOrd, subDel, noRev, hackIns, pendIns, hNodup⟩ := hs
  refine ⟨hH, hD, ?_, ?_, ?_, ?_, ?_, ?_, ?_⟩
  · intro c' m' l1 l2 hdec h hh
    rcases append_singleton_decomp s.log (Event.ins c m) (Event.srcAck c' m')
        l1 l2 hdec with ⟨_, hxe, _⟩ | ⟨l2', hL, _⟩
    · exact absurd hxe (by simp)
    · exact ackOrd c' m' l1 l2' hL h hh
  · intro h' c' m' hh l1 l2 hdec t hmem
    rcases append_singleton_decomp s.log (Event.ins c m) (Event.hack h' c' m')
        l1 l2 hdec with ⟨_, hxe, _⟩ | ⟨l2', hL, hl2⟩
    · exact absurd hxe (by simp)
    · rw [hl2] at hmem
      rcases List.mem_append.mp hmem with hm2 | hm2
      · exact hackOrd h' c' m' hh l1 l2' hL t hm2
      · exact absurd (List.mem_singleton.mp hm2) (by simp)
  · intro c' m' mi hlk hsubm h hh
    rw [lookupMsg_insertMsg] at hlk
    rcases hf : lookupMsg s c' m' with _ | mi0
    · rw [hf, Option.none_or] at hlk
      by_cases hkk : ((c', m') : Nat × Nat) = (c, m)
      · rw [if_pos hkk] at hlk
        have hmi : MsgInfo.mk src (s.counter + ttl) [] false false = mi := by
          injection hlk
        rw [← hmi] at hsubm
        exact Bool.noConfusion hsubm
      · rw [if_neg hkk] at hlk
        exact Option.noConfusion hlk
    · rw [hf] at hlk
      have hmi : mi0 = mi := by injection hlk
      rcases subDel c' m' mi0 hf (by rw [hmi]; exact hsubm) h hh with ⟨t, ht⟩
      exact ⟨t, List.mem_append_left _ ht⟩
  · intro h' c' m' mi hh hhack hlk
    rcases List.mem_append.mp hhack with hm2 | hm2
    · rw [lookupMsg_insertMsg] at hlk
      rcases hf : lookupMsg s c' m' with _ | mi0
      · rw [hf, Option.none_or] at hlk
        by_cases hkk : ((c', m') : Nat × Nat) = (c, m)
        · rw [if_pos hkk] at hlk
          have hmi : MsgInfo.mk src (s.counter + ttl) [] false false = mi := by
            injection hlk
          rw [← hmi]
          exact List.not_mem_nil h'
        · rw [if_neg hkk] at hlk
          exact Option.noConfusion hlk
      · rw [hf] at hlk
        have hmi : mi0 = mi := by injection hlk
        rw [← hmi]
        exact noRev h' c' m' mi0 hh hm2 hf
    · exact absurd (List.mem_singleton.mp hm2) (by simp)
  · intro h' c' m' hhack
    rcases List.mem_append.mp hhack with hm2 | hm2
    · exact List.mem_append_left _ (hackIns h' c' m' hm2)
    · exact absurd (List.mem_singleton.mp hm2) (by simp)
  · intro c' m' hp
    rw [pendingB_insertMsg] at hp
    rcases (Bool.or_eq_true _ _).mp hp with h1 | h1
    · exact List.mem_append_left _ (pendIns c' m' h1)
    · have hk := of_decide_eq_true h1
      have hc : c = c' := congrArg Prod.fst hk
      have hm : m = m' := congrArg Prod.snd hk
      subst hc
      subst hm
      exact List.mem_append_right _ (List.mem_singleton.mpr rfl)
  · intro c' m' mi hlk
    rw [lookupMsg_insertMsg] at hlk
    rcases hf : lookupMsg s c' m' with _ | mi0
    · rw [hf, Option.none_or] at hlk
      by_cases hkk : ((c', m') : Nat × Nat) = (c, m)
      · rw [if_pos hkk] at hlk
        have hmi : MsgInfo.mk src (s.counter + ttl) [] false false = mi := by
          injection hlk
        rw [← hmi]
        exact List.nodup_nil
      · rw [if_neg hkk] at hlk
        exact Option.noConfusion hlk
    · rw [hf] at hlk
      have hmi : mi0 = mi := by injection hlk
      rw [← hmi]
      exact hNodup c' m' mi0 hf

theorem inv2_submitFin (pol : Policy) (H D : List Nat) (c m : Nat)
    (s : DState) (hg : GoodPolicy pol) (hdisj : ∀ x, x ∈ D → x ∉ H)
    (hs : Inv2 H D s)
    (hdeliv : ∀ h, h ∈ H → ∃ t, Event.hsend h c m t ∈ s.log)
    (hsubOther : ∀ c' m' mi, ¬(((c', m') : Nat × Nat) = (c, m)) →
        lookupMsg s c' m' = some mi → mi.submitted = true) :
    Inv2 H D (submitFin pol c m s) ∧ SubAll (submitFin pol c m s) := by
  unfold submitFin
  rcases hl : lookupMsg s c m with _ | mi
  · refine ⟨hs, ?_⟩
    intro c' m' mi' hlk
    by_cases hkk : ((c', m') : Nat × Nat) = (c, m)
    · have hc : c' = c := congrArg Prod.fst hkk
      have hm : m' = m := congrArg Prod.snd hkk
      subst hc
      subst hm
      rw [hl] at hlk
      exact Option.noConfusion hlk
    · exact hsubOther c' m' mi' hkk hlk
  · simp only []
    have h1 : Inv2 H D (setMsg s c m fun mi => { mi with submitted := true }) :=
      inv2_setSubmitted H D s c m hs hdeliv
    have hsub1 : SubAll (setMsg s c m fun mi => { mi with submitted := true }) := by
      intro c' m' mi' hlk
      rw [lookupMsg_setMsg] at hlk
      by_cases hkk : ((c', m') : Nat × Nat) = (c, m)
      · rw [if_pos hkk] at hlk
        rcases hmap : lookupMsg s c' m' with _ | mi0
        · rw [hmap] at hlk
          exact Option.noConfusion hlk
        · rw [hmap] at hlk
          have hmi : { mi0 with submitted := true } = mi' := by injection hlk
          rw [← hmi]
      · rw [if_neg hkk] at hlk
        exact hsubOther c' m' mi' hkk hlk
    split
    · refine ⟨?_, ?_⟩
      · exact inv2_expireMsg pol H D c m _ hg hdisj
          (fun mi0 hlk => hsub1 c m mi0 hlk) h1
      · exact suball_step (step_expireMsg pol c m _) hsub1
    · split
      · refine ⟨?_, ?_⟩
        · apply inv2_emit H D _ (Event.srcAck c m) (inv2_delete H D _ c m h1)
          · intro c' m' heq h hh
            injection heq with e1 e2
            subst e1
            subst e2
            exact hdeliv h hh
          · intro h' c' m' t heq
            exact absurd heq (by simp)
          · intro h' c' m' heq
            exact absurd heq (by simp)
          · intro h' c' m' heq
            exact absurd heq (by simp)
        · exact suball_step (step_trans (step_delete _ c m)
            (step_emit _ _ (fun c' m' => by simp))) hsub1
      · refine ⟨?_, ?_⟩
        · apply inv2_emit H D _ (Event.srcNack c m) h1
          · intro c' m' heq
            exact absurd heq (by simp)
          · intro h' c' m' t heq
            exact absurd heq (by simp)
          · intro h' c' m' heq
            exact absurd heq (by simp)
          · intro h' c' m' heq
            exact absurd heq (by simp)
        · exact suball_step (step_emit _ _ (fun c' m' => by simp)) hsub1

theorem inv2_sendFold (pol : Policy) (H D : List Nat) (c m : Nat) (ttl : Int)
    (hg : GoodPolicy pol) :
    ∀ (hl : List Nat) (s : DState), Inv2 H D s →
    Event.ins c m ∈ s.log →
    (∀ h, h ∈ hl → Event.hack h c m ∉ s.log) →
    hl.Nodup →
    Inv2 H D (hl.foldl (fun s h => handlerSend pol h c m ttl s) s) ∧
    Step s (hl.foldl (fun s h => handlerSend pol h c m ttl s) s) ∧
    (∀ h, h ∈ hl →
      ∃ t, Event.hsend h c m t ∈
        (hl.foldl (fun s h => handlerSend pol h c m ttl s) s).log) := by
  intro hl
  induction hl with
  | nil =>
      intro s hs hIns _ _
      exact ⟨hs, step_refl s, fun h hmem => absurd hmem (List.not_mem_nil h)⟩
  | cons h0 rest ih =>
      intro s hs hIns hHK hnd
      have hInv' : Inv2 H D (handlerSend pol h0 c m ttl s) :=
        inv2_handlerSend pol H D h0 c m ttl s hg hs hIns
          (fun _ => hHK h0 (List.mem_cons_self _ _))
      have hIns' : Event.ins c m ∈ (handlerSend pol h0 c m ttl s).log :=
        mem_log_step (step_handlerSend pol h0 c m ttl s) hIns
      have hHK' : ∀ h, h ∈ rest →
          Event.hack h c m ∉ (handlerSend pol h0 c m ttl s).log := by
        intro h hmem hhk
        rcases hack_handlerSend_mem pol h0 c m ttl h c m s hhk with hm | hk
        · exact hHK h (List.mem_cons_of_mem _ hmem) hm
        · rcases hk with ⟨rfl, _, _⟩
          exact (List.nodup_cons.mp hnd).1 hmem
      rcases ih (handlerSend pol h0 c m ttl s) hInv' hIns' hHK'
          (List.nodup_cons.mp hnd).2 with ⟨hi, hstep', hdeliv⟩
      refine ⟨hi, step_trans (step_handlerSend pol h0 c m ttl s) hstep', ?_⟩
      intro h hmem
      rcases List.mem_cons.mp hmem with rfl | hmem2
      · exact ⟨ttl, mem_log_step hstep' (hsend_in_handlerSend pol h c m ttl s)⟩
      · exact hdeliv h hmem2

theorem inv2_sendMessage (pol : Policy) (rfuel : Nat) (H D : List Nat)
    (c m src : Nat) (ttl : Int) (s : DState)
    (hg : GoodPolicy pol) (hdisj : ∀ x, x ∈ D → x ∉ H) (hndH : H.Nodup)
    (hs : Inv2 H D s) (hsub : SubAll s)
    (hfresh : countIns s.log c m = 0) :
    Inv2 H D (sendMessage pol rfuel c m src ttl s) ∧
      SubAll (sendMessage pol rfuel c m src ttl s) := by
  unfold sendMessage
  split
  · exact ⟨hs, hsub⟩
  · simp only []
    have h1 : Inv2 H D (insertMsg c m src ttl s) :=
      inv2_insertMsg H D c m src ttl s hs
    have hIns1 : Event.ins c m ∈ (insertMsg c m src ttl s).log := by
      show Event.ins c m ∈ s.log ++ [Event.ins c m]
      exact List.mem_append_right _ (List.mem_singleton.mpr rfl)
    have hHK1 : ∀ h, h ∈ (insertMsg c m src ttl s).handlers →
        Event.hack h c m ∉ (insertMsg c m src ttl s).log := by
      intro h _ hhk
      rcases List.mem_append.mp hhk with hm | hm
      · exact absurd (hs.hackIns h c m hm)
          (countIns_zero_not_mem s.log c m hfresh)
      · exact absurd (List.mem_singleton.mp hm) (by simp)
    have hnd1 : (insertMsg c m src ttl s).handlers.Nodup := by
      show s.handlers.Nodup
      rw [hs.hH]
      exact hndH
    rcases inv2_sendFold pol H D c m ttl hg (insertMsg c m src ttl s).handlers
        (insertMsg c m src ttl s) h1 hIns1 hHK1 hnd1 with ⟨h2, hstep2, hdeliv2⟩
    generalize hF : (insertMsg c m src ttl s).handlers.foldl
      (fun s h => handlerSend pol h c m ttl s) (insertMsg c m src ttl s) = s2
    rw [hF] at h2 hstep2 hdeliv2
    have hdelivH : ∀ h, h ∈ H → ∃ t, Event.hsend h c m t ∈ s2.log := by
      intro h hh
      apply hdeliv2
      show h ∈ s.handlers
      rw [hs.hH]
      exact hh
    have hsubO2 : ∀ c' m' mi, ¬(((c', m') : Nat × Nat) = (c, m)) →
        lookupMsg s2 c' m' = some mi → mi.submitted = true := by
      intro c' m' mi hkk hlk
      obtain ⟨_, _, _, _, hk⟩ := hstep2
      rcases hk c' m' mi hlk with ⟨mi1, hls1, heq1⟩
      rw [lookupMsg_insertMsg] at hls1
      rcases hfnd : lookupMsg s c' m' with _ | mi0
      · rw [hfnd, Option.none_or, if_neg hkk] at hls1
        exact Option.noConfusion hls1
      · rw [hfnd] at hls1
        have hmi : mi0 = mi1 := by injection hls1
        rw [heq1, ← hmi]
        exact hsub c' m' mi0 hfnd
    rcases inv2_submitFin pol H D c m s2 hg hdisj h2 hdelivH hsubO2 with
      ⟨h3, hsub3⟩
    constructor
    · apply inv2_checkExpiring pol H D rfuel hg hdisj _ _
        (inv2_replayPending pol H D c hg rfuel _ h3)
      exact suball_step (step_replayPending pol c rfuel _) hsub3
    · apply suball_step (step_checkExpiring pol rfuel _ _)
      exact suball_step (step_replayPending pol c rfuel _) hsub3

end Dispatch

namespace Dispatch

theorem countIns_step {s t : DState} (hst : Step s t) (c m : Nat) :
    countIns t.log c m = countIns s.log c m := by
  obtain ⟨_, _, ⟨ext, hl, hi⟩, _, _⟩ := hst
  rw [hl]
  exact countIns_ext_insfree s.log ext c m hi

theorem countIns_submitFin (pol : Policy) (c m : Nat) (s : DState)
    (c' m' : Nat) :
    countIns (submitFin pol c m s).log c' m' = countIns s.log c' m' := by
  unfold submitFin
  rcases hl : lookupMsg s c m with _ | mi
  · rfl
  · simp only []
    split
    · exact countIns_step (step_expireMsg pol c m _) c' m'
    · split
      · show countIns ((deleteMsg _ c m).log ++ [Event.srcAck c m]) c' m'
          = countIns s.log c' m'
        exact countIns_append_event _ _ _ _ (by simp)
      · show countIns (_ ++ [Event.srcNack c m]) c' m' = countIns s.log c' m'
        exact countIns_append_event _ _ _ _ (by simp)

theorem handlers_insertMsg (c m src : Nat) (ttl : Int) (s : DState) :
    (insertMsg c m src ttl s).handlers = s.handlers := rfl

theorem deadletters_insertMsg (c m src : Nat) (ttl : Int) (s : DState) :
    (insertMsg c m src ttl s).deadletters = s.deadletters := rfl

theorem handlers_submitFin (pol : Policy) (c m : Nat) (s : DState) :
    (submitFin pol c m s).handlers = s.handlers ∧
    (submitFin pol c m s).deadletters = s.deadletters := by
  unfold submitFin
  rcases hl : lookupMsg s c m with _ | mi
  · exact ⟨rfl, rfl⟩
  · simp only []
    split
    · obtain ⟨h1, h2, _, _, _⟩ := step_expireMsg pol c m
        (setMsg s c m fun mi => { mi with submitted := true })
      exact ⟨h1, h2⟩
    · split
      · exact ⟨rfl, rfl⟩
      · exact ⟨rfl, rfl⟩

theorem handlers_sendMessage (pol : Policy) (rfuel : Nat) (c m src : Nat)
    (ttl : Int) (s : DState) :
    (sendMessage pol rfuel c m src ttl s).handlers = s.handlers ∧
    (sendMessage pol rfuel c m src ttl s).deadletters = s.deadletters := by
  unfold sendMessage
  split
  · exact ⟨rfl, rfl⟩
  · simp only []
    generalize hG : (insertMsg c m src ttl s).handlers.foldl
      (fun s h => handlerSend pol h c m ttl s) (insertMsg c m src ttl s) = s2
    have hF : Step (insertMsg c m src ttl s) s2 := by
      rw [← hG]
      exact step_foldl _ _ (fun s' b _ => step_handlerSend pol b c m ttl s') _
    obtain ⟨hf1, hf2, _, _, _⟩ := hF
    obtain ⟨hs1, hs2⟩ := handlers_submitFin pol c m s2
    obtain ⟨hr1, hr2, _, _, _⟩ := step_replayPending pol c rfuel
      (submitFin pol c m s2)
    obtain ⟨hk1, hk2, _, _, _⟩ := step_checkExpiring pol rfuel
      (replayPending pol c rfuel (submitFin pol c m s2)).messages.length
      (replayPending pol c rfuel (submitFin pol c m s2))
    constructor
    · rw [hk1, hr1, hs1, hf1, handlers_insertMsg]
    · rw [hk2, hr2, hs2, hf2, deadletters_insertMsg]

theorem countIns_sendMessage_self (pol : Policy) (rfuel : Nat) (c m src : Nat)
    (ttl : Int) (s : DState) (hp : pendingB s c m = false) :
    countIns (sendMessage pol rfuel c m src ttl s).log c m
      = countIns s.log c m + 1 := by
  unfold sendMessage
  rw [hp]
  simp only [Bool.false_eq_true, if_false]
  generalize hG : (insertMsg c m src ttl s).handlers.foldl
    (fun s h => handlerSend pol h c m ttl s) (insertMsg c m src ttl s) = s2
  have hF : Step (insertMsg c m src ttl s) s2 := by
    rw [← hG]
    exact step_foldl _ _ (fun s' b _ => step_handlerSend pol b c m ttl s') _
  rw [countIns_step (step_checkExpiring pol rfuel _ _) c m,
    countIns_step (step_replayPending pol c rfuel _) c m,
    countIns_submitFin pol c m s2 c m, countIns_step hF c m]
  show countIns (s.log ++ [Event.ins c m]) c m = countIns s.log c m + 1
  exact countIns_append_self s.log c m

theorem countIns_sendMessage_other (pol : Policy) (rfuel : Nat)
    (c m src : Nat) (ttl : Int) (s : DState) (c' m' : Nat)
    (hk : ¬(((c', m') : Nat × Nat) = (c, m))) :
    countIns (sendMessage pol rfuel c m src ttl s).log c' m'
      = countIns s.log c' m' := by
  unfold sendMessage
  split
  · rfl
  · simp only []
    generalize hG : (insertMsg c m src ttl s).handlers.foldl
      (fun s h => handlerSend pol h c m ttl s) (insertMsg c m src ttl s) = s2
    have hF : Step (insertMsg c m src ttl s) s2 := by
      rw [← hG]
      exact step_foldl _ _ (fun s' b _ => step_handlerSend pol b c m ttl s') _
    rw [countIns_step (step_checkExpiring pol rfuel _ _) c' m',
      countIns_step (step_replayPending pol c rfuel _) c' m',
      countIns_submitFin pol c m s2 c' m', countIns_step hF c' m']
    show countIns (s.log ++ [Event.ins c m]) c' m' = countIns s.log c' m'
    apply countIns_append_event
    intro hcon
    injection hcon with e1 e2
    exact hk (by rw [e1, e2])

theorem pendingB_expireMsg_self (pol : Policy) (c m : Nat) (s : DState) :
    pendingB (expireMsg pol c m s) c m = false := by
  unfold expireMsg expFinish
  generalize hG : s.handlers.foldl (expDeliver pol c m) s = s1
  split
  · simp only []
    rcases hsrc : (lookupMsg (s1.deadletters.foldl
        (fun s h => handlerSend pol h c m 0 s) s1) c m).map
        (fun mi => mi.source) with _ | v
    · rw [hsrc]
      exact pendingB_deleteMsg_self _ c m
    · rw [hsrc]
      show pendingB (deleteMsg _ c m) c m = false
      exact pendingB_deleteMsg_self _ c m
  · rename_i hnp
    rcases hb : pendingB s1 c m with _ | _
    · rfl
    · exact absurd hb hnp

theorem sublist_missing_length {α : Type} {l' l : List α}
    (hs : List.Sublist l' l) {x : α} (hx : x ∈ l) (hx' : x ∉ l') :
    l'.length < l.length := by
  rcases Nat.lt_or_ge l'.length l.length with h | h
  · exact h
  · have heq : l'.length = l.length := Nat.le_antisymm hs.length_le h
    rw [hs.eq_of_length heq] at hx'
    exact absurd hx hx'

theorem sweepOne_length (pol : Policy) (rfuel : Nat) (c m : Nat) (s : DState)
    (mi : MsgInfo) (rest : List Entry)
    (hm : s.messages = ((c, m), mi) :: rest) :
    (sweepOne pol rfuel c m s).messages.length < s.messages.length := by
  unfold sweepOne
  have hkeyA : ((c, m) : Nat × Nat) ∉
      (expireMsg pol c m { s with active := [] }).messages.map Prod.fst := by
    intro hmem
    have := (pendingB_true_iff _ c m).mpr hmem
    rw [pendingB_expireMsg_self] at this
    exact Bool.noConfusion this
  obtain ⟨_, _, _, hsubA, _⟩ := step_expireMsg pol c m { s with active := [] }
  obtain ⟨_, _, _, hsubB, _⟩ := step_replayPending pol c rfuel
    (expireMsg pol c m { s with active := [] })
  have hkeyB : ((c, m) : Nat × Nat) ∉
      (replayPending pol c rfuel (expireMsg pol c m { s with active := [] })).messages.map
        Prod.fst := fun hmem => hkeyA (hsubB.subset hmem)
  have hmemS : ((c, m) : Nat × Nat) ∈ s.messages.map Prod.fst := by
    rw [hm]
    exact List.mem_map.mpr ⟨((c, m), mi), List.mem_cons_self _ _, rfl⟩
  have hlt := sublist_missing_length (hsubB.trans hsubA) hmemS hkeyB
  rw [List.length_map, List.length_map] at hlt
  exact hlt

theorem terminateD_empties (pol : Policy) (rfuel : Nat) :
    ∀ (n : Nat) (s : DState), s.messages.length ≤ n →
    (terminateD pol rfuel n s).messages = [] := by
  intro n
  induction n with
  | zero =>
      intro s hle
      exact List.eq_nil_of_length_eq_zero (Nat.le_zero.mp hle)
  | succ k ih =>
      intro s hle
      rw [terminateD]
      rcases hm : s.messages with _ | ⟨⟨⟨c, m⟩, mi⟩, rest⟩
      · exact hm
      · apply ih
        have hlt := sweepOne_length pol rfuel c m s mi rest hm
        rw [hm] at hlt hle
        simp only [List.length_cons] at hlt hle
        omega

theorem pendingB_of_empty (s : DState) (c m : Nat) (h : s.messages = []) :
    pendingB s c m = false := by
  unfold pendingB
  rw [h]
  rfl

end Dispatch

namespace Dispatch

def keyOf (q : Nat × Nat × Nat × Int) : Nat × Nat := (q.1, q.2.1)

def sendOps (sends : List (Nat × Nat × Nat × Int)) : List Op :=
  sends.map (fun q => Op.send q.1 q.2.1 q.2.2.1 q.2.2.2)

theorem invc1_init (hs dls : List Nat) : InvC1 (initState hs dls) := by
  intro c m
  rfl

theorem inv2_init (H D : List Nat) : Inv2 H D (initState H D) := by
  refine ⟨rfl, rfl, ?_, ?_, ?_, ?_, ?_, ?_, ?_⟩
  · intro c m l1 l2 hdec h hh
    have hdec2 : ([] : List Event) = l1 ++ Event.srcAck c m :: l2 := hdec
    exact absurd hdec2 (by simp)
  · intro h c m hh l1 l2 hdec t hmem
    have hdec2 : ([] : List Event) = l1 ++ Event.hack h c m :: l2 := hdec
    exact absurd hdec2 (by simp)
  · intro c m mi hlk
    exact Option.noConfusion hlk
  · intro h c m mi hh hhack hlk
    exact Option.noConfusion hlk
  · intro h c m hhack
    exact absurd hhack (List.not_mem_nil _)
  · intro c m hp
    exact Bool.noConfusion hp
  · intro c m mi hlk
    exact Option.noConfusion hlk

theorem suball_init (H D : List Nat) : SubAll (initState H D) :=
  fun c m mi hlk => Option.noConfusion hlk

theorem run_sends (pol : Policy) (rfuel : Nat) (H D : List Nat) :
    ∀ (sends : List (Nat × Nat × Nat × Int)) (s : DState),
    InvC1 s →
    (sends.map keyOf).Nodup →
    (∀ q, q ∈ sends → countIns s.log q.1 q.2.1 = 0) →
    s.handlers = H → s.deadletters = D →
    (GoodPolicy pol → (∀ x, x ∈ D → x ∉ H) → H.Nodup →
      Inv2 H D s ∧ SubAll s) →
    InvC1 (runOps pol rfuel (sendOps sends) s) ∧
    (∀ q, q ∈ sends →
      countIns (runOps pol rfuel (sendOps sends) s).log q.1 q.2.1 = 1) ∧
    (∀ c m, ((c, m) : Nat × Nat) ∉ sends.map keyOf →
      countIns (runOps pol rfuel (sendOps sends) s).log c m
        = countIns s.log c m) ∧
    (runOps pol rfuel (sendOps sends) s).handlers = H ∧
    (runOps pol rfuel (sendOps sends) s).deadletters = D ∧
    (GoodPolicy pol → (∀ x, x ∈ D → x ∉ H) → H.Nodup →
      Inv2 H D (runOps pol rfuel (sendOps sends) s) ∧
      SubAll (runOps pol rfuel (sendOps sends) s)) := by
  intro sends
  induction sends with
  | nil =>
      intro s hInv hnd hcnt hH hD hGP
      exact ⟨hInv, fun q hq => absurd hq (List.not_mem_nil q),
        fun c m _ => rfl, hH, hD, hGP⟩
  | cons q rest ih =>
      intro s hInv hnd hcnt hH hD hGP
      have hcnt0 : countIns s.log q.1 q.2.1 = 0 :=
        hcnt q (List.mem_cons_self _ _)
      have hp : pendingB s q.1 q.2.1 = false := by
        have h0 := hInv q.1 q.2.1
        rw [hcnt0] at h0
        rcases hb : pendingB s q.1 q.2.1 with _ | _
        · rfl
        · rw [hb, if_pos rfl] at h0
          omega
      have hInv1 : InvC1 (sendMessage pol rfuel q.1 q.2.1 q.2.2.1 q.2.2.2 s) :=
        invc1_sendMessage pol rfuel q.1 q.2.1 q.2.2.1 q.2.2.2 s hInv
      have hcnt1self : countIns
          (sendMessage pol rfuel q.1 q.2.1 q.2.2.1 q.2.2.2 s).log q.1 q.2.1
          = 1 := by
        have hcs := countIns_sendMessage_self pol rfuel q.1 q.2.1 q.2.2.1
          q.2.2.2 s hp
        rw [hcnt0] at hcs
        exact hcs
      have hheadnot : keyOf q ∉ rest.map keyOf := (List.nodup_cons.mp hnd).1
      have hndrest : (rest.map keyOf).Nodup := (List.nodup_cons.mp hnd).2
      have hcnt1 : ∀ q', q' ∈ rest →
          countIns (sendMessage pol rfuel q.1 q.2.1 q.2.2.1 q.2.2.2 s).log
            q'.1 q'.2.1 = 0 := by
        intro q' hq'
        have hkne : ¬(((q'.1, q'.2.1) : Nat × Nat) = (q.1, q.2.1)) := by
          intro hcon
          apply hheadnot
          rw [show keyOf q = (q.1, q.2.1) from rfl, ← hcon]
          exact List.mem_map.mpr ⟨q', hq', rfl⟩
        rw [countIns_sendMessage_other pol rfuel q.1 q.2.1 q.2.2.1 q.2.2.2 s
          q'.1 q'.2.1 hkne]
        exact hcnt q' (List.mem_cons_of_mem _ hq')
      have hH1 : (sendMessage pol rfuel q.1 q.2.1 q.2.2.1 q.2.2.2 s).handlers
          = H := by
        rw [(handlers_sendMessage pol rfuel q.1 q.2.1 q.2.2.1 q.2.2.2 s).1, hH]
      have hD1 : (sendMessage pol rfuel q.1 q.2.1 q.2.2.1 q.2.2.2 s).deadletters
          = D := by
        rw [(handlers_sendMessage pol rfuel q.1 q.2.1 q.2.2.1 q.2.2.2 s).2, hD]
      have hGP1 : GoodPolicy pol → (∀ x, x ∈ D → x ∉ H) → H.Nodup →
          Inv2 H D (sendMessage pol rfuel q.1 q.2.1 q.2.2.1 q.2.2.2 s) ∧
          SubAll (sendMessage pol rfuel q.1 q.2.1 q.2.2.1 q.2.2.2 s) := by
        intro hg hdisj hndH
        rcases hGP hg hdisj hndH with ⟨hi, hsa⟩
        exact inv2_sendMessage pol rfuel H D q.1 q.2.1 q.2.2.1 q.2.2.2 s hg
          hdisj hndH hi hsa hcnt0
      rcases ih (sendMessage pol rfuel q.1 q.2.1 q.2.2.1 q.2.2.2 s) hInv1
          hndrest hcnt1 hH1 hD1 hGP1 with ⟨f1, f2, f3, f4, f5, f6⟩
      refine ⟨f1, ?_, ?_, f4, f5, f6⟩
      · intro q' hq'
        rcases List.mem_cons.mp hq' with rfl | hq2
        · show countIns (runOps pol rfuel (sendOps rest)
            (sendMessage pol rfuel q'.1 q'.2.1 q'.2.2.1 q'.2.2.2 s)).log
            q'.1 q'.2.1 = 1
          rw [f3 q'.1 q'.2.1 (by exact hheadnot)]
          exact hcnt1self
        · exact f2 q' hq2
      · intro c m hnmem
        have hne : ((c, m) : Nat × Nat) ∉ rest.map keyOf :=
          fun hmem => hnmem (List.mem_cons_of_mem _ hmem)
        have hneq : ¬(((c, m) : Nat × Nat) = (q.1, q.2.1)) := by
          intro hcon
          apply hnmem
          rw [hcon]
          exact List.mem_cons_self _ _
        show countIns (runOps pol rfuel (sendOps rest)
          (sendMessage pol rfuel q.1 q.2.1 q.2.2.1 q.2.2.2 s)).log c m
          = countIns s.log c m
        rw [f3 c m hne]
        exact countIns_sendMessage_other pol rfuel q.1 q.2.1 q.2.2.1 q.2.2.2 s
          c m hneq

end Dispatch

namespace Dispatch

theorem run_full_facts (pol : Policy) (rfuel : Nat) (H D : List Nat)
    (sends : List (Nat × Nat × Nat × Int))
    (hnd : (sends.map keyOf).Nodup) :
    InvC1 (runOps pol rfuel (sendOps sends ++ [Op.terminate])
      (initState H D)) ∧
    (runOps pol rfuel (sendOps sends ++ [Op.terminate])
      (initState H D)).messages = [] ∧
    (∀ q, q ∈ sends →
      countIns (runOps pol rfuel (sendOps sends ++ [Op.terminate])
        (initState H D)).log q.1 q.2.1 = 1) ∧
    (GoodPolicy pol → (∀ x, x ∈ D → x ∉ H) → H.Nodup →
      Inv2 H D (runOps pol rfuel (sendOps sends ++ [Op.terminate])
        (initState H D))) := by
  have hrw : runOps pol rfuel (sendOps sends ++ [Op.terminate]) (initState H D)
      = terminateD pol rfuel
          (runOps pol rfuel (sendOps sends) (initState H D)).messages.length
          (runOps pol rfuel (sendOps sends) (initState H D)) := by
    unfold runOps
    rw [List.foldl_append]
    rfl
  rcases run_sends pol rfuel H D sends (initState H D) (invc1_init H D) hnd
      (fun q' _ => rfl) rfl rfl
      (fun _ _ _ => ⟨inv2_init H D, suball_init H D⟩) with
    ⟨f1, f2, _, _, _, f6⟩
  rw [hrw]
  refine ⟨?_, ?_, ?_, ?_⟩
  · exact invc1_terminateD pol rfuel _ _ f1
  · exact terminateD_empties pol rfuel _ _ (Nat.le_refl _)
  · intro q hq
    rw [countIns_step (step_terminateD pol rfuel _ _) q.1 q.2.1]
    exact f2 q hq
  · intro hg hdisj hndH
    rcases f6 hg hdisj hndH with ⟨hi, hsa⟩
    exact inv2_terminateD pol H D rfuel hg hdisj _ _ hi hsa

/-- C1: for every batch of send_message calls with per-channel-unique
message ids (the dispatcher requires message ids to be unique within a
channel and drops duplicate pending sends with a warning), followed by
terminate — which ends the lifetime of every message still pending, by
re-sending with ttl 0 to remaining interested handlers and routing through
the dead-letter handlers — the upstream source.ack_message for each
submitted (channel, message) is called exactly once over the run, for
every handler behaviour (arbitrary ack/nack sequences, including crashes
modelled as truncated call sequences) and every replay-loop fuel. -/
theorem c1_source_ack_exactly_once (pol : Policy) (rfuel : Nat)
    (H D : List Nat) (sends : List (Nat × Nat × Nat × Int))
    (hnd : (sends.map keyOf).Nodup) :
    ∀ q, q ∈ sends →
      countAck (runOps pol rfuel (sendOps sends ++ [Op.terminate])
        (initState H D)).log q.1 q.2.1 = 1 := by
  rcases run_full_facts pol rfuel H D sends hnd with ⟨f1, fempty, fcnt, _⟩
  intro q hq
  have h0 := f1 q.1 q.2.1
  rw [fcnt q hq, pendingB_of_empty _ q.1 q.2.1 fempty] at h0
  simp only [Bool.false_eq_true, if_false] at h0
  omega

theorem c1_source_ack_exactly_once_witness :
    ((([((0 : Nat), (7 : Nat), (99 : Nat), (5 : Int))] :
        List (Nat × Nat × Nat × Int)).map keyOf).Nodup) ∧
    countAck (runOps (fun _ _ _ _ _ => []) 1
      (sendOps [(0, 7, 99, 5)] ++ [Op.terminate]) (initState [0] [])).log
      0 7 = 1 :=
  ⟨by decide,
   c1_source_ack_exactly_once (fun _ _ _ _ _ => []) 1 [0] [] [(0, 7, 99, 5)]
     (by decide) (0, 7, 99, 5) (by decide)⟩

/-- C2: with handlers that ack or nack only the message they were handed
and never nack after acking it (true of every handler in the repository),
distinct dead-letter and regular handler registries, and per-channel-unique
message ids, every registered handler h receives h.send_message (c, m) at
least once for every accepted message, any upstream ack of (c, m) is
preceded by a delivery of (c, m) to every registered handler, and once h
has acked (c, m) no later operation (replay pass, expiry sweep or
subsequent send_message) delivers (c, m) to h again. -/
theorem c2_deliver_before_ack_no_redeliver (pol : Policy) (rfuel : Nat)
    (H D : List Nat) (sends : List (Nat × Nat × Nat × Int))
    (hg : GoodPolicy pol) (hdisj : ∀ x, x ∈ D → x ∉ H) (hndH : H.Nodup)
    (hnd : (sends.map keyOf).Nodup) :
    (∀ q, q ∈ sends → ∀ h, h ∈ H →
      (∃ t1, Event.hsend h q.1 q.2.1 t1 ∈
        (runOps pol rfuel (sendOps sends ++ [Op.terminate])
          (initState H D)).log) ∧
      (∀ l1 l2,
        (runOps pol rfuel (sendOps sends ++ [Op.terminate])
          (initState H D)).log = l1 ++ Event.srcAck q.1 q.2.1 :: l2 →
        ∃ t1, Event.hsend h q.1 q.2.1 t1 ∈ l1)) ∧
    (∀ h c m, h ∈ H → ∀ l1 l2,
      (runOps pol rfuel (sendOps sends ++ [Op.terminate])
        (initState H D)).log = l1 ++ Event.hack h c m :: l2 →
      ∀ t1, Event.hsend h c m t1 ∉ l2) := by
  rcases run_full_facts pol rfuel H D sends hnd with ⟨f1, fempty, fcnt, finv2⟩
  have hfin2 := finv2 hg hdisj hndH
  constructor
  · intro q hq h hh
    have h0 := f1 q.1 q.2.1
    rw [fcnt q hq, pendingB_of_empty _ q.1 q.2.1 fempty] at h0
    simp only [Bool.false_eq_true, if_false] at h0
    have hmemAck : Event.srcAck q.1 q.2.1 ∈
        (runOps pol rfuel (sendOps sends ++ [Op.terminate])
          (initState H D)).log := by
      by_contra hnm
      have hz : countAck (runOps pol rfuel (sendOps sends ++ [Op.terminate])
          (initState H D)).log q.1 q.2.1 = 0 := List.count_eq_zero.mpr hnm
      omega
    rcases List.append_of_mem hmemAck with ⟨l1, l2, hdec⟩
    constructor
    · rcases hfin2.ackOrd q.1 q.2.1 l1 l2 hdec h hh with ⟨t1, ht1⟩
      refine ⟨t1, ?_⟩
      rw [hdec]
      exact List.mem_append_left _ ht1
    · intro l1' l2' hdec'
      exact hfin2.ackOrd q.1 q.2.1 l1' l2' hdec' h hh
  · intro h c m hh l1 l2 hdec t1
    exact hfin2.hackOrd h c m hh l1 l2 hdec t1

theorem c2_deliver_before_ack_no_redeliver_witness :
    GoodPolicy (fun _ _ _ _ _ => [HAct.ack]) ∧
    (∀ x, x ∈ ([] : List Nat) → x ∉ [0]) ∧
    ([0] : List Nat).Nodup ∧
    ((([((0 : Nat), (7 : Nat), (99 : Nat), (5 : Int))] :
        List (Nat × Nat × Nat × Int)).map keyOf).Nodup) ∧
    ((∀ q, q ∈ [((0 : Nat), (7 : Nat), (99 : Nat), (5 : Int))] →
      ∀ h, h ∈ [0] →
      (∃ t1, Event.hsend h q.1 q.2.1 t1 ∈
        (runOps (fun _ _ _ _ _ => [HAct.ack]) 1
          (sendOps [(0, 7, 99, 5)] ++ [Op.terminate])
          (initState [0] [])).log) ∧
      (∀ l1 l2,
        (runOps (fun _ _ _ _ _ => [HAct.ack]) 1
          (sendOps [(0, 7, 99, 5)] ++ [Op.terminate])
          (initState [0] [])).log = l1 ++ Event.srcAck q.1 q.2.1 :: l2 →
        ∃ t1, Event.hsend h q.1 q.2.1 t1 ∈ l1)) ∧
    (∀ h c m, h ∈ ([0] : List Nat) → ∀ l1 l2,
      (runOps (fun _ _ _ _ _ => [HAct.ack]) 1
        (sendOps [(0, 7, 99, 5)] ++ [Op.terminate])
        (initState [0] [])).log = l1 ++ Event.hack h c m :: l2 →
      ∀ t1, Event.hsend h c m t1 ∉ l2)) := by
  refine ⟨?g, ?d, ?n, ?k,
    c2_deliver_before_ack_no_redeliver (fun _ _ _ _ _ => [HAct.ack]) 1
      [0] [] [(0, 7, 99, 5)] ?g ?d ?n ?k⟩
  case g =>
    intro h l c m ttl
    exact ⟨fun r hr => absurd hr (List.not_mem_nil _), trivial⟩
  case d =>
    intro x hx
    exact absurd hx (List.not_mem_nil x)
  case n => decide
  case k => decide

end Dispatch
